import Mathlib

/-!
Verification of the rsvp-reader document-ingestion core.

The TypeScript sources are shallowly embedded: JS strings are modelled as
Lean `String`s (sequences of characters; the sources under scrutiny only
manipulate BMP text, where one JS UTF-16 code unit corresponds to one
character), JS numbers that provably stay non-negative are modelled as `Nat`,
and the few places where a JS number can be negative (`indexOf` results,
block `wordEnd` fields, back-reference positions) use `Int` locally.
Byte arrays (`Uint8Array`) are modelled as `List Nat` with entries < 256.
-/

namespace RSVP

/-- The set of characters matched by the JS regex class `\s`. -/
def jsIsWs (c : Char) : Bool :=
  c == ' ' || c == '\t' || c == '\n' || c.toNat == 13 || c.toNat == 11 ||
  c.toNat == 12 || c.toNat == 0xa0 || c.toNat == 0x1680 ||
  (0x2000 ≤ c.toNat && c.toNat ≤ 0x200a) || c.toNat == 0x2028 ||
  c.toNat == 0x2029 || c.toNat == 0x202f || c.toNat == 0x205f ||
  c.toNat == 0x3000 || c.toNat == 0xfeff

/-- JS `String.prototype.trim()` (modulo the `\s` set above). -/
def jsTrim (s : String) : String :=
  ⟨((s.data.dropWhile jsIsWs).reverse.dropWhile jsIsWs).reverse⟩

/-- `s.split(/\s+/).filter(w => w.length > 0)`: the maximal runs of
non-whitespace characters of `s`. -/
def splitWsAux : List Char → List Char → List (List Char)
  | [], acc => if acc.isEmpty then [] else [acc.reverse]
  | c :: rest, acc =>
    if jsIsWs c then
      if acc.isEmpty then splitWsAux rest []
      else acc.reverse :: splitWsAux rest []
    else splitWsAux rest (c :: acc)

def splitWs (s : String) : List String :=
  (splitWsAux s.data []).map String.mk

/-- Dash characters recognised by the word-splitting primitive:
hyphen-minus, en-dash, em-dash. -/
def isDashChar (c : Char) : Bool :=
  c == '-' || c.toNat == 0x2013 || c.toNat == 0x2014

/-- Modelled from the spec: the Word-Splitting Primitive `splitOnDashes`
(its source file `src/lib/utils/text-parser.ts` is not under `src/`).
Spec §4.1: "Splits on embedded dash characters (hyphen, en-dash, em-dash)
into multiple sub-words only when the dash is interior (not leading/trailing),
producing one-or-more output tokens preserving order."  Each dash stays
attached to the fragment it terminates; a dash that would begin a fragment or
end the word does not split. -/
def splitOnDashesAux : List Char → List Char → List (List Char)
  | [], acc => [acc.reverse]
  | [c], acc => [(c :: acc).reverse]
  | c :: d :: rest, acc =>
    if isDashChar c && !acc.isEmpty then
      (c :: acc).reverse :: splitOnDashesAux (d :: rest) []
    else splitOnDashesAux (d :: rest) (c :: acc)

/-- Modelled from the spec: see `splitOnDashesAux`. -/
def splitOnDashes (w : String) : List String :=
  (splitOnDashesAux w.data []).map String.mk

theorem splitOnDashesAux_ne_nil (l : List Char) (acc : List Char) :
    splitOnDashesAux l acc ≠ [] := by
  induction l generalizing acc with
  | nil => simp [splitOnDashesAux]
  | cons c rest ih =>
    cases rest with
    | nil => simp [splitOnDashesAux]
    | cons d rest' =>
      rw [splitOnDashesAux]
      split
      · simp
      · exact ih (c :: acc)

theorem splitOnDashesAux_mem_ne_nil (l : List Char) (acc : List Char)
    (h : l ≠ [] ∨ acc ≠ []) :
    ∀ t ∈ splitOnDashesAux l acc, t ≠ [] := by
  induction l generalizing acc with
  | nil =>
    intro t ht
    simp [splitOnDashesAux] at ht
    subst ht
    simp only [ne_eq, List.reverse_eq_nil_iff]
    rcases h with h | h
    · exact absurd rfl h
    · exact h
  | cons c rest ih =>
    intro t ht
    cases rest with
    | nil =>
      simp [splitOnDashesAux] at ht
      subst ht
      simp
    | cons d rest' =>
      rw [splitOnDashesAux] at ht
      split at ht
      · rcases List.mem_cons.mp ht with h1 | h2
        · subst h1; simp
        · exact ih [] (Or.inl (by simp)) t h2
      · exact ih (c :: acc) (Or.inr (by simp)) t ht

theorem splitOnDashes_ne_nil (w : String) : splitOnDashes w ≠ [] := by
  unfold splitOnDashes
  simp only [ne_eq, List.map_eq_nil_iff]
  exact splitOnDashesAux_ne_nil w.data []

theorem splitOnDashes_mem_ne_empty (w : String) (hw : w.data ≠ []) :
    ∀ t ∈ splitOnDashes w, t ≠ "" := by
  intro t ht
  unfold splitOnDashes at ht
  rcases List.mem_map.mp ht with ⟨l, hl, rfl⟩
  have := splitOnDashesAux_mem_ne_nil w.data [] (Or.inl hw) l hl
  intro hcontra
  apply this
  have : (String.mk l).data = ("" : String).data := by rw [hcontra]
  simpa using this

/-- A word of the canonical document representation (`ParsedWord` in
`text-parser.ts`); absent `italic?`/`bold?` fields are modelled as `false`. -/
structure ParsedWord where
  text : String
  paragraphIndex : Nat
  pageIndex : Nat
  italic : Bool := false
  bold : Bool := false
deriving Repr, DecidableEq, Inhabited

/-- The canonical document (`ParsedDocument` in `text-parser.ts`). -/
structure ParsedDocument where
  words : List ParsedWord
  paragraphStarts : List Nat
  pageStarts : List Nat
  totalWords : Nat
  totalParagraphs : Nat
  totalPages : Nat
deriving Repr, DecidableEq, Inhabited

/-- The final `// Update pageIndex` loop shared verbatim by
`parseMobiText`, `parseRtfText`, `parseMarkdown` and `parseFb2`:
`if (pageIdx < pageStarts.length - 1 && i >= pageStarts[pageIdx + 1]) pageIdx++;
words[i].pageIndex = pageIdx;`. -/
def applyPageIdxGo (ps : List Nat) : List ParsedWord → Nat → Nat → List ParsedWord
  | [], _, _ => []
  | w :: rest, i, pageIdx =>
    let pageIdx' := if pageIdx < ps.length - 1 ∧ ps.getD (pageIdx + 1) 0 ≤ i
      then pageIdx + 1 else pageIdx
    { w with pageIndex := pageIdx' } :: applyPageIdxGo ps rest (i + 1) pageIdx'

def applyPageIdx (ws : List ParsedWord) (ps : List Nat) : List ParsedWord :=
  applyPageIdxGo ps ws 0 0

/-- `k` is the greatest index into `ps` whose entry is at most `i`. -/
def IsGreatestStart (ps : List Nat) (i k : Nat) : Prop :=
  k < ps.length ∧ ps.getD k 0 ≤ i ∧ ∀ j < ps.length, ps.getD j 0 ≤ i → j ≤ k

theorem getD_eq_get (l : List Nat) (j : Nat) (h : j < l.length) :
    l.getD j 0 = l.get ⟨j, h⟩ := by
  simp [List.getD_eq_getElem?_getD, List.getElem?_eq_getElem h]

theorem sorted_getD_lt (l : List Nat) (h : List.Sorted (· < ·) l)
    {j k : Nat} (hjk : j < k) (hk : k < l.length) :
    l.getD j 0 < l.getD k 0 := by
  rw [getD_eq_get l j (hjk.trans hk), getD_eq_get l k hk]
  exact List.pairwise_iff_get.mp h _ _ hjk

/-- Precondition for one iteration of the page-index update loop: either we
are at the first word with the initial page index `0`, or the running page
index is the greatest page for the previous word. -/
def PageIdxPre (ps : List Nat) (i g : Nat) : Prop :=
  (i = 0 ∧ g = 0) ∨ ∃ j, i = j + 1 ∧ IsGreatestStart ps j g

/-- The page-index update of one loop iteration. -/
def updIdx (ps : List Nat) (i g : Nat) : Nat :=
  if g < ps.length - 1 ∧ ps.getD (g + 1) 0 ≤ i then g + 1 else g

theorem upd_greatest (ps : List Nat) (hs : List.Sorted (· < ·) ps)
    (hne : ps ≠ []) (hh : ps.getD 0 0 = 0) (i g : Nat)
    (h : PageIdxPre ps i g) : IsGreatestStart ps i (updIdx ps i g) := by
  have hlen : 0 < ps.length := List.length_pos.mpr hne
  rcases h with ⟨rfl, rfl⟩ | ⟨j, rfl, hglen, hgle, hgmax⟩
  · unfold updIdx
    by_cases hcond : 0 < ps.length - 1 ∧ ps.getD (0 + 1) 0 ≤ 0
    · exfalso
      obtain ⟨hc1, hc2⟩ := hcond
      have hc2' : ps.getD 1 0 ≤ 0 := by simpa using hc2
      have h1 : (1 : Nat) < ps.length := by omega
      have := sorted_getD_lt ps hs (j := 0) (k := 1) (by omega) h1
      omega
    · rw [if_neg hcond]
      exact ⟨hlen, by omega, fun j hj hle => by
        by_contra hgt
        have := sorted_getD_lt ps hs (j := 0) (k := j) (by omega) hj
        omega⟩
  · unfold updIdx
    by_cases hcond : g < ps.length - 1 ∧ ps.getD (g + 1) 0 ≤ j + 1
    · rw [if_pos hcond]
      obtain ⟨hc1, hc2⟩ := hcond
      refine ⟨by omega, hc2, fun k hk hle => ?_⟩
      by_contra hgt
      have hg1 : ¬ ps.getD (g + 1) 0 ≤ j := by
        intro hle1
        have := hgmax (g + 1) (by omega) hle1
        omega
      have := sorted_getD_lt ps hs (j := g + 1) (k := k) (by omega) hk
      omega
    · rw [if_neg hcond]
      refine ⟨hglen, by omega, fun k hk hle => ?_⟩
      by_contra hgt
      have hgl1 : g < ps.length - 1 := by omega
      have hnle : ¬ ps.getD (g + 1) 0 ≤ j + 1 := fun hc => hcond ⟨hgl1, hc⟩
      rcases Nat.lt_or_ge (g + 1) k with hk1 | hk1
      · have := sorted_getD_lt ps hs (j := g + 1) (k := k) hk1 hk
        omega
      · have hkeq : k = g + 1 := by omega
        subst hkeq
        omega

theorem applyPageIdxGo_length (ps : List Nat) :
    ∀ (ws : List ParsedWord) (i g : Nat),
      (applyPageIdxGo ps ws i g).length = ws.length := by
  intro ws
  induction ws with
  | nil => intro i g; rfl
  | cons w rest ih => intro i g; simp [applyPageIdxGo, ih]

theorem applyPageIdxGo_greatest (ps : List Nat) (hs : List.Sorted (· < ·) ps)
    (hne : ps ≠ []) (hh : ps.getD 0 0 = 0) :
    ∀ (ws : List ParsedWord) (i g : Nat), PageIdxPre ps i g →
      ∀ k, k < ws.length →
        IsGreatestStart ps (i + k)
          (((applyPageIdxGo ps ws i g).getD k default).pageIndex) := by
  intro ws
  induction ws with
  | nil => intro i g _ k hk; simp at hk
  | cons w rest ih =>
    intro i g hpre k hk
    have hstep : IsGreatestStart ps i (updIdx ps i g) :=
      upd_greatest ps hs hne hh i g hpre
    cases k with
    | zero =>
      simpa [applyPageIdxGo, updIdx] using hstep
    | succ k' =>
      have hrec := ih (i + 1) (updIdx ps i g)
        (Or.inr ⟨i, rfl, hstep⟩) k' (by simpa using Nat.lt_of_succ_lt_succ hk)
      have harr : i + 1 + k' = i + (k' + 1) := by omega
      rw [harr] at hrec
      simpa [applyPageIdxGo, updIdx] using hrec

/-- The shared `// Update pageIndex` loop computes, for every word position,
the greatest page-start index at or below that position — provided the
page-start array is strictly increasing and begins with 0. -/
theorem applyPageIdx_greatest (ws : List ParsedWord) (ps : List Nat)
    (hs : List.Sorted (· < ·) ps) (hh : ps.head? = some 0) :
    ∀ k, k < ws.length →
      IsGreatestStart ps k (((applyPageIdx ws ps).getD k default).pageIndex) := by
  have hne : ps ≠ [] := by
    intro hcontra; rw [hcontra] at hh; simp at hh
  have h0 : ps.getD 0 0 = 0 := by
    cases ps with
    | nil => simp at hh
    | cons a l => simp at hh; simpa using hh
  intro k hk
  simpa using applyPageIdxGo_greatest ps hs hne h0 ws 0 0 (Or.inl ⟨rfl, rfl⟩) k hk

/-! ### `decompressPalmDoc` (mobi-adapter.ts, lines 56-97)

The decompressor is embedded index-for-index: `palmStep` is one iteration of
the `while (i < compressed.length)` loop, `palmGo` is the loop itself.  The
instrumented variants additionally record every input index read and every
output read as a pair `(position, output length at the time of the read)`.
JS note: when a back-reference has distance 0 the source evaluates
`output[output.length]`, which is `undefined`; the final
`new Uint8Array(output)` coerces `undefined` to the byte 0, so the embedding
uses `List.getD _ _ 0` for that read. -/

/-- The inner copy loop of the back-reference branch; returns the grown
output together with the performed output reads. -/
def palmCopy (out : List Nat) (distance : Nat) : Nat → List Nat × List (Nat × Nat)
  | 0 => (out, [])
  | k + 1 =>
    let pos : Int := (out.length : Int) - distance
    if 0 ≤ pos then
      let b := out.getD pos.toNat 0
      let r := palmCopy (out ++ [b]) distance k
      (r.1, (pos.toNat, out.length) :: r.2)
    else
      palmCopy (out ++ [0]) distance k

/-- Result of one iteration of the decompression loop. -/
structure PalmStep where
  nextI : Nat
  out : List Nat
  inReads : List Nat
  outReads : List (Nat × Nat)
deriving Repr, DecidableEq

/-- One iteration of the `decompressPalmDoc` loop, entered with the cursor
at `i < input.length`. -/
def palmStep (input : List Nat) (i : Nat) (out : List Nat) : PalmStep :=
  let b := input.getD i 0
  if b = 0 then
    ⟨i + 1, out ++ [0], [i], []⟩
  else if 1 ≤ b ∧ b ≤ 8 then
    let n := min b (input.length - (i + 1))
    ⟨i + 1 + n, out ++ (input.drop (i + 1)).take b,
      i :: (List.range n).map (fun j => i + 1 + j), []⟩
  else if 9 ≤ b ∧ b ≤ 0x7f then
    ⟨i + 1, out ++ [b], [i], []⟩
  else if 0x80 ≤ b ∧ b ≤ 0xbf then
    if input.length ≤ i + 1 then
      ⟨i + 1, out, [i], []⟩
    else
      let n := input.getD (i + 1) 0
      let distance := (((b &&& 0x3f) <<< 8) ||| n) >>> 3
      let len := (n &&& 0x07) + 3
      let r := palmCopy out distance len
      ⟨i + 2, r.1, [i, i + 1], r.2⟩
  else if 0xc0 ≤ b then
    ⟨i + 1, out ++ [0x20, b ^^^ 0x80], [i], []⟩
  else
    ⟨i + 1, out, [i], []⟩

theorem palmStep_nextI_gt (input : List Nat) (i : Nat) (out : List Nat) :
    i < (palmStep input i out).nextI := by
  simp only [palmStep]
  repeat' split
  all_goals simp
  all_goals omega

/-- The decompression loop. -/
def palmGo (input : List Nat) (i : Nat) (out : List Nat) : List Nat :=
  if i < input.length then
    let s := palmStep input i out
    palmGo input s.nextI s.out
  else out
termination_by input.length - i
decreasing_by
  have := palmStep_nextI_gt input i out
  omega

/-- `decompressPalmDoc` from mobi-adapter.ts. -/
def decompressPalmDoc (compressed : List Nat) : List Nat :=
  palmGo compressed 0 []

/-- The decompression loop with read instrumentation: also returns every
input index read and every output read (position, output length). -/
def palmGoTrace (input : List Nat) (i : Nat) (out : List Nat) :
    List Nat × List Nat × List (Nat × Nat) :=
  if i < input.length then
    let s := palmStep input i out
    let r := palmGoTrace input s.nextI s.out
    (r.1, s.inReads ++ r.2.1, s.outReads ++ r.2.2)
  else (out, [], [])
termination_by input.length - i
decreasing_by
  have := palmStep_nextI_gt input i out
  omega

theorem palmGoTrace_fst (input : List Nat) :
    ∀ i out, (palmGoTrace input i out).1 = palmGo input i out := by
  have H : ∀ n i out, input.length - i ≤ n →
      (palmGoTrace input i out).1 = palmGo input i out := by
    intro n
    induction n with
    | zero =>
      intro i out hle
      rw [palmGoTrace, palmGo]
      have : ¬ i < input.length := by omega
      simp [this]
    | succ n ih =>
      intro i out hle
      rw [palmGoTrace, palmGo]
      by_cases h : i < input.length
      · simp only [h, if_true]
        exact ih _ _ (by have := palmStep_nextI_gt input i out; omega)
      · simp [h]
  exact fun i out => H (input.length - i) i out le_rfl

/-- Every output read of the back-reference copy loop is at a position at
most the current output length, and strictly below it when the distance is
nonzero. -/
theorem palmCopy_outReads (d : Nat) :
    ∀ (k : Nat) (o : List Nat), ∀ pl ∈ (palmCopy o d k).2,
      pl.1 ≤ pl.2 ∧ (1 ≤ d → pl.1 < pl.2) := by
  intro k
  induction k with
  | zero => intro o pl hpl; simp [palmCopy] at hpl
  | succ k ih =>
    intro o pl hpl
    rw [palmCopy] at hpl
    by_cases hpos : (0 : Int) ≤ (o.length : Int) - d
    · simp only [hpos, if_true] at hpl
      rcases List.mem_cons.mp hpl with h1 | h2
      · subst h1
        refine ⟨by omega, fun hd => by omega⟩
      · exact ih _ pl h2
    · simp only [hpos, if_false] at hpl
      exact ih _ pl hpl

/-- Every input index read by one loop iteration is in bounds. -/
theorem palmStep_inReads (input : List Nat) (i : Nat) (out : List Nat)
    (hi : i < input.length) :
    ∀ r ∈ (palmStep input i out).inReads, r < input.length := by
  simp only [palmStep]
  repeat' split
  all_goals intro r hr
  all_goals simp at hr
  all_goals omega

theorem palmStep_outReads (input : List Nat) (i : Nat) (out : List Nat) :
    ∀ pl ∈ (palmStep input i out).outReads, pl.1 ≤ pl.2 := by
  simp only [palmStep]
  repeat' split
  all_goals intro pl hpl
  all_goals simp at hpl
  · exact (palmCopy_outReads _ _ _ pl hpl).1

theorem palmGoTrace_inReads (input : List Nat) :
    ∀ i out, ∀ r ∈ (palmGoTrace input i out).2.1, r < input.length := by
  have H : ∀ n i out, input.length - i ≤ n →
      ∀ r ∈ (palmGoTrace input i out).2.1, r < input.length := by
    intro n
    induction n with
    | zero =>
      intro i out hle r hr
      rw [palmGoTrace] at hr
      have hni : ¬ i < input.length := by omega
      simp [hni] at hr
    | succ n ih =>
      intro i out hle r hr
      rw [palmGoTrace] at hr
      by_cases h : i < input.length
      · simp only [h, if_true, List.mem_append] at hr
        rcases hr with hr | hr
        · exact palmStep_inReads input i out h r hr
        · exact ih _ _ (by have := palmStep_nextI_gt input i out; omega) r hr
      · simp [h] at hr
  exact fun i out => H (input.length - i) i out le_rfl

theorem palmGoTrace_outReads (input : List Nat) :
    ∀ i out, ∀ pl ∈ (palmGoTrace input i out).2.2, pl.1 ≤ pl.2 := by
  have H : ∀ n i out, input.length - i ≤ n →
      ∀ pl ∈ (palmGoTrace input i out).2.2, pl.1 ≤ pl.2 := by
    intro n
    induction n with
    | zero =>
      intro i out hle pl hpl
      rw [palmGoTrace] at hpl
      have hni : ¬ i < input.length := by omega
      simp [hni] at hpl
    | succ n ih =>
      intro i out hle pl hpl
      rw [palmGoTrace] at hpl
      by_cases h : i < input.length
      · simp only [h, if_true, List.mem_append] at hpl
        rcases hpl with hpl | hpl
        · exact palmStep_outReads input i out pl hpl
        · exact ih _ _ (by have := palmStep_nextI_gt input i out; omega) pl hpl
      · simp [h] at hpl
  exact fun i out => H (input.length - i) i out le_rfl

/-- `decompressPalmDoc` with read instrumentation. -/
def decompressPalmDocTrace (compressed : List Nat) :
    List Nat × List Nat × List (Nat × Nat) :=
  palmGoTrace compressed 0 []

theorem palmStep_eq_zero (input : List Nat) (i : Nat) (out : List Nat)
    (h0 : input.getD i 0 = 0) :
    palmStep input i out = ⟨i + 1, out ++ [0], [i], []⟩ := by
  simp only [palmStep]
  rw [if_pos h0]

theorem palmStep_eq_run (input : List Nat) (i : Nat) (out : List Nat)
    (h1 : 1 ≤ input.getD i 0) (h8 : input.getD i 0 ≤ 8) :
    palmStep input i out =
      ⟨i + 1 + min (input.getD i 0) (input.length - (i + 1)),
        out ++ (input.drop (i + 1)).take (input.getD i 0),
        i :: (List.range (min (input.getD i 0) (input.length - (i + 1)))).map
          (fun j => i + 1 + j), []⟩ := by
  simp only [palmStep]
  rw [if_neg (by omega), if_pos ⟨h1, h8⟩]

theorem palmStep_eq_lit (input : List Nat) (i : Nat) (out : List Nat)
    (h9 : 9 ≤ input.getD i 0) (h7f : input.getD i 0 ≤ 0x7f) :
    palmStep input i out = ⟨i + 1, out ++ [input.getD i 0], [i], []⟩ := by
  simp only [palmStep]
  rw [if_neg (by omega), if_neg (by omega), if_pos ⟨h9, h7f⟩]

theorem palmStep_eq_backref (input : List Nat) (i : Nat) (out : List Nat)
    (h80 : 0x80 ≤ input.getD i 0) (hbf : input.getD i 0 ≤ 0xbf)
    (hnext : i + 1 < input.length) :
    palmStep input i out =
      ⟨i + 2,
        (palmCopy out
          ((((input.getD i 0 &&& 0x3f) <<< 8) ||| input.getD (i + 1) 0) >>> 3)
          ((input.getD (i + 1) 0 &&& 0x07) + 3)).1,
        [i, i + 1],
        (palmCopy out
          ((((input.getD i 0 &&& 0x3f) <<< 8) ||| input.getD (i + 1) 0) >>> 3)
          ((input.getD (i + 1) 0 &&& 0x07) + 3)).2⟩ := by
  simp only [palmStep]
  rw [if_neg (by omega), if_neg (by omega), if_neg (by omega),
    if_pos ⟨h80, hbf⟩, if_neg (by omega)]

theorem palmStep_eq_space (input : List Nat) (i : Nat) (out : List Nat)
    (hc0 : 0xc0 ≤ input.getD i 0) :
    palmStep input i out =
      ⟨i + 1, out ++ [0x20, input.getD i 0 ^^^ 0x80], [i], []⟩ := by
  simp only [palmStep]
  rw [if_neg (by omega), if_neg (by omega), if_neg (by omega),
    if_neg (by omega), if_pos hc0]

theorem palmGo_step (input : List Nat) (i : Nat) (out : List Nat)
    (hi : i < input.length) :
    palmGo input i out =
      palmGo input (palmStep input i out).nextI (palmStep input i out).out := by
  conv_lhs => rw [palmGo]
  simp [hi]

/-- C4: the decode rules of `decompressPalmDoc`.  Each conjunct is one
branch of the control-byte dispatch, stated for an arbitrary loop state
(cursor `i`, produced output `out`): 0x00 emits one literal zero byte;
0x01–0x08 copies the next `b` raw input bytes; 0x09–0x7f emits `b` itself;
0x80–0xbf reads the following byte `n` and copies `(n & 7) + 3` bytes from
`((b & 0x3f) << 8 | n) >> 3` positions back in the already-produced output,
a copy position before the start of the output emitting a zero byte
(the next-to-last conjunct); a byte ≥ 0xc0 emits a space followed by
`b XOR 0x80`. -/
theorem C4_palm_decode_rules (input : List Nat) (i : Nat) (out : List Nat)
    (hi : i < input.length) :
    (decompressPalmDoc input = palmGo input 0 []) ∧
    (input.getD i 0 = 0 →
      palmGo input i out = palmGo input (i + 1) (out ++ [0])) ∧
    (∀ b, input.getD i 0 = b → 1 ≤ b → b ≤ 8 →
      palmGo input i out =
        palmGo input (i + 1 + min b (input.length - (i + 1)))
          (out ++ (input.drop (i + 1)).take b)) ∧
    (∀ b, input.getD i 0 = b → 9 ≤ b → b ≤ 0x7f →
      palmGo input i out = palmGo input (i + 1) (out ++ [b])) ∧
    (∀ b n, input.getD i 0 = b → 0x80 ≤ b → b ≤ 0xbf → i + 1 < input.length →
      input.getD (i + 1) 0 = n →
      palmGo input i out =
        palmGo input (i + 2)
          (palmCopy out ((((b &&& 0x3f) <<< 8) ||| n) >>> 3)
            ((n &&& 0x07) + 3)).1) ∧
    (∀ (o : List Nat) (d k : Nat), (palmCopy o d (k + 1)).1 =
      (palmCopy (o ++ [if (o.length : Int) - d < 0 then 0
        else o.getD ((o.length : Int) - d).toNat 0]) d k).1) ∧
    (∀ b, input.getD i 0 = b → 0xc0 ≤ b →
      palmGo input i out = palmGo input (i + 1) (out ++ [0x20, b ^^^ 0x80])) := by
  refine ⟨rfl, ?_, ?_, ?_, ?_, ?_, ?_⟩
  · intro h0
    rw [palmGo_step input i out hi, palmStep_eq_zero input i out h0]
  · intro b hb h1 h8
    subst hb
    rw [palmGo_step input i out hi, palmStep_eq_run input i out h1 h8]
  · intro b hb h9 h7f
    subst hb
    rw [palmGo_step input i out hi, palmStep_eq_lit input i out h9 h7f]
  · intro b n hb h80 hbf hnext hn
    subst hb; subst hn
    rw [palmGo_step input i out hi, palmStep_eq_backref input i out h80 hbf hnext]
  · intro o d k
    rw [palmCopy]
    by_cases hpos : (0 : Int) ≤ (o.length : Int) - d
    · simp only [hpos, if_true]
      rw [if_neg (by omega)]
    · simp only [hpos, if_false]
      rw [if_pos (by omega)]
  · intro b hb hc0
    subst hb
    rw [palmGo_step input i out hi, palmStep_eq_space input i out hc0]

theorem C4_palm_decode_rules_witness :
    palmGo [0] 0 [] = palmGo [0] 1 [0] ∧
    palmGo [3, 10, 20] 0 [] = palmGo [3, 10, 20] 3 [10, 20] ∧
    palmGo [65] 0 [] = palmGo [65] 1 [65] ∧
    palmGo [0x80, 0x09] 0 [] =
      palmGo [0x80, 0x09] 2
        (palmCopy [] ((((0x80 &&& 0x3f) <<< 8) ||| 0x09) >>> 3)
          ((0x09 &&& 0x07) + 3)).1 ∧
    (palmCopy [7] 2 1).1 =
      (palmCopy ([7] ++ [if ((1 : Int) - 2) < 0 then 0
        else [7].getD ((1 : Int) - 2).toNat 0]) 2 0).1 ∧
    palmGo [0xc1] 0 [] = palmGo [0xc1] 1 [0x20, 0xc1 ^^^ 0x80] := by
  refine ⟨?_, ?_, ?_, ?_, ?_, ?_⟩
  · simpa using (C4_palm_decode_rules [0] 0 [] (by decide)).2.1 rfl
  · simpa using (C4_palm_decode_rules [3, 10, 20] 0 [] (by decide)).2.2.1 3 rfl
      (by decide) (by decide)
  · simpa using (C4_palm_decode_rules [65] 0 [] (by decide)).2.2.2.1 65 rfl
      (by decide) (by decide)
  · simpa using (C4_palm_decode_rules [0x80, 0x09] 0 [] (by decide)).2.2.2.2.1
      0x80 0x09 rfl (by decide) (by decide) (by decide) rfl
  · have h := (C4_palm_decode_rules [0x80, 0x09] 0 [] (by decide)).2.2.2.2.2.1
      [7] 2 0
    simpa using h
  · simpa using (C4_palm_decode_rules [0xc1] 0 [] (by decide)).2.2.2.2.2.2
      0xc1 rfl (by decide)

/-- C5 (amended): the decompressor is total — the input cursor strictly
advances on every loop iteration — and every input read is below the input
length; every back-reference read of the output is at an index at most the
current output length, and strictly below it whenever the encoded distance
is nonzero (a distance-0 reference reads at index = length, where the JS
source obtains `undefined` and the final `Uint8Array` conversion yields a
zero byte). -/
theorem C5_palm_safety :
    (∀ (input : List Nat) (i : Nat) (out : List Nat),
      i < (palmStep input i out).nextI) ∧
    (∀ (input : List Nat), ∀ r ∈ (decompressPalmDocTrace input).2.1,
      r < input.length) ∧
    (∀ (input : List Nat), ∀ pl ∈ (decompressPalmDocTrace input).2.2,
      pl.1 ≤ pl.2) ∧
    (∀ (o : List Nat) (d k : Nat), 1 ≤ d →
      ∀ pl ∈ (palmCopy o d k).2, pl.1 < pl.2) ∧
    (∀ (input : List Nat), (decompressPalmDocTrace input).1 =
      decompressPalmDoc input) := by
  refine ⟨palmStep_nextI_gt, ?_, ?_, ?_, ?_⟩
  · exact fun input => palmGoTrace_inReads input 0 []
  · exact fun input => palmGoTrace_outReads input 0 []
  · exact fun o d k hd pl hpl => (palmCopy_outReads d k o pl hpl).2 hd
  · exact fun input => palmGoTrace_fst input 0 []

theorem C5_palm_safety_witness :
    0 < (palmStep [0x80, 0x00] 0 []).nextI ∧
    (0 ∈ (decompressPalmDocTrace [0x01, 0x41]).2.1 ∧ 0 < 2) ∧
    ((0, 0) ∈ (decompressPalmDocTrace [0x80, 0x00]).2.2 ∧ (0 : Nat) ≤ 0) ∧
    (1 ≤ 1 ∧ (0, 1) ∈ (palmCopy [7] 1 1).2 ∧ 0 < 1) ∧
    (decompressPalmDocTrace [0x80, 0x00]).1 = decompressPalmDoc [0x80, 0x00] := by
  have hd : (0x80 &&& 0x3f) <<< 8 >>> 3 = 0 := by decide
  have hm1 : (0, 0) ∈ (decompressPalmDocTrace [0x80, 0x00]).2.2 := by
    simp [decompressPalmDocTrace, palmGoTrace, palmStep, palmCopy, hd]
  have hm2 : 0 ∈ (decompressPalmDocTrace [0x01, 0x41]).2.1 := by
    simp [decompressPalmDocTrace, palmGoTrace, palmStep, palmCopy]
  have hm3 : (0, 1) ∈ (palmCopy [7] 1 1).2 := by
    simp [palmCopy]
  refine ⟨C5_palm_safety.1 [0x80, 0x00] 0 [],
    ⟨hm2, C5_palm_safety.2.1 [0x01, 0x41] 0 hm2⟩,
    ⟨hm1, C5_palm_safety.2.2.1 [0x80, 0x00] (0, 0) hm1⟩,
    ⟨le_rfl, hm3, C5_palm_safety.2.2.2.1 [7] 1 1 le_rfl (0, 1) hm3⟩,
    C5_palm_safety.2.2.2.2 [0x80, 0x00]⟩

/-- C5 counterexample: on the input `[0x80, 0x00]` the back-reference has
distance 0 and the decompressor performs an output read at position 0 while
the output length is still 0 — not inside `[0, current output length)` as
the claim states. -/
theorem C5_palm_counterexample :
    (0, 0) ∈ (decompressPalmDocTrace [0x80, 0x00]).2.2 ∧ ¬ (0 < 0) := by
  have hd : (0x80 &&& 0x3f) <<< 8 >>> 3 = 0 := by decide
  constructor
  · simp [decompressPalmDocTrace, palmGoTrace, palmStep, palmCopy, hd]
  · omega

/-! ### `rtfToText` (rtf-adapter.ts, lines 14-191)

The character scanner is embedded with an explicit fuel argument (structural
recursion so that concrete runs are kernel-computable); every iteration of
the source loop consumes at least one input character, so a fuel of
`input length + 1` is always sufficient.  `textParts` is kept as the list of
pushed strings exactly as in the source and joined at the end. -/

def isAsciiAlpha (c : Char) : Bool :=
  ('a' ≤ c && c ≤ 'z') || ('A' ≤ c && c ≤ 'Z')

/-- JS `parseInt(s, 10)` restricted to the strings produced by the control
word scanner (an optional minus sign followed by decimal digits);
`none` is NaN. -/
def jsParseInt (s : String) : Option Int :=
  match s.data with
  | '-' :: ds =>
    let pre := ds.takeWhile Char.isDigit
    if pre.isEmpty then none
    else some (-(pre.foldl (fun a c => a * 10 + (c.toNat - 48)) 0 : Nat))
  | ds =>
    let pre := ds.takeWhile Char.isDigit
    if pre.isEmpty then none
    else some ((pre.foldl (fun a c => a * 10 + (c.toNat - 48)) 0 : Nat))

/-- JS `String.fromCharCode(code)` (ToUint16).  A lone UTF-16 surrogate is
not representable as a Lean `Char`; `Char.ofNat` maps those to U+0000.  No
claim in this development touches that range. -/
def jsFromCharCode (code : Int) : Char :=
  Char.ofNat (code.toNat % 65536)

/-- State of the `rtfToText` scanner. -/
structure RtfSt where
  textParts : List String := []
  italicMarks : List Bool := []
  boldMarks : List Bool := []
  currentItalic : Bool := false
  currentBold : Bool := false
  inGroup : Int := 0
  skipGroup : Bool := false
deriving Repr, DecidableEq, Inhabited

/-- Push one character together with the current formatting flags. -/
def rtfPushChar (st : RtfSt) (ch : Char) : RtfSt :=
  { st with
    textParts := st.textParts ++ [String.singleton ch]
    italicMarks := st.italicMarks ++ [st.currentItalic]
    boldMarks := st.boldMarks ++ [st.currentBold] }

/-- The destinations whose groups are discarded. -/
def skipDestinations : List String :=
  ["fonttbl", "colortbl", "stylesheet", "info", "pict", "object",
   "datafield", "themedata", "colorschememapping"]

/-- The `switch (controlWord)` of `rtfToText`. -/
def applyControlWord (cw : String) (param : String) (st : RtfSt) : RtfSt :=
  if cw = "par" ∨ cw = "line" then
    { st with
      textParts := st.textParts ++ ["\n\n"]
      italicMarks := st.italicMarks ++ [false]
      boldMarks := st.boldMarks ++ [false] }
  else if cw = "tab" then rtfPushChar st ' '
  else if cw = "i" then { st with currentItalic := param != "0" }
  else if cw = "b" then { st with currentBold := param != "0" }
  else if cw = "plain" then { st with currentItalic := false, currentBold := false }
  else if cw = "u" then
    if param ≠ "" then
      match jsParseInt param with
      | some code => if 0 ≤ code then rtfPushChar st (jsFromCharCode code) else st
      | none => st
    else st
  else if cw = "emdash" then rtfPushChar st (Char.ofNat 0x2014)
  else if cw = "endash" then rtfPushChar st (Char.ofNat 0x2013)
  else if cw = "ldblquote" then rtfPushChar st '"'
  else if cw = "rdblquote" then rtfPushChar st '"'
  else if cw = "lquote" then rtfPushChar st (Char.ofNat 0x2018)
  else if cw = "rquote" then rtfPushChar st (Char.ofNat 0x2019)
  else if cw ∈ skipDestinations then { st with skipGroup := true }
  else st

/-- Reads the optional signed numeric parameter of a control word. -/
def rtfReadParam : List Char → String × List Char
  | '-' :: r => (String.mk ('-' :: r.takeWhile Char.isDigit), r.dropWhile Char.isDigit)
  | r =>
    if (r.takeWhile Char.isDigit).isEmpty then ("", r)
    else (String.mk (r.takeWhile Char.isDigit), r.dropWhile Char.isDigit)

/-- The main character loop of `rtfToText`. -/
def rtfGo : Nat → List Char → RtfSt → RtfSt
  | 0, _, st => st
  | _ + 1, [], st => st
  | fuel + 1, c :: rest, st =>
    if c = '{' then rtfGo fuel rest { st with inGroup := st.inGroup + 1 }
    else if c = '}' then
      let g := st.inGroup - 1
      let sk := if st.skipGroup ∧ g = 0 then false else st.skipGroup
      rtfGo fuel rest { st with inGroup := g, skipGroup := sk }
    else if st.skipGroup then rtfGo fuel rest st
    else if c = '\\' then
      match rest with
      | [] => st
      | next :: rest2 =>
        if next = '\\' ∨ next = '{' ∨ next = '}' then
          rtfGo fuel rest2 (rtfPushChar st next)
        else if next = '\n' ∨ next = '\r' then
          rtfGo fuel rest2 st
        else
          let cw := String.mk (rest.takeWhile isAsciiAlpha)
          let afterCw := rest.dropWhile isAsciiAlpha
          let pr := rtfReadParam afterCw
          let afterSpace := match pr.2 with
            | ' ' :: r => r
            | r => r
          let afterAll := if cw = "u" then
              match afterSpace with
              | '?' :: r => r
              | r => r
            else afterSpace
          rtfGo fuel afterAll (applyControlWord cw pr.1 st)
    else
      if c ≠ '\r' ∧ c ≠ '\n' then rtfGo fuel rest (rtfPushChar st c)
      else rtfGo fuel rest st

/-- Result of `rtfToText`: plain text plus the two formatting mark arrays. -/
structure RtfResult where
  text : String
  italic : List Bool
  bold : List Bool
deriving Repr, DecidableEq, Inhabited

/-- `rtfToText` from rtf-adapter.ts. -/
def rtfToText (rtf : String) : RtfResult :=
  let st := rtfGo (rtf.data.length + 1) rtf.data {}
  ⟨String.join st.textParts, st.italicMarks, st.boldMarks⟩

/-- The characters kept by the regular-text branch of the scanner. -/
def rtfKeep (c : Char) : Bool := !(c == '\r' || c == '\n')

theorem join_map_singleton (l : List Char) :
    String.join (l.map String.singleton) = ⟨l⟩ := by
  induction l with
  | nil => rfl
  | cons c cs ih =>
    simp only [List.map_cons, String.join, List.foldl_cons]
    have : ∀ (acc : String) (parts : List String),
        parts.foldl (· ++ ·) acc = acc ++ parts.foldl (· ++ ·) "" := by
      intro acc parts
      induction parts generalizing acc with
      | nil => simp
      | cons p ps ihp =>
        simp only [List.foldl_cons]
        rw [ihp (acc ++ p), ihp ("" ++ p)]
        simp [String.append_assoc]
    rw [this]
    have hih : List.foldl (· ++ ·) "" (cs.map String.singleton) = (⟨cs⟩ : String) := ih
    rw [hih]
    apply String.ext
    simp [String.singleton]

/-- On a stretch of input free of backslashes and braces (with `skipGroup`
off), the scanner copies every character except CR and LF, pushing the
current formatting flags once per kept character. -/
theorem rtfGo_plain :
    ∀ (l : List Char) (fuel : Nat) (st : RtfSt),
      l.length < fuel →
      (∀ c ∈ l, c ≠ '\\' ∧ c ≠ '{' ∧ c ≠ '}') →
      st.skipGroup = false →
      rtfGo fuel l st =
        { st with
          textParts := st.textParts ++ (l.filter rtfKeep).map String.singleton
          italicMarks := st.italicMarks ++
            List.replicate (l.filter rtfKeep).length st.currentItalic
          boldMarks := st.boldMarks ++
            List.replicate (l.filter rtfKeep).length st.currentBold } := by
  intro l
  induction l with
  | nil =>
    intro fuel st hf _ _
    cases fuel with
    | zero => omega
    | succ f => simp [rtfGo]
  | cons c cs ih =>
    intro fuel st hf hno hsk
    cases fuel with
    | zero => simp at hf
    | succ f =>
      obtain ⟨hc1, hc2, hc3⟩ := hno c (List.mem_cons_self c cs)
      have hrest : ∀ x ∈ cs, x ≠ '\\' ∧ x ≠ '{' ∧ x ≠ '}' :=
        fun x hx => hno x (List.mem_cons_of_mem c hx)
      rw [rtfGo.eq_def]
      dsimp only
      rw [if_neg hc2, if_neg hc3, if_neg (by simp [hsk]), if_neg hc1]
      by_cases hkeep : c ≠ '\r' ∧ c ≠ '\n'
      · rw [if_pos hkeep]
        rw [ih f (rtfPushChar st c) (by simpa using hf) hrest (by simp [rtfPushChar, hsk])]
        have hk : rtfKeep c = true := by simp [rtfKeep, hkeep.1, hkeep.2]
        have hfil : (c :: cs).filter rtfKeep = c :: cs.filter rtfKeep := by
          simp [List.filter_cons, hk]
        rw [hfil]
        simp [rtfPushChar, List.replicate_succ, List.append_assoc]
      · rw [if_neg hkeep]
        rw [ih f st (by simpa using hf) hrest hsk]
        have hcr : c = '\r' ∨ c = '\n' := by
          by_cases h1 : c = '\r'
          · exact Or.inl h1
          · right
            by_cases h2 : c = '\n'
            · exact h2
            · exact absurd ⟨h1, h2⟩ hkeep
        have hk : rtfKeep c = false := by
          rcases hcr with rfl | rfl <;> decide
        have hfil : (c :: cs).filter rtfKeep = cs.filter rtfKeep := by
          simp [List.filter_cons, hk]
        rw [hfil]

/-- C6 (amended): on input containing no backslash and no brace,
`rtfToText` returns the input with every CR and LF removed (hence the input
itself when it contains neither), and formatting-flag arrays that are all
`false`, one entry per output character. -/
theorem C6_rtf_plain_text (s : String)
    (hno : ∀ c ∈ s.data, c ≠ '\\' ∧ c ≠ '{' ∧ c ≠ '}') :
    (rtfToText s).text = ⟨s.data.filter rtfKeep⟩ ∧
    (rtfToText s).italic = List.replicate (s.data.filter rtfKeep).length false ∧
    (rtfToText s).bold = List.replicate (s.data.filter rtfKeep).length false ∧
    ((∀ c ∈ s.data, c ≠ '\r' ∧ c ≠ '\n') → (rtfToText s).text = s) := by
  have hrun := rtfGo_plain s.data (s.data.length + 1) {} (by omega) hno rfl
  have htext : (rtfToText s).text = ⟨s.data.filter rtfKeep⟩ := by
    simp only [rtfToText, hrun]
    exact join_map_singleton _
  refine ⟨htext, ?_, ?_, ?_⟩
  · simp only [rtfToText, hrun]; simp
  · simp only [rtfToText, hrun]; simp
  · intro hcrlf
    rw [htext]
    have : s.data.filter rtfKeep = s.data := by
      apply List.filter_eq_self.mpr
      intro c hc
      obtain ⟨h1, h2⟩ := hcrlf c hc
      simp [rtfKeep, h1, h2]
    rw [this]

theorem C6_rtf_plain_text_witness :
    (∀ c ∈ "ab".data, c ≠ '\\' ∧ c ≠ '{' ∧ c ≠ '}') ∧
    (rtfToText "ab").text = ⟨"ab".data.filter rtfKeep⟩ ∧
    ((∀ c ∈ "ab".data, c ≠ '\r' ∧ c ≠ '\n') ∧ (rtfToText "ab").text = "ab") := by
  have hno : ∀ c ∈ "ab".data, c ≠ '\\' ∧ c ≠ '{' ∧ c ≠ '}' := by decide
  have hcrlf : ∀ c ∈ "ab".data, c ≠ '\r' ∧ c ≠ '\n' := by decide
  exact ⟨hno, (C6_rtf_plain_text "ab" hno).1,
    hcrlf, (C6_rtf_plain_text "ab" hno).2.2.2 hcrlf⟩

/-- C6 counterexample: `"a\nb"` contains no control sequence, yet the
returned text is `"ab"`, not the input. -/
theorem C6_rtf_counterexample :
    (∀ c ∈ "a\nb".data, c ≠ '\\' ∧ c ≠ '{' ∧ c ≠ '}') ∧
    (rtfToText "a\nb").text ≠ "a\nb" := by
  constructor
  · decide
  · decide

/-- C7 (code bug): on `"{\rtf1 a\par b}"` the `\par` control word pushes the
two-character string `"\n\n"` but only one italic/bold mark, so the returned
text has 5 characters while the flag arrays have only 3 entries — the
per-character alignment the spec promises is broken. -/
theorem C7_rtf_misalignment :
    (rtfToText "\x7b\\rtf1 a\\par b\x7d").text.length = 4 ∧
    (rtfToText "\x7b\\rtf1 a\\par b\x7d").italic.length = 3 ∧
    (rtfToText "\x7b\\rtf1 a\\par b\x7d").bold.length = 3 := by
  refine ⟨?_, ?_, ?_⟩ <;> decide

/-- C8 (amended): `\i` and `\b` turn their attribute off exactly when the
parameter is the literal digit string "0" (not: when its numeric value is 0),
and on for any other parameter including an absent one; `\plain` clears
both attributes. -/
theorem C8_rtf_toggle_rules (param : String) (st : RtfSt) :
    ((applyControlWord "i" param st).currentItalic = (param != "0")) ∧
    ((applyControlWord "i" param st).currentBold = st.currentBold) ∧
    ((applyControlWord "b" param st).currentBold = (param != "0")) ∧
    ((applyControlWord "b" param st).currentItalic = st.currentItalic) ∧
    ((applyControlWord "" param st).currentItalic = st.currentItalic) ∧
    ((applyControlWord "plain" param st).currentItalic = false) ∧
    ((applyControlWord "plain" param st).currentBold = false) := by
  refine ⟨?_, ?_, ?_, ?_, ?_, ?_, ?_⟩ <;>
    simp [applyControlWord, skipDestinations]

/-- C8 counterexample: the parameter `"00"` has numeric value 0 but turns
italics on, because the source compares the parameter string with `'0'`. -/
theorem C8_rtf_counterexample :
    jsParseInt "00" = some 0 ∧ (rtfToText "\\i00 a").italic = [true] := by
  constructor
  · decide
  · decide

/-! ### Adapter registry and dispatch (types.ts, registry, adapters/index.ts)

`jsToLower` models `String.prototype.toLowerCase()`; Lean's `toLower` maps
the ASCII range only, which covers every extension and MIME type compared
here. -/

def jsToLowerChar (c : Char) : Char :=
  if 'A' ≤ c ∧ c ≤ 'Z' then Char.ofNat (c.toNat + 32) else c

def jsToLower (s : String) : String := ⟨s.data.map jsToLowerChar⟩

/-- JS `s.split(sep)` for a single-character separator (keeps empty parts). -/
def jsSplitOnAux (sep : Char) : List Char → List Char → List (List Char)
  | [], acc => [acc.reverse]
  | c :: rest, acc =>
    if c = sep then acc.reverse :: jsSplitOnAux sep rest []
    else jsSplitOnAux sep rest (c :: acc)

def jsSplitOn (sep : Char) (s : String) : List String :=
  (jsSplitOnAux sep s.data []).map String.mk

/-- Registration metadata of a `FileAdapter` (types.ts). -/
structure FileAdapterMeta where
  extensions : List String
  mimeTypes : List String
  formatName : String
deriving Repr, DecidableEq, Inhabited

/-- The name and declared media type of a `File`. -/
structure FileMeta where
  name : String
  type : String
deriving Repr, DecidableEq, Inhabited

/-- `file.name.toLowerCase().split('.').pop() || ''` (canAdapterHandle). -/
def fileExtension (name : String) : String :=
  ((jsSplitOn '.' (jsToLower name)).getLast?).getD ""

/-- `canAdapterHandle` from types.ts. -/
def canAdapterHandle (a : FileAdapterMeta) (f : FileMeta) : Bool :=
  a.extensions.contains (fileExtension f.name) ||
  a.mimeTypes.contains (jsToLower f.type)

/-- `AdapterRegistry.getAdapterForFile`: first registered adapter that can
handle the file, else `null`. -/
def getAdapterForFile (adapters : List FileAdapterMeta) (f : FileMeta) :
    Option FileAdapterMeta :=
  adapters.find? (fun a => canAdapterHandle a f)

/-- `AdapterRegistry.register` (skips adapters with a duplicate format name). -/
def registerAdapter (l : List FileAdapterMeta) (a : FileAdapterMeta) :
    List FileAdapterMeta :=
  if l.any (fun b => b.formatName == a.formatName) then l else l ++ [a]

def epubAdapterMeta : FileAdapterMeta :=
  ⟨["epub"], ["application/epub+zip"], "EPUB"⟩
def pdfAdapterMeta : FileAdapterMeta :=
  ⟨["pdf"], ["application/pdf"], "PDF"⟩
def textAdapterMeta : FileAdapterMeta :=
  ⟨["txt", "text"], ["text/plain"], "Plain Text"⟩
def htmlAdapterMeta : FileAdapterMeta :=
  ⟨["html", "htm", "xhtml"], ["text/html", "application/xhtml+xml"], "HTML"⟩
def markdownAdapterMeta : FileAdapterMeta :=
  ⟨["md", "markdown"], ["text/markdown", "text/x-markdown"], "Markdown"⟩
def fb2AdapterMeta : FileAdapterMeta :=
  ⟨["fb2"], ["application/x-fictionbook+xml", "text/xml"], "FictionBook (FB2)"⟩
def docxAdapterMeta : FileAdapterMeta :=
  ⟨["docx"],
   ["application/vnd.openxmlformats-officedocument.wordprocessingml.document"],
   "Microsoft Word (DOCX)"⟩
def rtfAdapterMeta : FileAdapterMeta :=
  ⟨["rtf"], ["application/rtf", "text/rtf"], "Rich Text Format (RTF)"⟩
def odtAdapterMeta : FileAdapterMeta :=
  ⟨["odt"], ["application/vnd.oasis.opendocument.text"],
   "OpenDocument Text (ODT)"⟩
def mobiAdapterMeta : FileAdapterMeta :=
  ⟨["mobi", "azw", "azw3", "prc"],
   ["application/x-mobipocket-ebook", "application/vnd.amazon.ebook"],
   "Kindle (MOBI/AZW)"⟩

/-- The registry built by adapters/index.ts in registration order. -/
def registryAdapters : List FileAdapterMeta :=
  [epubAdapterMeta, pdfAdapterMeta, textAdapterMeta, htmlAdapterMeta,
   markdownAdapterMeta, fb2AdapterMeta, docxAdapterMeta, rtfAdapterMeta,
   odtAdapterMeta, mobiAdapterMeta].foldl registerAdapter []

/-- Set-insertion preserving first-insertion order (JS `Set`). -/
def insertUnique (l : List String) (x : String) : List String :=
  if x ∈ l then l else l ++ [x]

/-- `AdapterRegistry.getSupportedExtensions`: deduplicated union of all
extensions, sorted (JS default `Array.prototype.sort`, lexicographic). -/
def getSupportedExtensions (adapters : List FileAdapterMeta) : List String :=
  ((adapters.foldl (fun acc a => a.extensions.foldl insertUnique acc) []).mergeSort
    (fun a b => a ≤ b))

/-- The extension shown in the unsupported-file message:
`file.name.split('.').pop()?.toLowerCase() || 'unknown'`. -/
def errorExtension (name : String) : String :=
  let popped := jsToLower (((jsSplitOn '.' name).getLast?).getD "")
  if popped = "" then "unknown" else popped

/-- The `Unsupported file type` message thrown by `parseFile`. -/
def unsupportedMessage (adapters : List FileAdapterMeta) (f : FileMeta) : String :=
  "Unsupported file type: ." ++ errorExtension f.name ++
  "\n\nSupported formats: " ++
  String.intercalate ", " ((getSupportedExtensions adapters).map (fun e => "." ++ e))

/-- The adapter-selection step of `parseFile`. -/
def parseFileSelect (adapters : List FileAdapterMeta) (f : FileMeta) :
    Except String FileAdapterMeta :=
  match getAdapterForFile adapters f with
  | none => .error (unsupportedMessage adapters f)
  | some a => .ok a

theorem find?_first {α : Type} (p : α → Bool) :
    ∀ (l : List α) (a : α), l.find? p = some a →
      ∃ i, i < l.length ∧ l.getD i a = a ∧ p a = true ∧
        ∀ j < i, p (l.getD j a) = false := by
  intro l
  induction l with
  | nil => intro a h; simp [List.find?] at h
  | cons x xs ih =>
    intro a h
    rw [List.find?] at h
    by_cases hx : p x = true
    · rw [hx] at h
      simp at h
      subst h
      exact ⟨0, by simp, by simp, hx, fun j hj => by omega⟩
    · have hx' : p x = false := by
        cases hpx : p x
        · rfl
        · exact absurd hpx hx
      rw [hx'] at h
      simp at h
      obtain ⟨i, hi, hget, hpa, hprev⟩ := ih a h
      refine ⟨i + 1, by simpa using Nat.succ_lt_succ hi, by simpa using hget,
        hpa, ?_⟩
      intro j hj
      cases j with
      | zero => simpa using hx'
      | succ j' => simpa using hprev j' (by omega)

theorem find?_none_iff {α : Type} (p : α → Bool) (l : List α) :
    l.find? p = none ↔ ∀ a ∈ l, p a = false := by
  constructor
  · intro h a ha
    by_contra hcontra
    have hp : p a = true := by
      cases hpa : p a
      · exact absurd hpa hcontra
      · rfl
    rcases List.find?_isSome.mpr ⟨a, ha, hp⟩ with h2
    rw [h] at h2
    simp at h2
  · intro h
    cases hf : l.find? p with
    | none => rfl
    | some b =>
      have := List.find?_some hf
      have hb := List.mem_of_find?_eq_some hf
      rw [h b hb] at this
      simp at this

theorem mem_getSupportedExtensions (adapters : List FileAdapterMeta)
    (a : FileAdapterMeta) (ha : a ∈ adapters) (e : String)
    (he : e ∈ a.extensions) : e ∈ getSupportedExtensions adapters := by
  unfold getSupportedExtensions
  rw [List.mem_mergeSort]
  have hins : ∀ (x : String) (l : List String) (acc : List String),
      x ∈ acc → x ∈ l.foldl insertUnique acc := by
    intro x l
    induction l with
    | nil => intro acc h; simpa using h
    | cons y ys ih =>
      intro acc h
      simp only [List.foldl_cons]
      apply ih
      unfold insertUnique
      split
      · exact h
      · exact List.mem_append_left _ h
  have hins2 : ∀ (x : String) (l : List String) (acc : List String),
      x ∈ l → x ∈ l.foldl insertUnique acc := by
    intro x l
    induction l with
    | nil => intro acc h; simp at h
    | cons y ys ih =>
      intro acc h
      simp only [List.foldl_cons]
      rcases List.mem_cons.mp h with rfl | h2
      · apply hins
        unfold insertUnique
        split
        · assumption
        · exact List.mem_append_right _ (by simp)
      · exact ih _ h2
  have houter : ∀ (l : List FileAdapterMeta) (acc : List String),
      e ∈ acc ∨ (∃ b ∈ l, e ∈ b.extensions) →
      e ∈ l.foldl (fun acc a => a.extensions.foldl insertUnique acc) acc := by
    intro l
    induction l with
    | nil =>
      intro acc h
      rcases h with h | ⟨b, hb, _⟩
      · simpa using h
      · simp at hb
    | cons x xs ih =>
      intro acc h
      simp only [List.foldl_cons]
      apply ih
      rcases h with h | ⟨b, hb, hbe⟩
      · exact Or.inl (hins e _ acc h)
      · rcases List.mem_cons.mp hb with rfl | hb2
        · exact Or.inl (hins2 e _ acc hbe)
        · exact Or.inr ⟨b, hb2, hbe⟩
  exact houter adapters [] (Or.inr ⟨a, ha, he⟩)

/-- C3: the registry resolves a file to the first registered adapter whose
extension list contains the lowercased final extension of the file name or
whose MIME list contains the lowercased declared type; with no match it
returns null, and `parseFile` then throws the `Unsupported file type`
message listing the supported extensions of all registered adapters. -/
theorem C3_registry_resolution (adapters : List FileAdapterMeta) (f : FileMeta) :
    (∀ a, canAdapterHandle a f = true ↔
      (fileExtension f.name ∈ a.extensions ∨ jsToLower f.type ∈ a.mimeTypes)) ∧
    (∀ a, getAdapterForFile adapters f = some a →
      ∃ i, i < adapters.length ∧ adapters.getD i a = a ∧
        canAdapterHandle a f = true ∧
        ∀ j < i, canAdapterHandle (adapters.getD j a) f = false) ∧
    (getAdapterForFile adapters f = none ↔
      ∀ a ∈ adapters, canAdapterHandle a f = false) ∧
    (getAdapterForFile adapters f = none →
      parseFileSelect adapters f = .error
        ("Unsupported file type: ." ++ errorExtension f.name ++
         "\n\nSupported formats: " ++
         String.intercalate ", "
           ((getSupportedExtensions adapters).map (fun e => "." ++ e)))) ∧
    (∀ a ∈ adapters, ∀ e ∈ a.extensions, e ∈ getSupportedExtensions adapters) := by
  refine ⟨?_, ?_, ?_, ?_, ?_⟩
  · intro a
    simp [canAdapterHandle]
  · intro a h
    exact find?_first _ adapters a h
  · exact find?_none_iff _ adapters
  · intro h
    simp [parseFileSelect, h, unsupportedMessage]
  · exact mem_getSupportedExtensions adapters

theorem C3_registry_resolution_witness :
    (canAdapterHandle markdownAdapterMeta ⟨"Notes.MD", ""⟩ = true ∧
      (fileExtension "Notes.MD" ∈ markdownAdapterMeta.extensions ∨
        jsToLower "" ∈ markdownAdapterMeta.mimeTypes)) ∧
    (getAdapterForFile registryAdapters ⟨"a.xyz", "application/xyz"⟩ = none ∧
      parseFileSelect registryAdapters ⟨"a.xyz", "application/xyz"⟩ = .error
        ("Unsupported file type: ." ++ errorExtension "a.xyz" ++
         "\n\nSupported formats: " ++
         String.intercalate ", "
           ((getSupportedExtensions registryAdapters).map (fun e => "." ++ e)))) ∧
    (mobiAdapterMeta ∈ registryAdapters ∧ "azw3" ∈ mobiAdapterMeta.extensions ∧
      "azw3" ∈ getSupportedExtensions registryAdapters) := by
  have hhandle : canAdapterHandle markdownAdapterMeta ⟨"Notes.MD", ""⟩ = true := by
    decide
  have hnone : getAdapterForFile registryAdapters ⟨"a.xyz", "application/xyz"⟩ = none := by
    decide
  have hmem : mobiAdapterMeta ∈ registryAdapters := by decide
  have hext : "azw3" ∈ mobiAdapterMeta.extensions := by decide
  refine ⟨⟨hhandle, ?_⟩, ⟨hnone, ?_⟩, hmem, hext, ?_⟩
  · exact ((C3_registry_resolution registryAdapters ⟨"Notes.MD", ""⟩).1
      markdownAdapterMeta).mp hhandle
  · exact (C3_registry_resolution registryAdapters
      ⟨"a.xyz", "application/xyz"⟩).2.2.2.1 hnone
  · exact (C3_registry_resolution registryAdapters
      ⟨"a.xyz", "application/xyz"⟩).2.2.2.2 mobiAdapterMeta hmem "azw3" hext

/-! ### The tiny-page merge pass of `parseFile` (adapters/index.ts, lines 77-149) -/

/-- One chapter entry of the preview metadata (`ChapterInfo`,
epub-parser.ts). -/
structure ChapterInfo where
  title : String
  href : String
  wordStart : Option Nat := none
  wordEnd : Option Nat := none
deriving Repr, DecidableEq, Inhabited

/-- One preview unit (`ChapterContent`, epub-parser.ts); the always-empty
`imageUrls` map is omitted. -/
structure ChapterContent where
  chapterIndex : Nat
  htmlWithMarkers : String
  wordRange : Int × Int
deriving Repr, DecidableEq, Inhabited

/-- `PreviewContent` from types.ts. -/
structure PreviewContent where
  chapterContents : List ChapterContent
  chapters : List ChapterInfo
  chapterStarts : List Nat
deriving Repr, DecidableEq, Inhabited

/-- `AdapterParseResult` from types.ts; `extra` holds the `fileType` value,
the only key the adapters ever set. -/
structure AdapterParseResult where
  document : ParsedDocument
  title : Option String := none
  author : Option String := none
  preview : Option PreviewContent := none
  warnings : List String := []
  extraFileType : Option String := none
deriving Repr, DecidableEq, Inhabited

/-- `words[i]?.text?.trim()` is truthy. -/
def wordNonEmpty (words : List ParsedWord) (i : Nat) : Bool :=
  match words.get? i with
  | some w => jsTrim w.text != ""
  | none => false

/-- `words[i]?.text === ''`. -/
def wordEmptyPlaceholder (words : List ParsedWord) (i : Nat) : Bool :=
  match words.get? i with
  | some w => w.text == ""
  | none => false

/-- The per-page scan of the merge pass: counts non-empty words in word
positions `[lo, hiP1)` and notes empty-text (image placeholder) words. -/
def scanPage (words : List ParsedWord) (lo hiP1 : Nat) : Nat × Bool :=
  (List.range' lo (hiP1 - lo)).foldl
    (fun acc i =>
      if wordNonEmpty words i then (acc.1 + 1, acc.2)
      else if wordEmptyPlaceholder words i then (acc.1, true)
      else acc) (0, false)

/-- `minWordsPerPage` from parseFile. -/
def minWordsPerPage : Nat := 20

/-- The page-merge loop of `parseFile`; `remaining` counts the iterations
left (`pageStarts.length - pageIdx`), making the recursion structural. -/
def mergeLoop (ps : List Nat) (words : List ParsedWord) (cs : List Nat) :
    Nat → Nat → List Nat → Nat → List Nat
  | 0, _, acc, _ => acc
  | remaining + 1, pageIdx, acc, cnt =>
    let pageStart := ps.getD pageIdx 0
    let hiP1 := if pageIdx + 1 < ps.length then ps.getD (pageIdx + 1) 0
      else words.length
    let scanned := scanPage words pageStart hiP1
    let cnt' := cnt + scanned.1
    let nextIsChapter := pageIdx + 1 < ps.length ∧ ps.getD (pageIdx + 1) 0 ∈ cs
    let shouldBreak := cnt' ≥ minWordsPerPage ∨ (scanned.2 ∧ scanned.1 = 0) ∨
      nextIsChapter
    if shouldBreak ∧ pageIdx + 1 < ps.length then
      mergeLoop ps words cs remaining (pageIdx + 1) (acc ++ [ps.getD (pageIdx + 1) 0]) 0
    else
      mergeLoop ps words cs remaining (pageIdx + 1) acc cnt'

/-- The merged page-start list computed by the pass. -/
def mergedStarts (ps : List Nat) (words : List ParsedWord) (cs : List Nat) :
    List Nat :=
  mergeLoop ps words cs ps.length 0 [0] 0

/-- The backwards scan assigning each word its new page
(`for (let p = newPageStarts.length - 1; p >= 0; p--) ...`). -/
def findPageDescAux (nps : List Nat) (i : Nat) : Nat → Nat
  | 0 => 0
  | p + 1 => if nps.getD p 0 ≤ i then p else findPageDescAux nps i p

def findPageDesc (nps : List Nat) (i : Nat) : Nat :=
  findPageDescAux nps i nps.length

def applyMergePageIdx (words : List ParsedWord) (nps : List Nat) :
    List ParsedWord :=
  words.mapIdx (fun i w => { w with pageIndex := findPageDesc nps i })

/-- `chapterStartWords` collected from `result.preview?.chapters`. -/
def resultChapterStarts (result : AdapterParseResult) : List Nat :=
  match result.preview with
  | some p => p.chapters.filterMap (fun c => c.wordStart)
  | none => []

/-- The tiny-page merge post-processing applied by `parseFile` to the
adapter result. -/
def mergeTinyPages (result : AdapterParseResult) : AdapterParseResult :=
  if result.document.pageStarts.length > 1 ∧ result.document.words.length > 0 then
    let pageStarts := result.document.pageStarts
    let words := result.document.words
    let newPageStarts := mergedStarts pageStarts words (resultChapterStarts result)
    if newPageStarts.length < pageStarts.length then
      { result with document := { result.document with
          words := applyMergePageIdx words newPageStarts
          pageStarts := newPageStarts
          totalPages := newPageStarts.length } }
    else result
  else result

theorem mergeLoop_mem_acc (ps : List Nat) (words : List ParsedWord)
    (cs : List Nat) (x : Nat) :
    ∀ (remaining pageIdx : Nat) (acc : List Nat) (cnt : Nat), x ∈ acc →
      x ∈ mergeLoop ps words cs remaining pageIdx acc cnt := by
  intro remaining
  induction remaining with
  | zero => intro pageIdx acc cnt h; simpa [mergeLoop] using h
  | succ n ih =>
    intro pageIdx acc cnt h
    rw [mergeLoop]
    split <;> split
    all_goals first
      | exact ih _ _ _ (List.mem_append_left _ h)
      | exact ih _ _ _ h

theorem mergeLoop_pushes (ps : List Nat) (words : List ParsedWord)
    (cs : List Nat) (k : Nat) (hk : k + 1 < ps.length)
    (hcs : ps.getD (k + 1) 0 ∈ cs) :
    ∀ (remaining pageIdx : Nat) (acc : List Nat) (cnt : Nat),
      pageIdx + remaining = ps.length → pageIdx ≤ k →
      ps.getD (k + 1) 0 ∈ mergeLoop ps words cs remaining pageIdx acc cnt := by
  intro remaining
  induction remaining with
  | zero => intro pageIdx acc cnt hlen hle; exfalso; omega
  | succ n ih =>
    intro pageIdx acc cnt hlen hle
    rw [mergeLoop]
    by_cases heq : pageIdx = k
    · subst heq
      split
      · rw [if_pos ⟨Or.inr (Or.inr ⟨hk, hcs⟩), hk⟩]
        exact mergeLoop_mem_acc ps words cs _ _ _ _ _
          (List.mem_append_right _ (by simp))
      · rename_i hcontra
        exact absurd hk hcontra
    · split
      · split
        · exact ih _ _ _ (by omega) (by omega)
        · exact ih _ _ _ (by omega) (by omega)
      · split
        · exact ih _ _ _ (by omega) (by omega)
        · exact ih _ _ _ (by omega) (by omega)

theorem mergedStarts_mem (ps : List Nat) (words : List ParsedWord)
    (cs : List Nat) (c : Nat) (hhead : ps.head? = some 0) (hc : c ∈ cs)
    (hmem : c ∈ ps) : c ∈ mergedStarts ps words cs := by
  obtain ⟨⟨j, hj⟩, hget⟩ := List.mem_iff_get.mp hmem
  have hjd : ps.getD j 0 = c := by
    rw [getD_eq_get ps j hj, hget]
  cases j with
  | zero =>
    have h0 : ps.getD 0 0 = 0 := by
      cases ps with
      | nil => simp at hhead
      | cons a l => simpa using hhead
    have hc0 : c = 0 := by omega
    subst hc0
    exact mergeLoop_mem_acc ps words cs 0 _ _ _ _ (by simp)
  | succ j' =>
    have := mergeLoop_pushes ps words cs j' hj (by rwa [hjd]) ps.length 0 [0] 0
      (by omega) (by omega)
    rwa [hjd] at this

/-- C2: the merge pass keeps every chapter-start word index that was a page
boundary as a page boundary (first conjunct), and is a no-op — document
fields and word page indices untouched — whenever the computed merged
boundary list is not strictly shorter than the input (second conjunct). -/
theorem C2_merge_chapter_preservation (result : AdapterParseResult) (c : Nat) :
    (result.document.pageStarts.head? = some 0 →
      c ∈ resultChapterStarts result →
      c ∈ result.document.pageStarts →
      c ∈ (mergeTinyPages result).document.pageStarts) ∧
    (¬ (mergedStarts result.document.pageStarts result.document.words
          (resultChapterStarts result)).length <
        result.document.pageStarts.length →
      mergeTinyPages result = result) := by
  constructor
  · intro hhead hc hmem
    unfold mergeTinyPages
    split
    · dsimp only
      split
      · simpa using mergedStarts_mem result.document.pageStarts
          result.document.words (resultChapterStarts result) c hhead hc hmem
      · simpa using hmem
    · simpa using hmem
  · intro hnot
    unfold mergeTinyPages
    split
    · dsimp only
      rw [if_neg hnot]
    · rfl

theorem C2_merge_chapter_preservation_witness :
    ((⟨⟨[⟨"a", 0, 0, false, false⟩, ⟨"b", 0, 1, false, false⟩], [0], [0, 1], 2, 1, 2⟩, none, none,
        some ⟨[], [⟨"c", "#c", some 1, some 1⟩], [1]⟩, [], none⟩ :
      AdapterParseResult).document.pageStarts.head? = some 0 ∧
     1 ∈ resultChapterStarts
        ⟨⟨[⟨"a", 0, 0, false, false⟩, ⟨"b", 0, 1, false, false⟩], [0], [0, 1], 2, 1, 2⟩, none, none,
          some ⟨[], [⟨"c", "#c", some 1, some 1⟩], [1]⟩, [], none⟩ ∧
     1 ∈ ([0, 1] : List Nat) ∧
     1 ∈ (mergeTinyPages
        ⟨⟨[⟨"a", 0, 0, false, false⟩, ⟨"b", 0, 1, false, false⟩], [0], [0, 1], 2, 1, 2⟩, none, none,
          some ⟨[], [⟨"c", "#c", some 1, some 1⟩], [1]⟩, [], none⟩).document.pageStarts) ∧
    (¬ (mergedStarts [0, 1] [⟨"a", 0, 0, false, false⟩, ⟨"b", 0, 1, false, false⟩]
          (resultChapterStarts
            ⟨⟨[⟨"a", 0, 0, false, false⟩, ⟨"b", 0, 1, false, false⟩], [0], [0, 1], 2, 1, 2⟩, none, none,
              some ⟨[], [⟨"c", "#c", some 1, some 1⟩], [1]⟩, [], none⟩)).length < 2 ∧
     mergeTinyPages
        ⟨⟨[⟨"a", 0, 0, false, false⟩, ⟨"b", 0, 1, false, false⟩], [0], [0, 1], 2, 1, 2⟩, none, none,
          some ⟨[], [⟨"c", "#c", some 1, some 1⟩], [1]⟩, [], none⟩ =
        ⟨⟨[⟨"a", 0, 0, false, false⟩, ⟨"b", 0, 1, false, false⟩], [0], [0, 1], 2, 1, 2⟩, none, none,
          some ⟨[], [⟨"c", "#c", some 1, some 1⟩], [1]⟩, [], none⟩) := by
  have hhead : (([0, 1] : List Nat)).head? = some 0 := by decide
  have hcs : 1 ∈ resultChapterStarts
      ⟨⟨[⟨"a", 0, 0, false, false⟩, ⟨"b", 0, 1, false, false⟩], [0], [0, 1], 2, 1, 2⟩, none, none,
        some ⟨[], [⟨"c", "#c", some 1, some 1⟩], [1]⟩, [], none⟩ := by decide
  have hmem : 1 ∈ ([0, 1] : List Nat) := by decide
  have hnot : ¬ (mergedStarts [0, 1] [⟨"a", 0, 0, false, false⟩, ⟨"b", 0, 1, false, false⟩]
      (resultChapterStarts
        ⟨⟨[⟨"a", 0, 0, false, false⟩, ⟨"b", 0, 1, false, false⟩], [0], [0, 1], 2, 1, 2⟩, none, none,
          some ⟨[], [⟨"c", "#c", some 1, some 1⟩], [1]⟩, [], none⟩)).length < 2 := by
    decide
  exact ⟨⟨hhead, hcs, hmem,
      (C2_merge_chapter_preservation _ 1).1 hhead hcs hmem⟩,
    hnot, (C2_merge_chapter_preservation _ 1).2 hnot⟩


/-! ### `parseMobiText` (mobi-adapter.ts, lines 102-169)

The `cleanText` regex-replace chain is embedded as a sequence of left-to-right
scanners, one per `.replace(...)` call, each with a structural fuel argument
(one unit per consumed character; `length + 1` always suffices). -/

/-- Case-insensitive prefix test against an already-lowercase pattern. -/
def ciPrefix (pat l : List Char) : Bool :=
  pat.length ≤ l.length &&
  (List.zip pat l).all (fun pc => jsToLowerChar pc.2 == pc.1)

/-- Match attempt for the tail of a `<br>`-style tag after an initial `<`. -/
def matchBrTail (l : List Char) : Option (List Char) :=
  match l with
  | b :: r :: rest =>
    if (b = 'b' ∨ b = 'B') ∧ (r = 'r' ∨ r = 'R') then
      match rest.dropWhile jsIsWs with
      | '/' :: '>' :: rest' => some rest'
      | '>' :: rest' => some rest'
      | _ => none
    else none
  | _ => none

/-- The first `.replace` of the chain: break tags become a newline. -/
def replBrAux : Nat → List Char → List Char
  | 0, l => l
  | _ + 1, [] => []
  | fuel + 1, c :: rest =>
    if c = '<' then
      match matchBrTail rest with
      | some rest' => '\n' :: replBrAux fuel rest'
      | none => c :: replBrAux fuel rest
    else c :: replBrAux fuel rest

/-- Case-insensitive literal replacement (`.replace(/pat/gi, rep)`). -/
def replLitCiAux (pat rep : List Char) : Nat → List Char → List Char
  | 0, l => l
  | _ + 1, [] => []
  | fuel + 1, c :: rest =>
    if ciPrefix pat (c :: rest) then
      rep ++ replLitCiAux pat rep fuel ((c :: rest).drop pat.length)
    else c :: replLitCiAux pat rep fuel rest

/-- Case-sensitive literal replacement (`.replace(/pat/g, rep)`). -/
def replLitCsAux (pat rep : List Char) : Nat → List Char → List Char
  | 0, l => l
  | _ + 1, [] => []
  | fuel + 1, c :: rest =>
    if (c :: rest).take pat.length = pat then
      rep ++ replLitCsAux pat rep fuel ((c :: rest).drop pat.length)
    else c :: replLitCsAux pat rep fuel rest

/-- Match attempt for a closing heading tag after an initial `<`. -/
def matchHCloseTail (l : List Char) : Option (List Char) :=
  match l with
  | s :: h :: d :: g :: rest =>
    if s = '/' ∧ (h = 'h' ∨ h = 'H') ∧ ('1' ≤ d ∧ d ≤ '6') ∧ g = '>' then
      some rest
    else none
  | _ => none

/-- Closing heading tags become a blank line. -/
def replHCloseAux : Nat → List Char → List Char
  | 0, l => l
  | _ + 1, [] => []
  | fuel + 1, c :: rest =>
    if c = '<' then
      match matchHCloseTail rest with
      | some rest' => '\n' :: '\n' :: replHCloseAux fuel rest'
      | none => c :: replHCloseAux fuel rest
    else c :: replHCloseAux fuel rest

/-- Drops every remaining tag: `<`, at least one non-`>` character, `>`. -/
def stripTagsAux : Nat → List Char → List Char
  | 0, l => l
  | _ + 1, [] => []
  | fuel + 1, c :: rest =>
    if c = '<' then
      let before := rest.takeWhile (fun x => x ≠ '>')
      if before.length > 0 ∧ before.length < rest.length then
        stripTagsAux fuel (rest.drop (before.length + 1))
      else c :: stripTagsAux fuel rest
    else c :: stripTagsAux fuel rest

/-- Decimal character references are decoded via `String.fromCharCode`. -/
def replNumEntAux : Nat → List Char → List Char
  | 0, l => l
  | _ + 1, [] => []
  | fuel + 1, c :: rest =>
    if c = '&' then
      match rest with
      | '#' :: r2 =>
        let ds := r2.takeWhile Char.isDigit
        if ds.length > 0 then
          match r2.drop ds.length with
          | ';' :: r3 =>
            jsFromCharCode (ds.foldl (fun a d => a * 10 + (d.toNat - 48)) 0 : Nat)
              :: replNumEntAux fuel r3
          | _ => c :: replNumEntAux fuel rest
        else c :: replNumEntAux fuel rest
      | _ => c :: replNumEntAux fuel rest
    else c :: replNumEntAux fuel rest

/-- The `cleanText` replace chain of `parseMobiText`, in source order. -/
def cleanMobi (text : String) : String :=
  let l0 := text.data
  let l1 := replBrAux (l0.length + 1) l0
  let l2 := replLitCiAux "</p>".data "\n\n".data (l1.length + 1) l1
  let l3 := replLitCiAux "</div>".data "\n\n".data (l2.length + 1) l2
  let l4 := replHCloseAux (l3.length + 1) l3
  let l5 := stripTagsAux (l4.length + 1) l4
  let l6 := replLitCsAux "&nbsp;".data " ".data (l5.length + 1) l5
  let l7 := replLitCsAux "&amp;".data "&".data (l6.length + 1) l6
  let l8 := replLitCsAux "&lt;".data "<".data (l7.length + 1) l7
  let l9 := replLitCsAux "&gt;".data ">".data (l8.length + 1) l8
  let l10 := replLitCsAux "&quot;".data "\"".data (l9.length + 1) l9
  let l11 := replNumEntAux (l10.length + 1) l10
  ⟨l11⟩

/-- The index of the last newline within a whitespace run (the greedy
middle of the blank-line separator backtracks to the final newline). -/
def lastNewlineIdx (l : List Char) : Option Nat :=
  ((l.enum.filter (fun p => p.2 = '\n')).getLast?).map (fun p => p.1)

/-- The blank-line paragraph splitter of `parseMobiText`/`parseRtfText`. -/
def splitBlankAux : Nat → List Char → List Char → List (List Char)
  | 0, _, acc => [acc.reverse]
  | _ + 1, [], acc => [acc.reverse]
  | fuel + 1, c :: rest, acc =>
    if c = '\n' then
      let ws := rest.takeWhile jsIsWs
      match lastNewlineIdx ws with
      | some k => acc.reverse :: splitBlankAux fuel (rest.drop (k + 1)) []
      | none => splitBlankAux fuel rest ('\n' :: acc)
    else splitBlankAux fuel rest (c :: acc)

def splitBlankLines (s : String) : List String :=
  (splitBlankAux (s.data.length + 1) s.data []).map String.mk

/-- State of the paragraph loop of `parseMobiText`. -/
structure MobiParaSt where
  words : List ParsedWord
  paragraphStarts : List Nat
  pageStarts : List Nat
  wordIndex : Nat
  currentPage : Nat
  wordsOnCurrentPage : Nat
deriving Repr, DecidableEq, Inhabited

/-- The split words of one paragraph: trim, split on whitespace, drop empty
tokens, split each raw word on interior dashes. -/
def paraTokens (p : String) : List String :=
  (splitWs (jsTrim p)).flatMap splitOnDashes

/-- One iteration of the `paragraphs.forEach` loop of `parseMobiText`. -/
def mobiParaStep (target : Nat) (st : MobiParaSt) (paragraphIndex : Nat)
    (p : String) (isLast : Bool) : MobiParaSt :=
  let st1 := { st with paragraphStarts := st.paragraphStarts ++ [st.wordIndex] }
  let st2 := (paraTokens p).foldl
    (fun st t =>
      { st with
        words := st.words ++ [⟨t, paragraphIndex, st.currentPage, false, false⟩]
        wordIndex := st.wordIndex + 1
        wordsOnCurrentPage := st.wordsOnCurrentPage + 1 }) st1
  if st2.wordsOnCurrentPage ≥ target ∧ ¬isLast then
    { st2 with
      currentPage := st2.currentPage + 1
      pageStarts := st2.pageStarts ++ [st2.wordIndex]
      wordsOnCurrentPage := 0 }
  else st2

def mobiParaLoop (target : Nat) : MobiParaSt → Nat → List String → MobiParaSt
  | st, _, [] => st
  | st, pIdx, p :: rest =>
    mobiParaLoop target (mobiParaStep target st pIdx p rest.isEmpty) (pIdx + 1) rest

/-- `parseMobiText` from mobi-adapter.ts. -/
def parseMobiText (text : String) (target : Nat := 250) : ParsedDocument :=
  let cleanText := cleanMobi text
  let paragraphs := (splitBlankLines cleanText).filter
    (fun p => (jsTrim p).data.length > 0)
  let st := mobiParaLoop target ⟨[], [], [0], 0, 0, 0⟩ 0 paragraphs
  let words := applyPageIdx st.words st.pageStarts
  ⟨words, st.paragraphStarts, st.pageStarts, words.length,
    st.paragraphStarts.length, st.pageStarts.length⟩

theorem sorted_snoc {r : Nat → Nat → Prop} (l : List Nat) (x : Nat)
    (h : List.Sorted r l) (hall : ∀ y ∈ l, r y x) :
    List.Sorted r (l ++ [x]) := by
  unfold List.Sorted at *
  rw [List.pairwise_append]
  exact ⟨h, List.pairwise_singleton _ _, fun a ha b hb => by
    simp at hb; subst hb; exact hall a ha⟩

theorem head?_append_of_ne_nil {α : Type} (l : List α) (t : List α)
    (hne : l ≠ []) : (l ++ t).head? = l.head? := by
  cases l with
  | nil => exact absurd rfl hne
  | cons a m => simp

theorem dropWhile_first_not (p : Char → Bool) :
    ∀ (l : List Char) (c : Char) (r : List Char),
      l.dropWhile p = c :: r → p c = false := by
  intro l
  induction l with
  | nil => intro c r h; simp [List.dropWhile] at h
  | cons x xs ih =>
    intro c r h
    rw [List.dropWhile] at h
    by_cases hp : p x = true
    · rw [hp] at h
      exact ih c r (by simpa using h)
    · have hp' : p x = false := by
        cases hpx : p x
        · rfl
        · exact absurd hpx hp
      rw [hp'] at h
      simp at h
      rw [← h.1]
      exact hp'

theorem dropWhile_exists_not (p : Char → Bool) (l : List Char)
    (h : l.dropWhile p ≠ []) : ∃ c ∈ l.dropWhile p, p c = false := by
  cases hd : l.dropWhile p with
  | nil => exact absurd hd h
  | cons c r => exact ⟨c, by simp, dropWhile_first_not p l c r hd⟩

theorem splitWsAux_ne_nil_acc (l : List Char) (acc : List Char)
    (hacc : acc ≠ []) : splitWsAux l acc ≠ [] := by
  induction l generalizing acc with
  | nil => simp [splitWsAux, hacc]
  | cons c rest ih =>
    rw [splitWsAux]
    split
    · rw [if_neg (by simpa using hacc)]
      simp
    · exact ih (c :: acc) (by simp)

theorem splitWsAux_ne_nil_mem (l : List Char) :
    ∀ (acc : List Char), (∃ c ∈ l, jsIsWs c = false) → splitWsAux l acc ≠ [] := by
  induction l with
  | nil => intro acc h; simp at h
  | cons c rest ih =>
    intro acc ⟨d, hd, hws⟩
    rw [splitWsAux]
    rcases List.mem_cons.mp hd with rfl | hd2
    · rw [if_neg (by simp [hws])]
      exact splitWsAux_ne_nil_acc rest (d :: acc) (by simp)
    · split
      · split
        · exact ih [] ⟨d, hd2, hws⟩
        · simp
      · exact splitWsAux_ne_nil_acc rest (c :: acc) (by simp)

theorem jsTrim_has_nonws (p : String) (h : (jsTrim p).data ≠ []) :
    ∃ c ∈ (jsTrim p).data, jsIsWs c = false := by
  unfold jsTrim at *
  simp only [String.data] at *
  set A := p.data.dropWhile jsIsWs with hA
  have hB : A.reverse.dropWhile jsIsWs ≠ [] := by
    intro hcontra
    apply h
    simp [hcontra]
  obtain ⟨c, hc, hcw⟩ := dropWhile_exists_not jsIsWs A.reverse hB
  exact ⟨c, List.mem_reverse.mpr hc, hcw⟩

theorem splitWs_jsTrim_ne_nil (p : String) (h : (jsTrim p).data.length > 0) :
    splitWs (jsTrim p) ≠ [] := by
  have hne : (jsTrim p).data ≠ [] := by
    intro hcontra; rw [hcontra] at h; simp at h
  obtain ⟨c, hc, hcw⟩ := jsTrim_has_nonws p hne
  unfold splitWs
  simp only [ne_eq, List.map_eq_nil_iff]
  exact splitWsAux_ne_nil_mem _ [] ⟨c, hc, hcw⟩

theorem paraTokens_ne_nil (p : String) (h : (jsTrim p).data.length > 0) :
    paraTokens p ≠ [] := by
  unfold paraTokens
  cases hs : splitWs (jsTrim p) with
  | nil => exact absurd hs (splitWs_jsTrim_ne_nil p h)
  | cons t ts =>
    rw [List.flatMap_cons]
    intro hcontra
    exact absurd (List.append_eq_nil.mp hcontra).1 (splitOnDashes_ne_nil t)

/-- The running invariant of the paragraph loops of `parseMobiText` and
`parseRtfText`: the word index counts the words; the page-start list is
strictly increasing, begins with 0 and stays within the word count; the
paragraph-start list is strictly increasing, all entries below the word
count, and begins with 0 unless still empty (in which case no word has been
emitted yet). -/
def ParaInv (words : List ParsedWord) (paragraphStarts pageStarts : List Nat)
    (wordIndex : Nat) : Prop :=
  wordIndex = words.length ∧
  List.Sorted (· < ·) pageStarts ∧
  pageStarts.head? = some 0 ∧
  (∀ x ∈ pageStarts, x ≤ wordIndex) ∧
  List.Sorted (· < ·) paragraphStarts ∧
  (∀ x ∈ paragraphStarts, x < wordIndex) ∧
  (paragraphStarts.head? = some 0 ∨ (paragraphStarts = [] ∧ wordIndex = 0))

def MobiInv (st : MobiParaSt) : Prop :=
  ParaInv st.words st.paragraphStarts st.pageStarts st.wordIndex

theorem mobiFold_eq (pIdx : Nat) :
    ∀ (tokens : List String) (st : MobiParaSt),
      tokens.foldl
        (fun st t =>
          { st with
            words := st.words ++ [⟨t, pIdx, st.currentPage, false, false⟩]
            wordIndex := st.wordIndex + 1
            wordsOnCurrentPage := st.wordsOnCurrentPage + 1 }) st =
      { st with
        words := st.words ++
          tokens.map (fun t => ⟨t, pIdx, st.currentPage, false, false⟩)
        wordIndex := st.wordIndex + tokens.length
        wordsOnCurrentPage := st.wordsOnCurrentPage + tokens.length } := by
  intro tokens
  induction tokens with
  | nil => intro st; simp
  | cons t ts ih =>
    intro st
    rw [List.foldl_cons, ih]
    simp [List.append_assoc]
    omega

theorem mobiParaStep_eq (target : Nat) (st : MobiParaSt) (pIdx : Nat)
    (p : String) (isLast : Bool) :
    mobiParaStep target st pIdx p isLast =
      if st.wordsOnCurrentPage + (paraTokens p).length ≥ target ∧ ¬isLast then
        ⟨st.words ++ (paraTokens p).map
            (fun t => ⟨t, pIdx, st.currentPage, false, false⟩),
          st.paragraphStarts ++ [st.wordIndex],
          st.pageStarts ++ [st.wordIndex + (paraTokens p).length],
          st.wordIndex + (paraTokens p).length, st.currentPage + 1, 0⟩
      else
        ⟨st.words ++ (paraTokens p).map
            (fun t => ⟨t, pIdx, st.currentPage, false, false⟩),
          st.paragraphStarts ++ [st.wordIndex], st.pageStarts,
          st.wordIndex + (paraTokens p).length, st.currentPage,
          st.wordsOnCurrentPage + (paraTokens p).length⟩ := by
  unfold mobiParaStep
  dsimp only
  rw [mobiFold_eq]

theorem mobiParaStep_inv (target : Nat) (st : MobiParaSt) (pIdx : Nat)
    (p : String) (isLast : Bool) (hinv : MobiInv st)
    (hp : (jsTrim p).data.length > 0) :
    MobiInv (mobiParaStep target st pIdx p isLast) := by
  obtain ⟨hwi, hpgs, hpgh, hpgb, hpas, hpab, hpah⟩ := hinv
  have htok : paraTokens p ≠ [] := paraTokens_ne_nil p hp
  have htlen : 0 < (paraTokens p).length := List.length_pos.mpr htok
  rw [mobiParaStep_eq]
  have hpgne : st.pageStarts ≠ [] := by
    intro hcontra; rw [hcontra] at hpgh; simp at hpgh
  have hparas : List.Sorted (· < ·) (st.paragraphStarts ++ [st.wordIndex]) :=
    sorted_snoc _ _ hpas hpab
  have hparab : ∀ x ∈ st.paragraphStarts ++ [st.wordIndex],
      x < st.wordIndex + (paraTokens p).length := by
    intro x hx
    rcases List.mem_append.mp hx with hx1 | hx2
    · have := hpab x hx1; omega
    · simp at hx2; omega
  have hparah : (st.paragraphStarts ++ [st.wordIndex]).head? = some 0 ∨
      (st.paragraphStarts ++ [st.wordIndex] = [] ∧
        st.wordIndex + (paraTokens p).length = 0) := by
    left
    rcases hpah with hh | ⟨hnil, hz⟩
    · rw [head?_append_of_ne_nil _ _
        (by intro hcontra; rw [hcontra] at hh; simp at hh)]
      exact hh
    · rw [hnil, hz]; simp
  split
  · unfold MobiInv ParaInv
    dsimp only
    refine ⟨by simp [hwi], ?_, ?_, ?_, hparas, hparab, hparah⟩
    · apply sorted_snoc _ _ hpgs
      intro y hy
      have := hpgb y hy
      omega
    · rw [head?_append_of_ne_nil _ _ hpgne]
      exact hpgh
    · intro x hx
      rcases List.mem_append.mp hx with hx1 | hx2
      · have := hpgb x hx1; omega
      · simp at hx2; omega
  · unfold MobiInv ParaInv
    dsimp only
    refine ⟨by simp [hwi], hpgs, hpgh, ?_, hparas, hparab, hparah⟩
    intro x hx
    have := hpgb x hx
    omega

theorem mobiParaLoop_inv (target : Nat) :
    ∀ (ps : List String) (st : MobiParaSt) (pIdx : Nat),
      MobiInv st → (∀ p ∈ ps, (jsTrim p).data.length > 0) →
      MobiInv (mobiParaLoop target st pIdx ps) := by
  intro ps
  induction ps with
  | nil => intro st pIdx hinv _; exact hinv
  | cons p rest ih =>
    intro st pIdx hinv hall
    rw [mobiParaLoop]
    exact ih _ _
      (mobiParaStep_inv target st pIdx p rest.isEmpty hinv
        (hall p (List.mem_cons_self p rest)))
      (fun q hq => hall q (List.mem_cons_of_mem p hq))

/-- The structural invariants of every `parseMobiText` result. -/
theorem parseMobiText_invariants (text : String) (target : Nat) :
    List.Sorted (· < ·) (parseMobiText text target).pageStarts ∧
    (parseMobiText text target).pageStarts.head? = some 0 ∧
    List.Sorted (· < ·) (parseMobiText text target).paragraphStarts ∧
    ((parseMobiText text target).paragraphStarts.head? = some 0 ∨
      ((parseMobiText text target).paragraphStarts = [] ∧
        (parseMobiText text target).words = [])) ∧
    ∀ k < (parseMobiText text target).words.length,
      IsGreatestStart (parseMobiText text target).pageStarts k
        (((parseMobiText text target).words.getD k default).pageIndex) := by
  have hinit : MobiInv ⟨[], [], [0], 0, 0, 0⟩ := by
    refine ⟨rfl, List.sorted_singleton 0, rfl, ?_, List.sorted_nil, ?_, Or.inr ⟨rfl, rfl⟩⟩
    · intro x hx; simp at hx; omega
    · intro x hx; simp at hx
  have hall : ∀ p ∈ (splitBlankLines (cleanMobi text)).filter
      (fun p => (jsTrim p).data.length > 0), (jsTrim p).data.length > 0 := by
    intro p hp
    simpa using List.of_mem_filter hp
  have hinv := mobiParaLoop_inv target _ _ 0 hinit hall
  obtain ⟨hwi, hpgs, hpgh, _, hpas, hpab, hpah⟩ := hinv
  unfold parseMobiText
  dsimp only
  refine ⟨hpgs, hpgh, hpas, ?_, ?_⟩
  · rcases hpah with hh | ⟨hnil, hz⟩
    · exact Or.inl hh
    · refine Or.inr ⟨hnil, ?_⟩
      have : (mobiParaLoop target ⟨[], [], [0], 0, 0, 0⟩ 0
          ((splitBlankLines (cleanMobi text)).filter
            (fun p => (jsTrim p).data.length > 0))).words.length = 0 := by
        omega
      unfold applyPageIdx
      rw [List.length_eq_zero] at this
      rw [this]
      rfl
  · intro k hk
    rw [applyPageIdx, applyPageIdxGo_length] at hk
    exact applyPageIdx_greatest _ _ hpgs hpgh k hk

/-! ### `parseRtfText` (rtf-adapter.ts, lines 196-263) -/

/-- JS `hay.indexOf(needle, from)` scanning from `k` with the given number
of candidate positions left. -/
def jsIndexOfAux (hay needle : List Char) : Nat → Nat → Int
  | _, 0 => -1
  | k, fuel + 1 =>
    if needle.isPrefixOf (hay.drop k) then (k : Int)
    else jsIndexOfAux hay needle (k + 1) fuel

/-- JS `String.prototype.indexOf(needle, from)` (negative `from` clamps
to 0; `-1` when absent). -/
def jsIndexOfFrom (hay needle : List Char) (frm : Int) : Int :=
  jsIndexOfAux hay needle frm.toNat (hay.length + 1 - frm.toNat)

/-- State of the paragraph loop of `parseRtfText`; `charIndex` tracks the
running formatting-lookup offset. -/
structure RtfParaSt where
  words : List ParsedWord
  paragraphStarts : List Nat
  pageStarts : List Nat
  wordIndex : Nat
  currentPage : Nat
  wordsOnCurrentPage : Nat
  charIndex : Int
deriving Repr, DecidableEq, Inhabited

/-- The per-word body of the `parseRtfText` loop: formatting looked up at
the word's start offset in the tokenizer output. -/
def rtfWordStep (text : String) (italic bold : List Bool)
    (paragraphIndex : Nat) (st : RtfParaSt) (t : String) : RtfParaSt :=
  let wordStart := jsIndexOfFrom text.data t.data st.charIndex
  let isItalic := if 0 ≤ wordStart ∧ wordStart < (italic.length : Int)
    then italic.getD wordStart.toNat false else false
  let isBold := if 0 ≤ wordStart ∧ wordStart < (bold.length : Int)
    then bold.getD wordStart.toNat false else false
  { st with
    words := st.words ++ [⟨t, paragraphIndex, st.currentPage, isItalic, isBold⟩]
    wordIndex := st.wordIndex + 1
    wordsOnCurrentPage := st.wordsOnCurrentPage + 1
    charIndex := wordStart + t.data.length }

/-- One iteration of the `paragraphs.forEach` loop of `parseRtfText`. -/
def rtfParaStep (text : String) (italic bold : List Bool) (target : Nat)
    (st : RtfParaSt) (paragraphIndex : Nat) (p : String) (isLast : Bool) :
    RtfParaSt :=
  let st1 := { st with paragraphStarts := st.paragraphStarts ++ [st.wordIndex] }
  let st2 := (paraTokens p).foldl (rtfWordStep text italic bold paragraphIndex) st1
  if st2.wordsOnCurrentPage ≥ target ∧ ¬isLast then
    { st2 with
      currentPage := st2.currentPage + 1
      pageStarts := st2.pageStarts ++ [st2.wordIndex]
      wordsOnCurrentPage := 0 }
  else st2

def rtfParaLoop (text : String) (italic bold : List Bool) (target : Nat) :
    RtfParaSt → Nat → List String → RtfParaSt
  | st, _, [] => st
  | st, pIdx, p :: rest =>
    rtfParaLoop text italic bold target
      (rtfParaStep text italic bold target st pIdx p rest.isEmpty) (pIdx + 1) rest

/-- `parseRtfText` from rtf-adapter.ts. -/
def parseRtfText (r : RtfResult) (target : Nat := 250) : ParsedDocument :=
  let paragraphs := (splitBlankLines r.text).filter
    (fun p => (jsTrim p).data.length > 0)
  let st := rtfParaLoop r.text r.italic r.bold target ⟨[], [], [0], 0, 0, 0, 0⟩
    0 paragraphs
  let words := applyPageIdx st.words st.pageStarts
  ⟨words, st.paragraphStarts, st.pageStarts, words.length,
    st.paragraphStarts.length, st.pageStarts.length⟩

def RtfInv (st : RtfParaSt) : Prop :=
  ParaInv st.words st.paragraphStarts st.pageStarts st.wordIndex

theorem rtfFold_counts (text : String) (italic bold : List Bool) (pIdx : Nat) :
    ∀ (tokens : List String) (st : RtfParaSt),
      (tokens.foldl (rtfWordStep text italic bold pIdx) st).words.length =
        st.words.length + tokens.length ∧
      (tokens.foldl (rtfWordStep text italic bold pIdx) st).wordIndex =
        st.wordIndex + tokens.length ∧
      (tokens.foldl (rtfWordStep text italic bold pIdx) st).wordsOnCurrentPage =
        st.wordsOnCurrentPage + tokens.length ∧
      (tokens.foldl (rtfWordStep text italic bold pIdx) st).paragraphStarts =
        st.paragraphStarts ∧
      (tokens.foldl (rtfWordStep text italic bold pIdx) st).pageStarts =
        st.pageStarts ∧
      (tokens.foldl (rtfWordStep text italic bold pIdx) st).currentPage =
        st.currentPage := by
  have hstep : ∀ (st : RtfParaSt) (t : String),
      (rtfWordStep text italic bold pIdx st t).words.length = st.words.length + 1 ∧
      (rtfWordStep text italic bold pIdx st t).wordIndex = st.wordIndex + 1 ∧
      (rtfWordStep text italic bold pIdx st t).wordsOnCurrentPage =
        st.wordsOnCurrentPage + 1 ∧
      (rtfWordStep text italic bold pIdx st t).paragraphStarts =
        st.paragraphStarts ∧
      (rtfWordStep text italic bold pIdx st t).pageStarts = st.pageStarts ∧
      (rtfWordStep text italic bold pIdx st t).currentPage = st.currentPage := by
    intro st t
    unfold rtfWordStep
    dsimp only
    simp
  intro tokens
  induction tokens with
  | nil => intro st; simp
  | cons t ts ih =>
    intro st
    rw [List.foldl_cons]
    obtain ⟨g1, g2, g3, g4, g5, g6⟩ := hstep st t
    obtain ⟨h1, h2, h3, h4, h5, h6⟩ := ih (rtfWordStep text italic bold pIdx st t)
    refine ⟨?_, ?_, ?_, ?_, ?_, ?_⟩
    · rw [h1, g1, List.length_cons]; omega
    · rw [h2, g2, List.length_cons]; omega
    · rw [h3, g3, List.length_cons]; omega
    · rw [h4, g4]
    · rw [h5, g5]
    · rw [h6, g6]

theorem rtfParaStep_inv (text : String) (italic bold : List Bool)
    (target : Nat) (st : RtfParaSt) (pIdx : Nat) (p : String) (isLast : Bool)
    (hinv : RtfInv st) (hp : (jsTrim p).data.length > 0) :
    RtfInv (rtfParaStep text italic bold target st pIdx p isLast) := by
  obtain ⟨hwi, hpgs, hpgh, hpgb, hpas, hpab, hpah⟩ := hinv
  have htok : paraTokens p ≠ [] := paraTokens_ne_nil p hp
  have htlen : 0 < (paraTokens p).length := List.length_pos.mpr htok
  have hpgne : st.pageStarts ≠ [] := by
    intro hcontra; rw [hcontra] at hpgh; simp at hpgh
  unfold rtfParaStep
  dsimp only
  obtain ⟨h1, h2, h3, h4, h5, h6⟩ := rtfFold_counts text italic bold pIdx
    (paraTokens p) { st with paragraphStarts := st.paragraphStarts ++ [st.wordIndex] }
  set st2 := (paraTokens p).foldl (rtfWordStep text italic bold pIdx)
    { st with paragraphStarts := st.paragraphStarts ++ [st.wordIndex] } with hst2
  dsimp only at h1 h2 h3 h4 h5 h6
  have hmidwords : st2.wordIndex = st2.words.length := by
    rw [h1, h2, hwi]
  have hparas2 : List.Sorted (· < ·) st2.paragraphStarts := by
    rw [h4]; exact sorted_snoc _ _ hpas hpab
  have hparab2 : ∀ x ∈ st2.paragraphStarts, x < st2.wordIndex := by
    rw [h4, h2]
    intro x hx
    rcases List.mem_append.mp hx with hx1 | hx2
    · have := hpab x hx1; omega
    · simp at hx2; omega
  have hparah2 : st2.paragraphStarts.head? = some 0 ∨
      (st2.paragraphStarts = [] ∧ st2.wordIndex = 0) := by
    left
    rw [h4]
    rcases hpah with hh | ⟨hnil, hz⟩
    · rw [head?_append_of_ne_nil _ _
        (by intro hcontra; rw [hcontra] at hh; simp at hh)]
      exact hh
    · rw [hnil, hz]; simp
  split
  · refine ⟨?_, ?_, ?_, ?_, by simpa using hparas2, by simpa using hparab2, ?_⟩
    · simpa using hmidwords
    · dsimp only
      rw [h5]
      apply sorted_snoc _ _ hpgs
      intro y hy
      have := hpgb y hy
      rw [h2]
      omega
    · dsimp only
      rw [h5, head?_append_of_ne_nil _ _ hpgne]
      exact hpgh
    · dsimp only
      rw [h5]
      intro x hx
      rcases List.mem_append.mp hx with hx1 | hx2
      · have := hpgb x hx1; rw [h2]; omega
      · simp at hx2; omega
    · simpa using hparah2
  · refine ⟨hmidwords, by rw [h5]; exact hpgs, by rw [h5]; exact hpgh, ?_,
      hparas2, hparab2, hparah2⟩
    rw [h5, h2]
    intro x hx
    have := hpgb x hx
    omega

theorem rtfParaLoop_inv (text : String) (italic bold : List Bool) (target : Nat) :
    ∀ (ps : List String) (st : RtfParaSt) (pIdx : Nat),
      RtfInv st → (∀ p ∈ ps, (jsTrim p).data.length > 0) →
      RtfInv (rtfParaLoop text italic bold target st pIdx ps) := by
  intro ps
  induction ps with
  | nil => intro st pIdx hinv _; exact hinv
  | cons p rest ih =>
    intro st pIdx hinv hall
    rw [rtfParaLoop]
    exact ih _ _
      (rtfParaStep_inv text italic bold target st pIdx p rest.isEmpty hinv
        (hall p (List.mem_cons_self p rest)))
      (fun q hq => hall q (List.mem_cons_of_mem p hq))

/-- The structural invariants of every `parseRtfText` result. -/
theorem parseRtfText_invariants (r : RtfResult) (target : Nat) :
    List.Sorted (· < ·) (parseRtfText r target).pageStarts ∧
    (parseRtfText r target).pageStarts.head? = some 0 ∧
    List.Sorted (· < ·) (parseRtfText r target).paragraphStarts ∧
    ((parseRtfText r target).paragraphStarts.head? = some 0 ∨
      ((parseRtfText r target).paragraphStarts = [] ∧
        (parseRtfText r target).words = [])) ∧
    ∀ k < (parseRtfText r target).words.length,
      IsGreatestStart (parseRtfText r target).pageStarts k
        (((parseRtfText r target).words.getD k default).pageIndex) := by
  have hinit : RtfInv ⟨[], [], [0], 0, 0, 0, 0⟩ := by
    refine ⟨rfl, List.sorted_singleton 0, rfl, ?_, List.sorted_nil, ?_, Or.inr ⟨rfl, rfl⟩⟩
    · intro x hx; simp at hx; omega
    · intro x hx; simp at hx
  have hall : ∀ p ∈ (splitBlankLines r.text).filter
      (fun p => (jsTrim p).data.length > 0), (jsTrim p).data.length > 0 := by
    intro p hp
    simpa using List.of_mem_filter hp
  have hinv := rtfParaLoop_inv r.text r.italic r.bold target _ _ 0 hinit hall
  obtain ⟨hwi, hpgs, hpgh, _, hpas, hpab, hpah⟩ := hinv
  unfold parseRtfText
  dsimp only
  refine ⟨hpgs, hpgh, hpas, ?_, ?_⟩
  · rcases hpah with hh | ⟨hnil, hz⟩
    · exact Or.inl hh
    · refine Or.inr ⟨hnil, ?_⟩
      have : (rtfParaLoop r.text r.italic r.bold target ⟨[], [], [0], 0, 0, 0, 0⟩ 0
          ((splitBlankLines r.text).filter
            (fun p => (jsTrim p).data.length > 0))).words.length = 0 := by
        omega
      unfold applyPageIdx
      rw [List.length_eq_zero] at this
      rw [this]
      rfl
  · intro k hk
    rw [applyPageIdx, applyPageIdxGo_length] at hk
    exact applyPageIdx_greatest _ _ hpgs hpgh k hk

/-! ### `parseMarkdown` (markdown adapter)

The block-model parser is embedded function-for-function.  The two
index-jumping loops (`parseInline` and the sentence-merge normalization
pre-pass) carry a structural fuel argument (`input length + 1` always
suffices: each iteration consumes at least one unit); everything else is
structural, so concrete runs are kernel-computable. -/

/-- Decimal rendering of a `Nat` (the template literal interpolation). -/
def natToStringAux : Nat → Nat → List Char
  | 0, _ => []
  | fuel + 1, n =>
    if n < 10 then [Char.ofNat (48 + n)]
    else natToStringAux fuel (n / 10) ++ [Char.ofNat (48 + n % 10)]

def natToString (n : Nat) : String := ⟨natToStringAux (n + 1) n⟩

/-- `escapeHtml`: the five sequential `.replace` calls are equivalent to one
character map, because the first pass removes every original `&` and the
later passes never introduce characters matched by an earlier one. -/
def escapeHtmlChar (c : Char) : String :=
  if c = '&' then "&amp;"
  else if c = '<' then "&lt;"
  else if c = '>' then "&gt;"
  else if c = '"' then "&quot;"
  else if c = '\'' then "&#039;"
  else String.singleton c

def escapeHtml (s : String) : String :=
  String.join (s.data.map escapeHtmlChar)

/-- JS `\w`. -/
def isWordChar (c : Char) : Bool :=
  ('a' ≤ c && c ≤ 'z') || ('A' ≤ c && c ≤ 'Z') || ('0' ≤ c && c ≤ '9') || c = '_'

def isLowerAlpha (c : Char) : Bool := 'a' ≤ c && c ≤ 'z'

/-- A content block of the markdown parser (`ContentBlock`). -/
inductive MdBlockType | text | code | hr
deriving Repr, DecidableEq, Inhabited

structure MdBlock where
  btype : MdBlockType
  html : String
  wordStart : Nat
  wordEnd : Int
deriving Repr, DecidableEq, Inhabited

/-- The full mutable state of `parseMarkdown` (word accumulators, the
current block being built, and the line-machine state). -/
structure MdSt where
  words : List ParsedWord
  paragraphStarts : List Nat
  wordIndex : Nat
  paragraphIndex : Nat
  title : Option String
  curHtml : List String
  curWordStart : Nat
  blocks : List MdBlock
  inCodeBlock : Bool
  codeContent : List String
  codeLang : String
  paragraphLines : List String
  listItems : List String
  listType : Option Bool
deriving Repr, DecidableEq, Inhabited

/-- One word push of `addText` (the loop body). -/
def mdAddWord (it bo : Bool) (st : MdSt) (w : String) : MdSt :=
  let html0 := "<span data-word-index=\"" ++ natToString st.wordIndex ++
    "\">" ++ escapeHtml w ++ "</span>"
  let html := if bo ∧ it then "<strong><em>" ++ html0 ++ "</em></strong>"
    else if bo then "<strong>" ++ html0 ++ "</strong>"
    else if it then "<em>" ++ html0 ++ "</em>"
    else html0
  { st with
    words := st.words ++ [⟨w, st.paragraphIndex, 0, it, bo⟩]
    curHtml := st.curHtml ++ [html ++ " "]
    wordIndex := st.wordIndex + 1 }

/-- `addText`: push the split words of a text run with markers. -/
def mdAddText (st : MdSt) (text : String) (it bo : Bool) : MdSt :=
  ((splitWs text).flatMap splitOnDashes).foldl (mdAddWord it bo) st

/-- `^\[([^\]]+)\]\([^)]+\)` at the head of `l`: returns the label and the
total matched length. -/
def matchLink (l : List Char) : Option (List Char × Nat) :=
  match l with
  | '[' :: r =>
    let label := r.takeWhile (fun c => c ≠ ']')
    if label.length > 0 ∧ r.get? label.length = some ']' then
      match r.drop (label.length + 1) with
      | '(' :: r3 =>
        let url := r3.takeWhile (fun c => c ≠ ')')
        if url.length > 0 ∧ r3.get? url.length = some ')' then
          some (label, label.length + url.length + 4)
        else none
      | _ => none
    else none
  | _ => none

/-- `!\[([^\]]*)\]\([^)]+\)` at the head of `l` (image: label may be empty);
returns the remainder after the match. -/
def matchImageTail (l : List Char) : Option (List Char) :=
  match l with
  | '[' :: r =>
    let label := r.takeWhile (fun c => c ≠ ']')
    if r.get? label.length = some ']' then
      match r.drop (label.length + 1) with
      | '(' :: r3 =>
        let url := r3.takeWhile (fun c => c ≠ ')')
        if url.length > 0 ∧ r3.get? url.length = some ')' then
          some (r3.drop (url.length + 1))
        else none
      | _ => none
    else none
  | _ => none

/-- `text.replace(/!\[([^\]]*)\]\([^)]+\)/g, '')`. -/
def removeImagesAux : Nat → List Char → List Char
  | 0, l => l
  | _ + 1, [] => []
  | fuel + 1, c :: rest =>
    if c = '!' then
      match matchImageTail rest with
      | some rest' => removeImagesAux fuel rest'
      | none => c :: removeImagesAux fuel rest
    else c :: removeImagesAux fuel rest

/-- The single left-to-right scan of `parseInline`.  The source's
fall-through control flow is encoded as one if-chain: apart from the
inline-code branch (where a flushed `currentText` survives an unterminated
code span), every failed check falls through without changing state, so
its guard is simply conjoined with the match condition. -/
def mdInlineGo : Nat → List Char → Nat → String → Bool → Bool → MdSt → MdSt
  | 0, _, _, _, _, _, st => st
  | fuel + 1, l, i, currentText, inItalic, inBold, st =>
    if i < l.length then
      let c := l.getD i ' '
      if c = '`' ∧ l.get? (i + 1) ≠ some '`' then
        let st1 := if currentText ≠ "" then mdAddText st currentText inItalic inBold
          else st
        let e := jsIndexOfFrom l ['`'] ((i : Int) + 1)
        if e ≠ -1 then
          let code : List Char := (l.take e.toNat).drop (i + 1)
          let st2 := { st1 with curHtml := st1.curHtml ++
            ["<code>" ++ escapeHtml ⟨code⟩ ++ "</code> "] }
          mdInlineGo fuel l (e.toNat + 1) "" inItalic inBold st2
        else
          mdInlineGo fuel l (i + 1) ("" ++ String.singleton c) inItalic inBold st1
      else if c = '[' ∧ (matchLink (l.drop i)).isSome then
        match matchLink (l.drop i) with
        | some (label, len) =>
          let st1 := if currentText ≠ "" then
              mdAddText st currentText inItalic inBold
            else st
          let st2 := { st1 with curHtml := st1.curHtml ++ ["<a>"] }
          let st3 := mdAddText st2 ⟨label⟩ inItalic inBold
          let st4 := { st3 with curHtml := st3.curHtml ++ ["</a>"] }
          mdInlineGo fuel l (i + len) "" inItalic inBold st4
        | none => st
      else if (l.drop i).take 3 = ['*', '*', '*'] then
        let st1 := if currentText ≠ "" then mdAddText st currentText inItalic inBold
          else st
        mdInlineGo fuel l (i + 3) "" (!inItalic) (!inBold) st1
      else if (l.drop i).take 2 = ['*', '*'] then
        let st1 := if currentText ≠ "" then mdAddText st currentText inItalic inBold
          else st
        mdInlineGo fuel l (i + 2) "" inItalic (!inBold) st1
      else if (l.drop i).take 2 = ['_', '_'] then
        let st1 := if currentText ≠ "" then mdAddText st currentText inItalic inBold
          else st
        mdInlineGo fuel l (i + 2) "" inItalic (!inBold) st1
      else if c = '*' ∧ l.get? (i + 1) ≠ some '*' then
        let st1 := if currentText ≠ "" then mdAddText st currentText inItalic inBold
          else st
        mdInlineGo fuel l (i + 1) "" (!inItalic) inBold st1
      else if c = '_' ∧ l.get? (i + 1) ≠ some '_' ∧
          (¬ isWordChar (if 0 < i then l.getD (i - 1) ' ' else ' ') ∨
           ¬ isWordChar (if i < l.length - 1 then l.getD (i + 1) ' ' else ' ')) then
        let st1 := if currentText ≠ "" then mdAddText st currentText inItalic inBold
          else st
        mdInlineGo fuel l (i + 1) "" (!inItalic) inBold st1
      else
        mdInlineGo fuel l (i + 1) (currentText ++ String.singleton c)
          inItalic inBold st
    else
      if currentText ≠ "" then mdAddText st currentText inItalic inBold else st

/-- `parseInline`: image removal, then the inline scan. -/
def mdParseInline (st : MdSt) (text : String) : MdSt :=
  let cleaned := removeImagesAux (text.data.length + 1) text.data
  mdInlineGo (cleaned.length + 1) cleaned 0 "" false false st

/-- `flushBlock`. -/
def mdFlushBlock (st : MdSt) (wrapperStart wrapperEnd : String) : MdSt :=
  if st.curHtml.length > 0 ∨ wrapperStart ≠ "" then
    { st with
      blocks := st.blocks ++ [⟨MdBlockType.text,
        wrapperStart ++ String.join st.curHtml ++ wrapperEnd,
        st.curWordStart, (st.wordIndex : Int) - 1⟩]
      curHtml := []
      curWordStart := st.wordIndex }
  else { st with curHtml := [], curWordStart := st.wordIndex }

/-- `startParagraph`. -/
def mdStartParagraph (st : MdSt) : MdSt :=
  if st.wordIndex > 0 then
    { st with
      paragraphIndex := st.paragraphIndex + 1
      paragraphStarts := st.paragraphStarts ++ [st.wordIndex] }
  else st

/-- `flushParagraph`. -/
def mdFlushParagraph (st : MdSt) : MdSt :=
  if st.paragraphLines.isEmpty then st
  else
    let paragraphText := String.intercalate " " st.paragraphLines
    let st1 := { st with paragraphLines := [] }
    let st2 := mdStartParagraph st1
    let st3 := { st2 with curWordStart := st2.wordIndex, curHtml := [] }
    let st4 := mdParseInline st3 paragraphText
    mdFlushBlock st4 "<p>" "</p>"

/-- One `<li>` iteration of `flushList`. -/
def mdListItemStep (acc : MdSt) (item : String) : MdSt :=
  let a1 := mdStartParagraph acc
  let a2 := { a1 with curHtml := a1.curHtml ++ ["<li>"] }
  let a3 := mdParseInline a2 item
  { a3 with curHtml := a3.curHtml ++ ["</li>"] }

/-- `flushList`. -/
def mdFlushList (st : MdSt) : MdSt :=
  if st.listItems.isEmpty ∨ st.listType = none then st
  else
    let tag := if st.listType = some true then "ul" else "ol"
    let listWordStart := st.wordIndex
    let st1 := { st with curHtml := ["<" ++ tag ++ ">"] }
    let st2 := st1.listItems.foldl mdListItemStep st1
    let st3 := { st2 with curHtml := st2.curHtml ++ ["</" ++ tag ++ ">"] }
    { st3 with
      blocks := st3.blocks ++ [⟨MdBlockType.text, String.join st3.curHtml,
        listWordStart, (st3.wordIndex : Int) - 1⟩]
      listItems := []
      listType := none
      curHtml := []
      curWordStart := st3.wordIndex }

/-- `isContinuation` of the normalization pre-pass (embedded with both
source checks; the second is reachable only when the first failed, in which
case it returns false again). -/
def contWords : List String :=
  ["and", "or", "but", "with", "for", "to", "in", "on", "at", "the", "a",
   "an", "that", "which", "who", "whom"]

def contWordMatch (s : String) : Bool :=
  contWords.any (fun w =>
    (jsToLower s).data.take w.data.length = w.data &&
    !isWordChar ((jsToLower s).data.getD w.data.length ' '))

def isContinuation (line : String) : Bool :=
  let trimmed := jsTrim line
  if trimmed.data.isEmpty then false
  else if isLowerAlpha (trimmed.data.getD 0 ' ') then true
  else if contWordMatch trimmed then isLowerAlpha (trimmed.data.getD 0 ' ')
  else false

def endsPunct (s : String) : Bool :=
  match s.data.getLast? with
  | some c => c = '.' || c = '!' || c = '?' || c = ':' || c = ';'
  | none => false

def endsPunctQuote (s : String) : Bool :=
  match s.data.reverse with
  | q :: p :: _ =>
    (q = '\'' || q = '"') && (p = '.' || p = '!' || p = '?' || p = ':' || p = ';')
  | _ => false

def isIncomplete (line : String) : Bool :=
  let trimmed := jsTrim line
  if trimmed.data.isEmpty then false
  else if endsPunct trimmed then false
  else if endsPunctQuote trimmed then false
  else true

def startsFence (s : String) : Bool :=
  (jsTrim s).data.take 3 = ['`', '`', '`']

/-- First non-blank line index at or after `start`. -/
def skipBlank (lines : List String) (start : Nat) : Nat :=
  start + ((lines.drop start).takeWhile (fun ln => (jsTrim ln).data.isEmpty)).length

/-- The sentence-merge normalization pre-pass. -/
def mdNormAux (rawLines : List String) : Nat → Nat → List String
  | 0, _ => []
  | fuel + 1, i =>
    if i < rawLines.length then
      let line := rawLines.getD i ""
      let trimmed := jsTrim line
      if trimmed.data.take 3 = ['`', '`', '`'] then
        let copied := (rawLines.drop (i + 1)).takeWhile (fun ln => ¬ startsFence ln)
        let afterBody := i + 1 + copied.length
        if afterBody < rawLines.length then
          line :: (copied ++ [rawLines.getD afterBody ""]) ++
            mdNormAux rawLines fuel (afterBody + 1)
        else
          line :: copied ++ mdNormAux rawLines fuel afterBody
      else if ¬ trimmed.data.isEmpty ∧ isIncomplete trimmed then
        let j := skipBlank rawLines (i + 1)
        if i + 1 < j ∧ j < rawLines.length ∧ isContinuation (rawLines.getD j "") then
          line :: mdNormAux rawLines fuel j
        else
          line :: mdNormAux rawLines fuel (i + 1)
      else
        line :: mdNormAux rawLines fuel (i + 1)
    else []

/-- `/^(#{1,6})\s+(.+)$/` (the operand is already trimmed, so the greedy
whitespace run cannot reach the end of the line). -/
def headerMatch (s : String) : Option (Nat × String) :=
  let hashes := s.data.takeWhile (fun c => c = '#')
  let k := hashes.length
  let rest := s.data.drop k
  let wsRun := rest.takeWhile jsIsWs
  if 1 ≤ k ∧ k ≤ 6 ∧ wsRun.length > 0 ∧ (rest.drop wsRun.length).length > 0 then
    some (k, ⟨rest.drop wsRun.length⟩)
  else none

/-- `title.replace(/[*_`\[\]]/g, '')`. -/
def stripTitleChars (s : String) : String :=
  ⟨s.data.filter (fun c => !(c = '*' || c = '_' || c = '`' || c = '[' || c = ']'))⟩

/-- `/^[-*_]{3,}$/`. -/
def isHr (s : String) : Bool :=
  s.data.length ≥ 3 && s.data.all (fun c => c = '-' || c = '*' || c = '_')

/-- `/^>\s*/` stripped once. -/
def stripQuoteMark (s : String) : String :=
  match s.data with
  | '>' :: r => ⟨r.dropWhile jsIsWs⟩
  | _ => s

/-- `/^[\*\-\+]\s+/`. -/
def ulPrefixBool (s : String) : Bool :=
  match s.data with
  | c :: r => (c = '*' || c = '-' || c = '+') && !(r.takeWhile jsIsWs).isEmpty
  | [] => false

/-- `/^\*\*-\s+/`. -/
def boldListPrefixBool (s : String) : Bool :=
  match s.data with
  | '*' :: '*' :: '-' :: r => !(r.takeWhile jsIsWs).isEmpty
  | _ => false

/-- `/^\*\*-\s+(.+)$/`. -/
def boldListMatch (s : String) : Option String :=
  match s.data with
  | '*' :: '*' :: '-' :: r =>
    let wsRun := r.takeWhile jsIsWs
    if wsRun.length > 0 ∧ (r.drop wsRun.length).length > 0 then
      some ⟨r.drop wsRun.length⟩
    else none
  | _ => none

/-- `/^[\*\-\+]\s+(.+)$/`. -/
def ulMatch (s : String) : Option String :=
  match s.data with
  | c :: r =>
    if c = '*' ∨ c = '-' ∨ c = '+' then
      let wsRun := r.takeWhile jsIsWs
      if wsRun.length > 0 ∧ (r.drop wsRun.length).length > 0 then
        some ⟨r.drop wsRun.length⟩
      else none
    else none
  | [] => none

/-- `/^\d+\.\s+(.+)$/`. -/
def olMatch (s : String) : Option String :=
  let ds := s.data.takeWhile Char.isDigit
  if ds.length > 0 then
    match s.data.drop ds.length with
    | '.' :: r =>
      let wsRun := r.takeWhile jsIsWs
      if wsRun.length > 0 ∧ (r.drop wsRun.length).length > 0 then
        some ⟨r.drop wsRun.length⟩
      else none
    | _ => none
  else none

/-- The fenced-code HTML of a finished code block. -/
def mdCodeHtml (lang : String) (content : List String) : String :=
  "<pre><code class=\"language-" ++ escapeHtml lang ++ "\">" ++
    escapeHtml (String.intercalate "\n" content) ++ "</code></pre>"

/-- One iteration of the main line loop of `parseMarkdown`. -/
def mdProcessLine (st : MdSt) (line : String) : MdSt :=
  let trimmedLine := jsTrim line
  if trimmedLine.data.take 3 = ['`', '`', '`'] then
    let st1 := mdFlushList (mdFlushParagraph st)
    if ¬ st1.inCodeBlock then
      { st1 with
        inCodeBlock := true
        codeLang := jsTrim ⟨trimmedLine.data.drop 3⟩
        codeContent := [] }
    else
      { st1 with
        blocks := st1.blocks ++ [⟨MdBlockType.code,
          mdCodeHtml st1.codeLang st1.codeContent,
          st1.wordIndex, (st1.wordIndex : Int) - 1⟩]
        inCodeBlock := false
        codeContent := []
        codeLang := "" }
  else if st.inCodeBlock then
    { st with codeContent := st.codeContent ++ [line] }
  else if trimmedLine.data.isEmpty then
    mdFlushList (mdFlushParagraph st)
  else
    match headerMatch trimmedLine with
    | some (level, headerText) =>
      let st1 := mdFlushList (mdFlushParagraph st)
      let st2 := if level = 1 ∧ (st1.title = none ∨ st1.title = some "") then
          { st1 with title := some (stripTitleChars headerText) }
        else st1
      let st3 := mdStartParagraph st2
      let st4 := { st3 with
        curWordStart := st3.wordIndex
        curHtml := ["<h" ++ natToString level ++ ">"] }
      let st5 := mdParseInline st4 headerText
      let st6 := { st5 with
        curHtml := st5.curHtml ++ ["</h" ++ natToString level ++ ">"] }
      mdFlushBlock st6 "" ""
    | none =>
      if isHr trimmedLine then
        let st1 := mdFlushList (mdFlushParagraph st)
        { st1 with blocks := st1.blocks ++ [⟨MdBlockType.hr, "<hr>",
          st1.wordIndex, (st1.wordIndex : Int) - 1⟩] }
      else if trimmedLine.data.getD 0 ' ' = '>' ∧ trimmedLine.data.length > 0 then
        let st1 := mdFlushList (mdFlushParagraph st)
        let st2 := mdStartParagraph st1
        let st3 := { st2 with curWordStart := st2.wordIndex, curHtml := [] }
        let st4 := mdParseInline st3 (stripQuoteMark trimmedLine)
        mdFlushBlock st4 "<blockquote>" "</blockquote>"
      else
        let isIndented := (match line.data with
          | c :: _ => c = '\t' || c = ' '
          | [] => false) && trimmedLine.data.length > 0
        let isNested := isIndented &&
          (ulPrefixBool trimmedLine || boldListPrefixBool trimmedLine)
        if isIndented && !isNested then
          if st.listItems.length > 0 then
            { st with listItems := st.listItems.dropLast ++
              [(st.listItems.getLastD "") ++ " " ++ trimmedLine] }
          else
            { st with paragraphLines := st.paragraphLines ++ [trimmedLine] }
        else
          match boldListMatch trimmedLine with
          | some content =>
            let st1 := mdFlushParagraph st
            let st2 := if st1.listType = some false then mdFlushList st1 else st1
            { st2 with
              listType := some true
              listItems := st2.listItems ++ ["**" ++ content] }
          | none =>
            match ulMatch trimmedLine with
            | some content =>
              let st1 := mdFlushParagraph st
              let st2 := if st1.listType = some false then mdFlushList st1 else st1
              { st2 with
                listType := some true
                listItems := st2.listItems ++ [content] }
            | none =>
              match olMatch trimmedLine with
              | some content =>
                let st1 := mdFlushParagraph st
                let st2 := if st1.listType = some true then mdFlushList st1 else st1
                { st2 with
                  listType := some false
                  listItems := st2.listItems ++ [content] }
              | none =>
                let st1 := mdFlushList st
                { st1 with paragraphLines := st1.paragraphLines ++ [trimmedLine] }

def blockWordCount (b : MdBlock) : Nat :=
  if b.wordEnd ≥ (b.wordStart : Int) then (b.wordEnd - b.wordStart + 1).toNat
  else 0

/-- One iteration of the pagination loop over content blocks: state is
(pageStarts, chapterContents, currentPageHtml, currentPageWordStart,
currentPageWordCount). -/
def mdPagStep (target : Nat)
    (acc : List Nat × List ChapterContent × List String × Nat × Nat)
    (b : MdBlock) : List Nat × List ChapterContent × List String × Nat × Nat :=
  match acc with
  | (ps, ccs, curHtml, curStart, curCount) =>
    let bc := blockWordCount b
    let next :=
      if curCount > 0 ∧ curCount + bc > target then
        (ps ++ [curStart + curCount],
         (if curHtml.length > 0 then
            ccs ++ [⟨ccs.length, String.join curHtml,
              ((curStart : Int), (curStart : Int) + curCount - 1)⟩]
          else ccs),
         ([] : List String), b.wordStart, 0)
      else (ps, ccs, curHtml, curStart, curCount)
    let ps1 := next.1
    let ccs1 := next.2.1
    let h2 := next.2.2.1 ++ [b.html]
    let s1 := next.2.2.2.1
    let c1 := next.2.2.2.2
    if bc > 0 then
      (ps1, ccs1, h2, (if c1 = 0 then b.wordStart else s1), c1 + bc)
    else
      (ps1, ccs1, h2, s1, c1)

def mdPagLoop (target : Nat)
    (blocks : List MdBlock)
    (acc : List Nat × List ChapterContent × List String × Nat × Nat) :
    List Nat × List ChapterContent × List String × Nat × Nat :=
  blocks.foldl (mdPagStep target) acc

/-- Pagination of the content blocks (`// Now create pages from content
blocks`), returning the page starts and the preview units. -/
def mdPaginate (blocks : List MdBlock) (target : Nat) :
    List Nat × List ChapterContent :=
  let r := mdPagLoop target blocks ([0], [], [], 0, 0)
  let ps := r.1
  let ccs := r.2.1
  let curHtml := r.2.2.1
  let curStart := r.2.2.2.1
  let curCount := r.2.2.2.2
  if curHtml.length > 0 ∧ curCount > 0 then
    (ps, ccs ++ [⟨ccs.length, String.join curHtml,
      ((curStart : Int), (curStart : Int) + curCount - 1)⟩])
  else (ps, ccs)

/-- JS `x || d` on an optional string (`undefined` and `""` are falsy). -/
def jsOrDefault (o : Option String) (d : String) : String :=
  match o with
  | some s => if s = "" then d else s
  | none => d

/-- The result record of `parseMarkdown`. -/
structure MarkdownParseOut where
  document : ParsedDocument
  title : Option String
  preview : Option PreviewContent
deriving Repr, DecidableEq, Inhabited

/-- `parseMarkdown` from the markdown adapter. -/
def parseMarkdown (markdown : String) (target : Nat := 250) : MarkdownParseOut :=
  let rawLines := jsSplitOn '\n' markdown
  let lines := mdNormAux rawLines (rawLines.length + 1) 0
  let st0 : MdSt := ⟨[], [0], 0, 0, none, [], 0, [], false, [], "", [], [], none⟩
  let st1 := lines.foldl mdProcessLine st0
  let st2 := mdFlushList (mdFlushParagraph st1)
  let st3 := if st2.inCodeBlock ∧ st2.codeContent.length > 0 then
      { st2 with blocks := st2.blocks ++ [⟨MdBlockType.code,
        mdCodeHtml st2.codeLang st2.codeContent,
        st2.wordIndex, (st2.wordIndex : Int) - 1⟩] }
    else st2
  let pag := mdPaginate st3.blocks target
  let words := applyPageIdx st3.words pag.1
  let document : ParsedDocument := ⟨words, st3.paragraphStarts, pag.1,
    words.length, st3.paragraphStarts.length, pag.1.length⟩
  let chapters : List ChapterInfo := if st3.words.length > 0 then
      [⟨jsOrDefault st3.title "Document", "#document", none, none⟩] else []
  let chapterStarts : List Nat := if st3.words.length > 0 then [0] else []
  ⟨document, st3.title,
    if pag.2.length > 0 then some ⟨pag.2, chapters, chapterStarts⟩ else none⟩

/-- The `data-word-index` values occurring in a markup string, in order. -/
def extractMarkersAux : Nat → List Char → List Nat
  | 0, _ => []
  | _ + 1, [] => []
  | fuel + 1, c :: rest =>
    if (c :: rest).take 17 = "data-word-index=\"".data then
      let ds := ((c :: rest).drop 17).takeWhile Char.isDigit
      (ds.foldl (fun a d => a * 10 + (d.toNat - 48)) 0) ::
        extractMarkersAux fuel ((c :: rest).drop (17 + ds.length))
    else extractMarkersAux fuel rest

def extractMarkers (s : String) : List Nat :=
  extractMarkersAux (s.data.length + 1) s.data

/-! ### Invariants of `parseMarkdown` -/

/-- Chained content blocks: each block starts at or after the running lower
bound, and `out` is the bound left after the last block
(`wordStart + blockWordCount`). -/
def BlocksChainFrom : Nat → List MdBlock → Nat → Prop
  | m, [], out => out = m
  | m, b :: rest, out =>
    m ≤ b.wordStart ∧ BlocksChainFrom (b.wordStart + blockWordCount b) rest out

/-- Core state invariant of the markdown block machine, stable under all
intermediate (inline-level) operations. -/
def MdCore (st : MdSt) : Prop :=
  st.wordIndex = st.words.length ∧
  List.Sorted (· ≤ ·) st.paragraphStarts ∧
  st.paragraphStarts.head? = some 0 ∧
  (∀ p ∈ st.paragraphStarts, p ≤ st.wordIndex) ∧
  st.curWordStart ≤ st.wordIndex ∧
  ∃ out, BlocksChainFrom 0 st.blocks out ∧ out ≤ st.curWordStart

/-- Line-level invariant: between two iterations of the main line loop the
current-block start always coincides with the word cursor. -/
def MdInv (st : MdSt) : Prop := MdCore st ∧ st.curWordStart = st.wordIndex

/-- The state extension produced by inline text processing: some words are
appended, the word cursor advances in step, and every line-machine field is
untouched. -/
def MdTextExt (st st' : MdSt) : Prop :=
  ∃ k, st'.words.length = st.words.length + k ∧
    st'.wordIndex = st.wordIndex + k ∧
    st'.paragraphStarts = st.paragraphStarts ∧
    st'.paragraphIndex = st.paragraphIndex ∧
    st'.title = st.title ∧
    st'.curWordStart = st.curWordStart ∧
    st'.blocks = st.blocks ∧
    st'.inCodeBlock = st.inCodeBlock ∧
    st'.codeContent = st.codeContent ∧
    st'.codeLang = st.codeLang ∧
    st'.paragraphLines = st.paragraphLines ∧
    st'.listItems = st.listItems ∧
    st'.listType = st.listType

theorem mdTextExt_refl (st : MdSt) : MdTextExt st st :=
  ⟨0, by simp⟩

theorem mdTextExt_trans {a b c : MdSt} (h1 : MdTextExt a b)
    (h2 : MdTextExt b c) : MdTextExt a c := by
  obtain ⟨k1, e1⟩ := h1
  obtain ⟨k2, e2⟩ := h2
  exact ⟨k1 + k2, by omega, by omega, by
    rw [e2.2.2.1, e1.2.2.1], by rw [e2.2.2.2.1, e1.2.2.2.1], by
    rw [e2.2.2.2.2.1, e1.2.2.2.2.1], by
    rw [e2.2.2.2.2.2.1, e1.2.2.2.2.2.1], by
    rw [e2.2.2.2.2.2.2.1, e1.2.2.2.2.2.2.1], by
    rw [e2.2.2.2.2.2.2.2.1, e1.2.2.2.2.2.2.2.1], by
    rw [e2.2.2.2.2.2.2.2.2.1, e1.2.2.2.2.2.2.2.2.1], by
    rw [e2.2.2.2.2.2.2.2.2.2.1, e1.2.2.2.2.2.2.2.2.2.1], by
    rw [e2.2.2.2.2.2.2.2.2.2.2.1, e1.2.2.2.2.2.2.2.2.2.2.1], by
    rw [e2.2.2.2.2.2.2.2.2.2.2.2.1, e1.2.2.2.2.2.2.2.2.2.2.2.1], by
    rw [e2.2.2.2.2.2.2.2.2.2.2.2.2, e1.2.2.2.2.2.2.2.2.2.2.2.2]⟩

theorem mdAddWord_ext (it bo : Bool) (st : MdSt) (w : String) :
    MdTextExt st (mdAddWord it bo st w) := by
  refine ⟨1, ?_⟩
  simp [mdAddWord]

theorem mdAddText_foldl_ext (it bo : Bool) (ws : List String) :
    ∀ st : MdSt, MdTextExt st (ws.foldl (mdAddWord it bo) st) := by
  induction ws with
  | nil => intro st; exact mdTextExt_refl st
  | cons w rest ih =>
    intro st
    exact mdTextExt_trans (mdAddWord_ext it bo st w) (ih _)

theorem mdAddText_ext (st : MdSt) (t : String) (it bo : Bool) :
    MdTextExt st (mdAddText st t it bo) :=
  mdAddText_foldl_ext it bo _ st

/-- A pure `curHtml` update is a (zero-word) text extension. -/
theorem mdCurHtml_ext (st : MdSt) (h : List String) :
    MdTextExt st { st with curHtml := h } :=
  ⟨0, by simp⟩

theorem mdInlineGo_ext : ∀ (fuel : Nat) (l : List Char) (i : Nat)
    (ct : String) (it bo : Bool) (st : MdSt),
    MdTextExt st (mdInlineGo fuel l i ct it bo st) := by
  intro fuel
  induction fuel with
  | zero => intro l i ct it bo st; exact mdTextExt_refl st
  | succ f ih =>
    intro l i ct it bo st
    rw [mdInlineGo]
    by_cases hi : i < l.length
    · rw [if_pos hi]
      dsimp only
      split
      · -- inline code
        have h1 : MdTextExt st (if ct ≠ "" then mdAddText st ct it bo else st) := by
          split
          · exact mdAddText_ext st ct it bo
          · exact mdTextExt_refl st
        split
        · exact mdTextExt_trans h1 (mdTextExt_trans (mdCurHtml_ext _ _) (ih _ _ _ _ _ _))
        · exact mdTextExt_trans h1 (ih _ _ _ _ _ _)
      · split
        · -- link
          split
          · rename_i hsome heq
            have h1 : MdTextExt st (if ct ≠ "" then mdAddText st ct it bo else st) := by
              split
              · exact mdAddText_ext st ct it bo
              · exact mdTextExt_refl st
            exact mdTextExt_trans h1 (mdTextExt_trans (mdCurHtml_ext _ _)
              (mdTextExt_trans (mdAddText_ext _ _ _ _)
                (mdTextExt_trans (mdCurHtml_ext _ _) (ih _ _ _ _ _ _))))
          · exact mdTextExt_refl st
        · have h1 : MdTextExt st (if ct ≠ "" then mdAddText st ct it bo else st) := by
            split
            · exact mdAddText_ext st ct it bo
            · exact mdTextExt_refl st
          repeat' split
          all_goals first
            | exact mdTextExt_trans h1 (ih _ _ _ _ _ _)
            | exact mdTextExt_trans (mdAddText_ext st ct it bo) (ih _ _ _ _ _ _)
            | exact ih _ _ _ _ _ _
    · rw [if_neg hi]
      split
      · exact mdAddText_ext st ct it bo
      · exact mdTextExt_refl st

theorem mdParseInline_ext (st : MdSt) (t : String) :
    MdTextExt st (mdParseInline st t) :=
  mdInlineGo_ext _ _ _ _ _ _ _

/-- `MdCore` is stable under inline text extension. -/
theorem mdTextExt_core {st st' : MdSt} (hc : MdCore st)
    (he : MdTextExt st st') : MdCore st' := by
  obtain ⟨hw, hsort, hhead, hmem, hcs, out, hch, hout⟩ := hc
  obtain ⟨k, e1, e2, e3, _, _, e6, e7, _⟩ := he
  refine ⟨by omega, by rw [e3]; exact hsort, by rw [e3]; exact hhead,
    ?_, by omega, out, by rw [e7]; exact hch, by omega⟩
  intro p hp
  rw [e3] at hp
  have := hmem p hp
  omega

theorem blocksChain_snoc (bs : List MdBlock) (b : MdBlock) :
    ∀ (m out : Nat), BlocksChainFrom m bs out → out ≤ b.wordStart →
    BlocksChainFrom m (bs ++ [b]) (b.wordStart + blockWordCount b) := by
  induction bs with
  | nil =>
    intro m out h hle
    simp only [BlocksChainFrom] at h
    simp only [List.nil_append, BlocksChainFrom]
    exact ⟨by omega, trivial⟩
  | cons hd tl ih =>
    intro m out h hle
    simp only [BlocksChainFrom] at h
    simp only [List.cons_append, BlocksChainFrom]
    exact ⟨h.1, ih _ _ h.2 hle⟩

theorem blockWordCount_le (b : MdBlock) (wi : Nat) (hws : b.wordStart ≤ wi)
    (hwe : b.wordEnd = (wi : Int) - 1) :
    b.wordStart + blockWordCount b ≤ wi := by
  unfold blockWordCount
  rw [hwe]
  split <;> omega

/-- Appending a block that starts at or after the current block start and
ends at the word cursor keeps the chain intact. -/
theorem mdCore_pushBlock {st : MdSt} (hc : MdCore st) (b : MdBlock)
    (hws : st.curWordStart ≤ b.wordStart) (hwsle : b.wordStart ≤ st.wordIndex)
    (hwe : b.wordEnd = (st.wordIndex : Int) - 1) :
    ∃ out, BlocksChainFrom 0 (st.blocks ++ [b]) out ∧ out ≤ st.wordIndex := by
  obtain ⟨_, _, _, _, hcs, out, hch, hout⟩ := hc
  exact ⟨b.wordStart + blockWordCount b,
    blocksChain_snoc _ _ _ _ hch (by omega),
    blockWordCount_le b _ hwsle hwe⟩

theorem mdFlushBlock_core {st : MdSt} (hc : MdCore st) (w1 w2 : String) :
    MdCore (mdFlushBlock st w1 w2) ∧
    (mdFlushBlock st w1 w2).curWordStart = st.wordIndex ∧
    (mdFlushBlock st w1 w2).words = st.words ∧
    (mdFlushBlock st w1 w2).wordIndex = st.wordIndex ∧
    (mdFlushBlock st w1 w2).paragraphStarts = st.paragraphStarts ∧
    (mdFlushBlock st w1 w2).paragraphIndex = st.paragraphIndex ∧
    (mdFlushBlock st w1 w2).title = st.title ∧
    (mdFlushBlock st w1 w2).inCodeBlock = st.inCodeBlock ∧
    (mdFlushBlock st w1 w2).codeContent = st.codeContent ∧
    (mdFlushBlock st w1 w2).codeLang = st.codeLang ∧
    (mdFlushBlock st w1 w2).paragraphLines = st.paragraphLines ∧
    (mdFlushBlock st w1 w2).listItems = st.listItems ∧
    (mdFlushBlock st w1 w2).listType = st.listType := by
  have hpush := mdCore_pushBlock hc ⟨MdBlockType.text,
    w1 ++ String.join st.curHtml ++ w2, st.curWordStart,
    (st.wordIndex : Int) - 1⟩ (le_refl _) hc.2.2.2.2.1 rfl
  obtain ⟨hw, hsort, hhead, hmem, hcs, out, hch, hout⟩ := hc
  unfold mdFlushBlock
  split
  · exact ⟨⟨hw, hsort, hhead, hmem, le_refl _, hpush⟩,
      rfl, rfl, rfl, rfl, rfl, rfl, rfl, rfl, rfl, rfl, rfl, rfl⟩
  · exact ⟨⟨hw, hsort, hhead, hmem, le_refl _, out, hch,
      le_trans hout hcs⟩,
      rfl, rfl, rfl, rfl, rfl, rfl, rfl, rfl, rfl, rfl, rfl, rfl⟩

theorem mdStartParagraph_core {st : MdSt} (hc : MdCore st) :
    MdCore (mdStartParagraph st) ∧
    (mdStartParagraph st).words = st.words ∧
    (mdStartParagraph st).wordIndex = st.wordIndex ∧
    (mdStartParagraph st).curWordStart = st.curWordStart ∧
    (mdStartParagraph st).curHtml = st.curHtml ∧
    (mdStartParagraph st).blocks = st.blocks ∧
    (mdStartParagraph st).title = st.title ∧
    (mdStartParagraph st).inCodeBlock = st.inCodeBlock ∧
    (mdStartParagraph st).codeContent = st.codeContent ∧
    (mdStartParagraph st).codeLang = st.codeLang ∧
    (mdStartParagraph st).paragraphLines = st.paragraphLines ∧
    (mdStartParagraph st).listItems = st.listItems ∧
    (mdStartParagraph st).listType = st.listType := by
  obtain ⟨hw, hsort, hhead, hmem, hcs, out, hch, hout⟩ := hc
  have hne : st.paragraphStarts ≠ [] := by
    intro hnil; rw [hnil] at hhead; simp at hhead
  unfold mdStartParagraph
  split
  · refine ⟨⟨hw, ?_, ?_, ?_, hcs, out, hch, hout⟩,
      rfl, rfl, rfl, rfl, rfl, rfl, rfl, rfl, rfl, rfl, rfl, rfl⟩
    · exact sorted_snoc _ _ hsort (fun y hy => hmem y hy)
    · rw [head?_append_of_ne_nil _ _ hne]; exact hhead
    · intro p hp
      rcases List.mem_append.mp hp with h | h
      · exact hmem p h
      · simp at h
        exact le_of_eq h
  · exact ⟨⟨hw, hsort, hhead, hmem, hcs, out, hch, hout⟩,
      rfl, rfl, rfl, rfl, rfl, rfl, rfl, rfl, rfl, rfl, rfl, rfl⟩

theorem mdFlushParagraph_inv {st : MdSt} (hinv : MdInv st) :
    MdInv (mdFlushParagraph st) := by
  obtain ⟨⟨hw, hsort, hhead, hmem, hcs, out, hch, hout⟩, heq⟩ := hinv
  unfold mdFlushParagraph
  split
  · exact ⟨⟨hw, hsort, hhead, hmem, hcs, out, hch, hout⟩, heq⟩
  · dsimp only
    have hc1 : MdCore { st with paragraphLines := [] } :=
      ⟨hw, hsort, hhead, hmem, hcs, out, hch, hout⟩
    have h2 := mdStartParagraph_core hc1
    obtain ⟨hc2, _, hwi2, hcws2, _, hbl2, _⟩ := h2
    obtain ⟨hw2, hsort2, hhead2, hmem2, hcs2, out2, hch2, hout2⟩ := hc2
    have hc3 : MdCore { mdStartParagraph { st with paragraphLines := [] } with
        curWordStart := (mdStartParagraph { st with paragraphLines := [] }).wordIndex
        curHtml := [] } := by
      refine ⟨hw2, hsort2, hhead2, hmem2, le_refl _, out2, hch2, ?_⟩
      simp only [hwi2, hcws2] at *
      omega
    have hext := mdParseInline_ext
      { mdStartParagraph { st with paragraphLines := [] } with
        curWordStart := (mdStartParagraph { st with paragraphLines := [] }).wordIndex
        curHtml := [] } (String.intercalate " " st.paragraphLines)
    have hc4 := mdTextExt_core hc3 hext
    have h5 := mdFlushBlock_core hc4 "<p>" "</p>"
    exact ⟨h5.1, by rw [h5.2.1, h5.2.2.2.1]⟩

theorem mdListItemStep_facts {acc : MdSt} (item : String)
    (hc : MdCore acc) :
    MdCore (mdListItemStep acc item) ∧
    (mdListItemStep acc item).blocks = acc.blocks ∧
    (mdListItemStep acc item).curWordStart = acc.curWordStart ∧
    acc.wordIndex ≤ (mdListItemStep acc item).wordIndex ∧
    (mdListItemStep acc item).listItems = acc.listItems ∧
    (mdListItemStep acc item).listType = acc.listType ∧
    (mdListItemStep acc item).paragraphLines = acc.paragraphLines := by
  have h1 := mdStartParagraph_core hc
  obtain ⟨hc1, _, hwi1, hcws1, _, hbl1, _, _, _, _, hpl1, hli1, hlt1⟩ := h1
  unfold mdListItemStep
  dsimp only
  have hc2 : MdCore { mdStartParagraph acc with
      curHtml := (mdStartParagraph acc).curHtml ++ ["<li>"] } := by
    obtain ⟨a, b, c, d, e, o, f, g⟩ := hc1
    exact ⟨a, b, c, d, e, o, f, g⟩
  have hext := mdParseInline_ext { mdStartParagraph acc with
      curHtml := (mdStartParagraph acc).curHtml ++ ["<li>"] } item
  have hc3 := mdTextExt_core hc2 hext
  obtain ⟨k, ek1, ek2, _, _, _, ek6, ek7, _, _, _, ek11, ek12, ek13⟩ := hext
  refine ⟨?_, ?_, ?_, ?_, ?_, ?_, ?_⟩
  · obtain ⟨a, b, c, d, e, o, f, g⟩ := hc3
    exact ⟨a, b, c, d, e, o, f, g⟩
  · rw [ek7]; exact hbl1
  · rw [ek6]; exact hcws1
  · rw [ek2, hwi1]; omega
  · rw [ek12]; exact hli1
  · rw [ek13]; exact hlt1
  · rw [ek11]; exact hpl1

theorem mdListFold_facts (items : List String) :
    ∀ acc : MdSt, MdCore acc →
    MdCore (items.foldl mdListItemStep acc) ∧
    (items.foldl mdListItemStep acc).blocks = acc.blocks ∧
    (items.foldl mdListItemStep acc).curWordStart = acc.curWordStart ∧
    acc.wordIndex ≤ (items.foldl mdListItemStep acc).wordIndex := by
  induction items with
  | nil => intro acc hc; exact ⟨hc, rfl, rfl, le_refl _⟩
  | cons item rest ih =>
    intro acc hc
    simp only [List.foldl_cons]
    have h1 := mdListItemStep_facts item hc
    have h2 := ih (mdListItemStep acc item) h1.1
    refine ⟨h2.1, ?_, ?_, ?_⟩
    · rw [h2.2.1, h1.2.1]
    · rw [h2.2.2.1, h1.2.2.1]
    · calc acc.wordIndex ≤ (mdListItemStep acc item).wordIndex := h1.2.2.2.1
        _ ≤ _ := h2.2.2.2

theorem mdFlushList_inv {st : MdSt} (hinv : MdInv st) :
    MdInv (mdFlushList st) := by
  obtain ⟨⟨hw, hsort, hhead, hmem, hcs, out, hch, hout⟩, heq⟩ := hinv
  unfold mdFlushList
  split
  · exact ⟨⟨hw, hsort, hhead, hmem, hcs, out, hch, hout⟩, heq⟩
  · dsimp only
    have hc1 : MdCore { st with curHtml :=
        ["<" ++ (if st.listType = some true then "ul" else "ol") ++ ">"] } :=
      ⟨hw, hsort, hhead, hmem, hcs, out, hch, hout⟩
    have h2 := mdListFold_facts st.listItems _ hc1
    obtain ⟨hc2, hbl2, hcws2, hwi2⟩ := h2
    obtain ⟨hw2, hsort2, hhead2, hmem2, hcs2, out2, hch2, hout2⟩ := hc2
    dsimp only at hbl2 hcws2 hwi2
    have hcore2 : MdCore (List.foldl mdListItemStep
        { st with curHtml :=
          ["<" ++ (if st.listType = some true then "ul" else "ol") ++ ">"] }
        st.listItems) :=
      ⟨hw2, hsort2, hhead2, hmem2, hcs2, out2, hch2, hout2⟩
    have hpush := mdCore_pushBlock hcore2 ⟨MdBlockType.text,
      String.join ((List.foldl mdListItemStep
        { st with curHtml :=
          ["<" ++ (if st.listType = some true then "ul" else "ol") ++ ">"] }
        st.listItems).curHtml ++
        ["</" ++ (if st.listType = some true then "ul" else "ol") ++ ">"]),
      st.wordIndex,
      ((List.foldl mdListItemStep
        { st with curHtml :=
          ["<" ++ (if st.listType = some true then "ul" else "ol") ++ ">"] }
        st.listItems).wordIndex : Int) - 1⟩
      (by rw [hcws2]; exact le_of_eq heq) (by exact hwi2) rfl
    constructor
    · refine ⟨hw2, hsort2, hhead2, hmem2, le_refl _, ?_⟩
      exact hpush
    · rfl

/-- Pushing a zero-word block at the word cursor preserves the line-level
invariant. -/
theorem mdInv_pushZeroBlock {s1 : MdSt} (h : MdInv s1) (ty : MdBlockType)
    (html : String) :
    MdInv { s1 with blocks := s1.blocks ++
      [⟨ty, html, s1.wordIndex, (s1.wordIndex : Int) - 1⟩] } := by
  obtain ⟨hc, heq⟩ := h
  have hpush := mdCore_pushBlock hc
    ⟨ty, html, s1.wordIndex, (s1.wordIndex : Int) - 1⟩
    (le_of_eq heq) (le_refl _) rfl
  obtain ⟨a, b, c, d, e, _⟩ := hc
  obtain ⟨o2, hch2, hle2⟩ := hpush
  refine ⟨⟨a, b, c, d, e, o2, hch2, ?_⟩, heq⟩
  show o2 ≤ s1.curWordStart
  omega

/-- The close-of-code-block update preserves the invariant. -/
theorem mdInv_pushCodeBlock {s1 : MdSt} (h : MdInv s1) (html : String) :
    MdInv { s1 with
      blocks := s1.blocks ++
        [⟨MdBlockType.code, html, s1.wordIndex, (s1.wordIndex : Int) - 1⟩]
      inCodeBlock := false
      codeContent := []
      codeLang := "" } := by
  obtain ⟨hc, heq⟩ := h
  have hpush := mdCore_pushBlock hc
    ⟨MdBlockType.code, html, s1.wordIndex, (s1.wordIndex : Int) - 1⟩
    (le_of_eq heq) (le_refl _) rfl
  obtain ⟨a, b, c, d, e, _⟩ := hc
  obtain ⟨o2, hch2, hle2⟩ := hpush
  refine ⟨⟨a, b, c, d, e, o2, hch2, ?_⟩, heq⟩
  show o2 ≤ s1.curWordStart
  omega

/-- The inline-then-flush tail shared by the header and blockquote
branches. -/
theorem mdFlushAfterInline_inv {s2 st' : MdSt} (hc : MdCore s2)
    (h0 : List String) (txt : String)
    (hext : MdTextExt (mdParseInline
      { mdStartParagraph s2 with
        curWordStart := (mdStartParagraph s2).wordIndex
        curHtml := h0 } txt) st')
    (w1 w2 : String) : MdInv (mdFlushBlock st' w1 w2) := by
  have h1 := mdStartParagraph_core hc
  have hc3 : MdCore { mdStartParagraph s2 with
      curWordStart := (mdStartParagraph s2).wordIndex
      curHtml := h0 } := by
    obtain ⟨a, b, c, d, e, o, f, g⟩ := h1.1
    exact ⟨a, b, c, d, le_refl _, o, f, le_trans g e⟩
  have hc5 := mdTextExt_core hc3
    (mdTextExt_trans (mdParseInline_ext _ txt) hext)
  have h6 := mdFlushBlock_core hc5 w1 w2
  exact ⟨h6.1, by rw [h6.2.1, h6.2.2.2.1]⟩

/-- The main line loop preserves the invariant. -/
theorem mdProcessLine_inv {st : MdSt} (hinv : MdInv st) (line : String) :
    MdInv (mdProcessLine st line) := by
  obtain ⟨⟨hw, hsort, hhead, hmem, hcs, out, hch, hout⟩, heq⟩ := hinv
  have hflushes : MdInv (mdFlushList (mdFlushParagraph st)) :=
    mdFlushList_inv (mdFlushParagraph_inv
      ⟨⟨hw, hsort, hhead, hmem, hcs, out, hch, hout⟩, heq⟩)
  unfold mdProcessLine
  dsimp only
  split
  · -- fenced code marker
    split
    · obtain ⟨⟨a, b, c, d, e, o, f, g⟩, heq1⟩ := hflushes
      exact ⟨⟨a, b, c, d, e, o, f, g⟩, heq1⟩
    · exact mdInv_pushCodeBlock hflushes _
  · split
    · -- inside a code block
      exact ⟨⟨hw, hsort, hhead, hmem, hcs, out, hch, hout⟩, heq⟩
    · split
      · -- blank line
        exact hflushes
      · split
        · -- header
          rename_i level headerText _
          obtain ⟨hc1, heq1⟩ := hflushes
          have hc2 : MdCore (if level = 1 ∧
              ((mdFlushList (mdFlushParagraph st)).title = none ∨
               (mdFlushList (mdFlushParagraph st)).title = some "") then
              { mdFlushList (mdFlushParagraph st) with
                title := some (stripTitleChars headerText) }
            else mdFlushList (mdFlushParagraph st)) := by
            split
            · obtain ⟨a, b, c, d, e, o, f, g⟩ := hc1
              exact ⟨a, b, c, d, e, o, f, g⟩
            · exact hc1
          exact mdFlushAfterInline_inv hc2 _ headerText (mdCurHtml_ext _ _) _ _
        · split
          · -- horizontal rule
            exact mdInv_pushZeroBlock hflushes _ _
          · split
            · -- blockquote
              exact mdFlushAfterInline_inv hflushes.1 _ _
                (mdTextExt_refl _) _ _
            · split
              · -- indented continuation
                split
                · exact ⟨⟨hw, hsort, hhead, hmem, hcs, out, hch, hout⟩, heq⟩
                · exact ⟨⟨hw, hsort, hhead, hmem, hcs, out, hch, hout⟩, heq⟩
              · -- list items and the default branch
                have hfp : MdInv (mdFlushParagraph st) :=
                  mdFlushParagraph_inv
                    ⟨⟨hw, hsort, hhead, hmem, hcs, out, hch, hout⟩, heq⟩
                have hfl : MdInv (mdFlushList st) :=
                  mdFlushList_inv
                    ⟨⟨hw, hsort, hhead, hmem, hcs, out, hch, hout⟩, heq⟩
                split
                · -- bold list item
                  have h2 : MdInv (if (mdFlushParagraph st).listType = some false
                      then mdFlushList (mdFlushParagraph st)
                      else mdFlushParagraph st) := by
                    split
                    · exact mdFlushList_inv hfp
                    · exact hfp
                  obtain ⟨⟨a, b, c, d, e, o, f, g⟩, heq2⟩ := h2
                  exact ⟨⟨a, b, c, d, e, o, f, g⟩, heq2⟩
                · split
                  · -- unordered list item
                    have h2 : MdInv (if (mdFlushParagraph st).listType = some false
                        then mdFlushList (mdFlushParagraph st)
                        else mdFlushParagraph st) := by
                      split
                      · exact mdFlushList_inv hfp
                      · exact hfp
                    obtain ⟨⟨a, b, c, d, e, o, f, g⟩, heq2⟩ := h2
                    exact ⟨⟨a, b, c, d, e, o, f, g⟩, heq2⟩
                  · split
                    · -- ordered list item
                      have h2 : MdInv (if (mdFlushParagraph st).listType = some true
                          then mdFlushList (mdFlushParagraph st)
                          else mdFlushParagraph st) := by
                        split
                        · exact mdFlushList_inv hfp
                        · exact hfp
                      obtain ⟨⟨a, b, c, d, e, o, f, g⟩, heq2⟩ := h2
                      exact ⟨⟨a, b, c, d, e, o, f, g⟩, heq2⟩
                    · -- plain text line
                      obtain ⟨⟨a, b, c, d, e, o, f, g⟩, heq2⟩ := hfl
                      exact ⟨⟨a, b, c, d, e, o, f, g⟩, heq2⟩

/-- Invariant of the pagination loop: `ps` are the page starts so far, `s`
the current page's start, `c` its word count, and `m` the block chain's
running lower bound. -/
def PagInv (ps : List Nat) (s c m : Nat) : Prop :=
  List.Sorted (· < ·) ps ∧ ps.head? = some 0 ∧
  (0 < c → (∀ x ∈ ps, x ≤ s) ∧ s + c ≤ m) ∧
  (c = 0 → ∀ x ∈ ps, x ≤ m)

theorem mdPagStep_inv (target : Nat) (ps : List Nat)
    (ccs : List ChapterContent) (curHtml : List String) (s c m : Nat)
    (b : MdBlock) (hp : PagInv ps s c m) (hmb : m ≤ b.wordStart) :
    ∃ ps' ccs' h' s' c',
      mdPagStep target (ps, ccs, curHtml, s, c) b = (ps', ccs', h', s', c') ∧
      PagInv ps' s' c' (b.wordStart + blockWordCount b) := by
  obtain ⟨hsorted, hhead, hpos, hzero⟩ := hp
  have hne : ps ≠ [] := by
    intro hnil; rw [hnil] at hhead; simp at hhead
  unfold mdPagStep
  dsimp only
  by_cases hpush : c > 0 ∧ c + blockWordCount b > target
  · rw [if_pos hpush]
    dsimp only
    obtain ⟨hall, hscm⟩ := hpos hpush.1
    have hsorted' : List.Sorted (· < ·) (ps ++ [s + c]) :=
      sorted_snoc _ _ hsorted (fun y hy => by have := hall y hy; omega)
    have hhead' : (ps ++ [s + c]).head? = some 0 := by
      rw [head?_append_of_ne_nil _ _ hne]; exact hhead
    have hall' : ∀ x ∈ ps ++ [s + c], x ≤ b.wordStart := by
      intro x hx
      rcases List.mem_append.mp hx with h | h
      · have := hall x h; omega
      · simp at h; omega
    by_cases hbc : blockWordCount b > 0
    · rw [if_pos hbc, if_pos rfl]
      refine ⟨_, _, _, _, _, rfl, hsorted', hhead', ?_, ?_⟩
      · intro _
        exact ⟨hall', by omega⟩
      · intro h0; omega
    · rw [if_neg hbc]
      refine ⟨_, _, _, _, _, rfl, hsorted', hhead', ?_, ?_⟩
      · intro h0; omega
      · intro _
        intro x hx
        have := hall' x hx
        omega
  · rw [if_neg hpush]
    dsimp only
    by_cases hbc : blockWordCount b > 0
    · rw [if_pos hbc]
      by_cases hc0 : c = 0
      · rw [if_pos hc0]
        subst hc0
        refine ⟨_, _, _, _, _, rfl, hsorted, hhead, ?_, ?_⟩
        · intro _
          refine ⟨fun x hx => ?_, by omega⟩
          have := hzero rfl x hx
          omega
        · intro h0; omega
      · rw [if_neg hc0]
        obtain ⟨hall, hscm⟩ := hpos (by omega)
        refine ⟨_, _, _, _, _, rfl, hsorted, hhead, ?_, ?_⟩
        · intro _
          exact ⟨hall, by omega⟩
        · intro h0; omega
    · rw [if_neg hbc]
      refine ⟨_, _, _, _, _, rfl, hsorted, hhead, ?_, ?_⟩
      · intro hc
        obtain ⟨hall, hscm⟩ := hpos hc
        exact ⟨hall, by omega⟩
      · intro h0
        intro x hx
        have := hzero h0 x hx
        omega

theorem mdPagFold_inv (target : Nat) : ∀ (blocks : List MdBlock)
    (m outb : Nat), BlocksChainFrom m blocks outb →
    ∀ (ps : List Nat) (ccs : List ChapterContent) (curHtml : List String)
      (s c : Nat), PagInv ps s c m →
    List.Sorted (· < ·)
      (List.foldl (mdPagStep target) (ps, ccs, curHtml, s, c) blocks).1 ∧
    (List.foldl (mdPagStep target) (ps, ccs, curHtml, s, c) blocks).1.head? =
      some 0 := by
  intro blocks
  induction blocks with
  | nil =>
    intro m outb hchain ps ccs curHtml s c hp
    exact ⟨hp.1, hp.2.1⟩
  | cons b rest ih =>
    intro m outb hchain ps ccs curHtml s c hp
    simp only [BlocksChainFrom] at hchain
    obtain ⟨hmb, hchain'⟩ := hchain
    obtain ⟨ps', ccs', h', s', c', heq, hp'⟩ :=
      mdPagStep_inv target ps ccs curHtml s c m b hp hmb
    rw [List.foldl_cons, heq]
    exact ih _ _ hchain' ps' ccs' h' s' c' hp'

theorem mdPaginate_sorted (blocks : List MdBlock) (outb : Nat) (target : Nat)
    (h : BlocksChainFrom 0 blocks outb) :
    List.Sorted (· < ·) (mdPaginate blocks target).1 ∧
    (mdPaginate blocks target).1.head? = some 0 := by
  have h0 : PagInv [0] 0 0 0 := by
    refine ⟨by simp, rfl, fun hc => by omega, fun _ x hx => ?_⟩
    simp at hx; omega
  have hres := mdPagFold_inv target blocks 0 outb h [0] [] [] 0 0 h0
  unfold mdPaginate mdPagLoop
  dsimp only
  split
  · exact hres
  · exact hres

/-- The full line fold preserves the invariant. -/
theorem mdFoldLines_inv (lines : List String) :
    ∀ st : MdSt, MdInv st → MdInv (lines.foldl mdProcessLine st) := by
  induction lines with
  | nil => intro st h; exact h
  | cons l rest ih =>
    intro st h
    rw [List.foldl_cons]
    exact ih _ (mdProcessLine_inv h l)

/-- Structural invariants of `parseMarkdown`: the page starts are strictly
increasing from 0, the paragraph starts are nondecreasing from 0 (duplicates
do occur), and every word's page index is the greatest page whose start is
at most the word's index. -/
theorem parseMarkdown_invariants (s : String) (target : Nat) :
    List.Sorted (· < ·) (parseMarkdown s target).document.pageStarts ∧
    (parseMarkdown s target).document.pageStarts.head? = some 0 ∧
    List.Sorted (· ≤ ·) (parseMarkdown s target).document.paragraphStarts ∧
    (parseMarkdown s target).document.paragraphStarts.head? = some 0 ∧
    ∀ k < (parseMarkdown s target).document.words.length,
      IsGreatestStart (parseMarkdown s target).document.pageStarts k
        (((parseMarkdown s target).document.words.getD k default).pageIndex) := by
  have hinv0 : MdInv ⟨[], [0], 0, 0, none, [], 0, [], false, [], "", [], [], none⟩ := by
    refine ⟨⟨rfl, by simp, rfl, ?_, le_refl _, 0, ?_, le_refl _⟩, rfl⟩
    · intro p hp; simp at hp; omega
    · simp only [BlocksChainFrom]
  have hinv1 := mdFoldLines_inv
    (mdNormAux (jsSplitOn '\n' s) ((jsSplitOn '\n' s).length + 1) 0)
    _ hinv0
  have hinv2 : MdInv (mdFlushList (mdFlushParagraph
      ((mdNormAux (jsSplitOn '\n' s) ((jsSplitOn '\n' s).length + 1) 0).foldl
        mdProcessLine ⟨[], [0], 0, 0, none, [], 0, [], false, [], "", [], [], none⟩))) :=
    mdFlushList_inv (mdFlushParagraph_inv hinv1)
  unfold parseMarkdown
  dsimp only
  generalize hgen : mdFlushList (mdFlushParagraph
      (List.foldl mdProcessLine
        ⟨[], [0], 0, 0, none, [], 0, [], false, [], "", [], [], none⟩
        (mdNormAux (jsSplitOn '\n' s) ((jsSplitOn '\n' s).length + 1) 0))) =
    s2 at hinv2 ⊢
  split
  · -- unclosed code block appended
    have hinv3 := mdInv_pushZeroBlock hinv2 MdBlockType.code
      (mdCodeHtml s2.codeLang s2.codeContent)
    obtain ⟨⟨hw3, hsort3, hhead3, hmem3, hcs3, out3, hch3, hout3⟩, heq3⟩ := hinv3
    have hps := mdPaginate_sorted _ out3 target hch3
    refine ⟨hps.1, hps.2, hsort3, hhead3, ?_⟩
    intro k hk
    rw [applyPageIdx, applyPageIdxGo_length] at hk
    exact applyPageIdx_greatest _ _ hps.1 hps.2 k hk
  · obtain ⟨⟨hw3, hsort3, hhead3, hmem3, hcs3, out3, hch3, hout3⟩, heq3⟩ := hinv2
    have hps := mdPaginate_sorted _ out3 target hch3
    refine ⟨hps.1, hps.2, hsort3, hhead3, ?_⟩
    intro k hk
    rw [applyPageIdx, applyPageIdxGo_length] at hk
    exact applyPageIdx_greatest _ _ hps.1 hps.2 k hk

set_option maxRecDepth 10000 in
/-- C9 (counterexample): the claimed word count for
"# Title\n\nHello world." is 2, but the header text "Title" is itself
parsed into the word stream, so the document has 3 words. -/
theorem C9_markdown_counterexample :
    (parseMarkdown "# Title\n\nHello world.").document.totalWords = 3 ∧
    (parseMarkdown "# Title\n\nHello world.").document.totalWords ≠ 2 := by
  refine ⟨rfl, ?_⟩
  intro h
  have h3 : (parseMarkdown "# Title\n\nHello world.").document.totalWords = 3 := rfl
  omega

set_option maxRecDepth 10000 in
/-- C9 (amended): parsing "# Title\n\nHello world." yields title "Title", a
document with 3 words ("Title", "Hello", "world."), and exactly one preview
unit whose markup carries the three data-word-index markers 0, 1, 2. -/
theorem C9_markdown_end_to_end :
    (parseMarkdown "# Title\n\nHello world.").title = some "Title" ∧
    (parseMarkdown "# Title\n\nHello world.").document.totalWords = 3 ∧
    (parseMarkdown "# Title\n\nHello world.").document.words.map
      (fun w => w.text) = ["Title", "Hello", "world."] ∧
    (parseMarkdown "# Title\n\nHello world.").preview.map
      (fun p => (p.chapterContents.length,
        p.chapterContents.map (fun c => extractMarkers c.htmlWithMarkers))) =
      some (1, [[0, 1, 2]]) := by
  exact ⟨rfl, rfl, rfl, rfl⟩

/-! ### `parseFb2` (fb2 adapter, part_006)

The `DOMParser` is the spec's sanctioned black box: the embedding takes the
parsed XML tree (`XNode`) as input.  A document whose XML failed to parse is
a tree containing a `parsererror` element, exactly what `DOMParser`
produces.  Elements and text nodes are the only node kinds the source ever
inspects. -/

mutual
inductive XNode where
  | text (content : String)
  | elem (tag : String) (children : XNodes)
deriving Inhabited
inductive XNodes where
  | nil
  | cons (hd : XNode) (tl : XNodes)
deriving Inhabited
end

/-- Build an `XNodes` list from a Lean list (used to write concrete trees). -/
def xnodesOf : List XNode → XNodes
  | [] => XNodes.nil
  | n :: t => XNodes.cons n (xnodesOf t)

def XNode.children : XNode → XNodes
  | XNode.text _ => XNodes.nil
  | XNode.elem _ cs => cs

mutual
/-- `querySelector(tag)`: depth-first, document-order search.  The `N`
variant considers the node itself (as `document.querySelector` does for the
root element); the `L` variant searches a child list (as
`element.querySelector` searches descendants only). -/
def fb2QSelL (tag : String) : XNodes → Option XNode
  | XNodes.nil => none
  | XNodes.cons n rest =>
    match fb2QSelN tag n with
    | some r => some r
    | none => fb2QSelL tag rest
def fb2QSelN (tag : String) : XNode → Option XNode
  | XNode.text _ => none
  | XNode.elem t cs =>
    if t = tag then some (XNode.elem t cs) else fb2QSelL tag cs
end

mutual
/-- `textContent`: concatenation of all descendant text, in order. -/
def fb2TextL : XNodes → String
  | XNodes.nil => ""
  | XNodes.cons n rest => fb2TextN n ++ fb2TextL rest
def fb2TextN : XNode → String
  | XNode.text s => s
  | XNode.elem _ cs => fb2TextL cs
end

/-- `querySelectorAll(':scope > tag')`: the direct element children with the
given tag, in order. -/
def fb2ChildElems (tag : String) : XNodes → List XNode
  | XNodes.nil => []
  | XNodes.cons n rest =>
    match n with
    | XNode.elem t cs =>
      if t = tag then XNode.elem t cs :: fb2ChildElems tag rest
      else fb2ChildElems tag rest
    | XNode.text _ => fb2ChildElems tag rest

/-- The mutable state of `parseFb2`'s extraction pass; `htmlParts` is the
per-chapter HTML accumulator. -/
structure Fb2St where
  words : List ParsedWord
  paragraphStarts : List Nat
  pageStarts : List Nat
  wordIndex : Nat
  paragraphIndex : Nat
  wordsOnCurrentPage : Nat
  currentPage : Nat
  htmlParts : List String
deriving Repr, DecidableEq, Inhabited

/-- The word push of `extractFromElement`'s text-node branch. -/
def fb2AddWord (italic bold : Bool) (st : Fb2St) (w : String) : Fb2St :=
  let html0 := "<span data-word-index=\"" ++ natToString st.wordIndex ++
    "\">" ++ escapeHtml w ++ "</span>"
  let html1 := if bold then "<strong>" ++ html0 ++ "</strong>" else html0
  let html2 := if italic then "<em>" ++ html1 ++ "</em>" else html1
  { st with
    words := st.words ++ [⟨w, st.paragraphIndex, st.currentPage, italic, bold⟩]
    htmlParts := st.htmlParts ++ [html2]
    wordIndex := st.wordIndex + 1
    wordsOnCurrentPage := st.wordsOnCurrentPage + 1 }

/-- The paragraph prologue of the `p` branch: page break check, then the
paragraph push (both only once words exist). -/
def fb2ParaStep (target : Nat) (st : Fb2St) : Fb2St :=
  if 0 < st.wordIndex then
    let stP :=
      if st.wordsOnCurrentPage ≥ target then
        { st with
          currentPage := st.currentPage + 1
          pageStarts := st.pageStarts ++ [st.wordIndex]
          wordsOnCurrentPage := 0 }
      else st
    { stP with
      paragraphIndex := stP.paragraphIndex + 1
      paragraphStarts := stP.paragraphStarts ++ [stP.wordIndex] }
  else st

mutual
/-- `extractFromElement`: `N` processes one child node, `L` a child list. -/
def fb2ExtractL (target : Nat) (italic bold : Bool) (st : Fb2St) :
    XNodes → Fb2St
  | XNodes.nil => st
  | XNodes.cons node rest =>
    fb2ExtractL target italic bold
      (fb2ExtractN target italic bold st node) rest
def fb2ExtractN (target : Nat) (italic bold : Bool) (st : Fb2St) :
    XNode → Fb2St
  | XNode.text content =>
    ((splitWs content).flatMap splitOnDashes).foldl
      (fb2AddWord italic bold) st
  | XNode.elem tag0 cs =>
    let tag := jsToLower tag0
    let isItalic := italic || tag = "emphasis"
    let isBold := bold || tag = "strong"
    if tag = "p" then
      let stA := fb2ParaStep target st
      let stB := { stA with htmlParts := stA.htmlParts ++ ["<p>"] }
      let stC := fb2ExtractL target isItalic isBold stB cs
      { stC with htmlParts := stC.htmlParts ++ ["</p>"] }
    else if tag = "empty-line" then
      if 0 < st.wordIndex then
        { st with
          paragraphIndex := st.paragraphIndex + 1
          paragraphStarts := st.paragraphStarts ++ [st.wordIndex] }
      else st
    else if tag = "title" then
      let stB := { st with htmlParts := st.htmlParts ++ ["<h2>"] }
      let stC := fb2ExtractL target isItalic isBold stB cs
      { stC with htmlParts := stC.htmlParts ++ ["</h2>"] }
    else if tag = "subtitle" then
      let stB := { st with htmlParts := st.htmlParts ++ ["<h3>"] }
      let stC := fb2ExtractL target isItalic isBold stB cs
      { stC with htmlParts := stC.htmlParts ++ ["</h3>"] }
    else if tag = "epigraph" ∨ tag = "cite" then
      let stB := { st with htmlParts := st.htmlParts ++ ["<blockquote>"] }
      let stC := fb2ExtractL target isItalic isBold stB cs
      { stC with htmlParts := stC.htmlParts ++ ["</blockquote>"] }
    else if tag = "poem" ∨ tag = "stanza" ∨ tag = "v" then
      let stB := { st with htmlParts := st.htmlParts ++ ["<p class=\"verse\">"] }
      let stC := fb2ExtractL target isItalic isBold stB cs
      { stC with htmlParts := stC.htmlParts ++ ["</p>"] }
    else
      fb2ExtractL target isItalic isBold st cs
end

/-- The per-section chapter loop of `parseFb2`. -/
def fb2Chapters (target : Nat) :
    List XNode → Fb2St → List ChapterInfo → List Nat → List ChapterContent →
    Fb2St × List ChapterInfo × List Nat × List ChapterContent
  | [], st, chs, css, ccs => (st, chs, css, ccs)
  | sec :: rest, st, chs, css, ccs =>
    let chapterStartIndex := st.wordIndex
    let chapterTitle :=
      match (fb2ChildElems "title" sec.children).head? with
      | some t =>
        let tt := jsTrim (fb2TextN t)
        if tt ≠ "" then tt else "Chapter " ++ natToString (chs.length + 1)
      | none => "Chapter " ++ natToString (chs.length + 1)
    let st0 := { st with htmlParts := ["<div class=\"chapter\">"] }
    let st1 :=
      if 0 < st0.wordIndex then
        { st0 with
          currentPage := st0.currentPage + 1
          pageStarts := st0.pageStarts ++ [st0.wordIndex]
          wordsOnCurrentPage := 0 }
      else st0
    let st2 := fb2ExtractL target false false st1 sec.children
    let st3 := { st2 with htmlParts := st2.htmlParts ++ ["</div>"] }
    if chapterStartIndex < st3.wordIndex then
      fb2Chapters target rest st3
        (chs ++ [⟨chapterTitle, "#chapter-" ++ natToString chs.length,
          none, none⟩])
        (css ++ [chapterStartIndex])
        (ccs ++ [⟨chs.length, String.join st3.htmlParts,
          ((chapterStartIndex : Int), (st3.wordIndex : Int) - 1)⟩])
    else fb2Chapters target rest st3 chs css ccs

/-- The result record of `parseFb2`. -/
structure Fb2Out where
  document : ParsedDocument
  title : Option String
  author : Option String
  preview : Option PreviewContent
deriving Repr, DecidableEq, Inhabited

/-- `parseFb2` over the parsed XML tree. -/
def parseFb2 (doc : XNode) (target : Nat := 250) : Except String Fb2Out :=
  if (fb2QSelN "parsererror" doc).isSome then
    Except.error "Invalid FB2 file: XML parse error"
  else
    let titleInfo := fb2QSelN "title-info" doc
    let title : Option String :=
      match titleInfo with
      | some ti =>
        match fb2QSelL "book-title" ti.children with
        | some bt =>
          let t := jsTrim (fb2TextN bt)
          if t ≠ "" then some t else none
        | none => none
      | none => none
    let author : Option String :=
      match titleInfo with
      | some ti =>
        match fb2QSelL "author" ti.children with
        | some a =>
          let firstName := match fb2QSelL "first-name" a.children with
            | some e => jsTrim (fb2TextN e)
            | none => ""
          let lastName := match fb2QSelL "last-name" a.children with
            | some e => jsTrim (fb2TextN e)
            | none => ""
          let middleName := match fb2QSelL "middle-name" a.children with
            | some e => jsTrim (fb2TextN e)
            | none => ""
          some (String.intercalate " "
            (([firstName, middleName, lastName]).filter (fun s => s ≠ "")))
        | none => none
      | none => none
    match fb2QSelN "body" doc with
    | none => Except.error "Invalid FB2 file: no body element found"
    | some body =>
      let st0 : Fb2St := ⟨[], [0], [0], 0, 0, 0, 0, []⟩
      let sections := fb2ChildElems "section" body.children
      let r :=
        if sections.length = 0 then
          let stA := { st0 with htmlParts := ["<div class=\"chapter\">"] }
          let stB := fb2ExtractL target false false stA body.children
          let stC := { stB with htmlParts := stB.htmlParts ++ ["</div>"] }
          if 0 < stC.wordIndex then
            (stC,
             [(⟨jsOrDefault title "Document", "#chapter-0", none, none⟩ :
                ChapterInfo)],
             [0],
             [(⟨0, String.join stC.htmlParts,
                ((0 : Int), (stC.wordIndex : Int) - 1)⟩ : ChapterContent)])
          else (stC, [], [], [])
        else fb2Chapters target sections st0 [] [] []
      let st := r.1
      let chapters := r.2.1
      let chapterStarts := r.2.2.1
      let chapterContents := r.2.2.2
      let words := applyPageIdx st.words st.pageStarts
      Except.ok ⟨⟨words, st.paragraphStarts, st.pageStarts, words.length,
        st.paragraphStarts.length, st.pageStarts.length⟩,
        title, author,
        if chapters.length > 0 then
          some ⟨chapterContents, chapters, chapterStarts⟩
        else none⟩

/-- `fb2Adapter.parse` given the parsed tree (reading the file and XML
parsing are the black-box steps in front of it). -/
def fb2AdapterParse (doc : XNode) : AdapterParseResult :=
  match parseFb2 doc with
  | Except.ok r =>
    ⟨r.document, r.title, r.author, r.preview, [], some "fb2"⟩
  | Except.error msg =>
    ⟨⟨[], [], [], 0, 0, 0⟩, none, none, none, [msg], some "fb2"⟩

/-- Invariant of the fb2 extraction state: word cursor in step with the
word list, both start arrays nondecreasing from 0 with entries bounded by
the cursor. -/
def Fb2Inv (st : Fb2St) : Prop :=
  st.wordIndex = st.words.length ∧
  List.Sorted (· ≤ ·) st.paragraphStarts ∧
  st.paragraphStarts.head? = some 0 ∧
  (∀ p ∈ st.paragraphStarts, p ≤ st.wordIndex) ∧
  List.Sorted (· ≤ ·) st.pageStarts ∧
  st.pageStarts.head? = some 0 ∧
  (∀ p ∈ st.pageStarts, p ≤ st.wordIndex)

theorem fb2Inv_pagePush {st : Fb2St} (h : Fb2Inv st) :
    Fb2Inv { st with currentPage := st.currentPage + 1
                     pageStarts := st.pageStarts ++ [st.wordIndex]
                     wordsOnCurrentPage := 0 } := by
  obtain ⟨hw, hps, hph, hpm, hgs, hgh, hgm⟩ := h
  have hne : st.pageStarts ≠ [] := by
    intro hnil; rw [hnil] at hgh; simp at hgh
  refine ⟨hw, hps, hph, hpm, ?_, ?_, ?_⟩
  · exact sorted_snoc _ _ hgs (fun y hy => hgm y hy)
  · rw [head?_append_of_ne_nil _ _ hne]; exact hgh
  · intro p hp
    rcases List.mem_append.mp hp with hh | hh
    · exact hgm p hh
    · simp at hh; exact le_of_eq hh

theorem fb2Inv_paraPush {st : Fb2St} (h : Fb2Inv st) :
    Fb2Inv { st with paragraphIndex := st.paragraphIndex + 1
                     paragraphStarts := st.paragraphStarts ++ [st.wordIndex] } := by
  obtain ⟨hw, hps, hph, hpm, hgs, hgh, hgm⟩ := h
  have hne : st.paragraphStarts ≠ [] := by
    intro hnil; rw [hnil] at hph; simp at hph
  refine ⟨hw, ?_, ?_, ?_, hgs, hgh, hgm⟩
  · exact sorted_snoc _ _ hps (fun y hy => hpm y hy)
  · rw [head?_append_of_ne_nil _ _ hne]; exact hph
  · intro p hp
    rcases List.mem_append.mp hp with hh | hh
    · exact hpm p hh
    · simp at hh; exact le_of_eq hh

theorem fb2AddWord_inv (italic bold : Bool) (st : Fb2St) (w : String)
    (h : Fb2Inv st) :
    Fb2Inv (fb2AddWord italic bold st w) ∧
    st.wordIndex ≤ (fb2AddWord italic bold st w).wordIndex := by
  obtain ⟨hw, hps, hph, hpm, hgs, hgh, hgm⟩ := h
  unfold fb2AddWord
  dsimp only
  refine ⟨⟨?_, hps, hph, ?_, hgs, hgh, ?_⟩, Nat.le_succ _⟩
  · simp [hw]
  · intro p hp; exact le_trans (hpm p hp) (Nat.le_succ _)
  · intro p hp; exact le_trans (hgm p hp) (Nat.le_succ _)

theorem fb2AddWords_inv (italic bold : Bool) (ws : List String) :
    ∀ st : Fb2St, Fb2Inv st →
    Fb2Inv (ws.foldl (fb2AddWord italic bold) st) ∧
    st.wordIndex ≤ (ws.foldl (fb2AddWord italic bold) st).wordIndex := by
  induction ws with
  | nil => intro st h; exact ⟨h, le_refl _⟩
  | cons w rest ih =>
    intro st h
    rw [List.foldl_cons]
    have h1 := fb2AddWord_inv italic bold st w h
    have h2 := ih _ h1.1
    exact ⟨h2.1, le_trans h1.2 h2.2⟩

theorem fb2ParaStep_inv (target : Nat) (st : Fb2St) (h : Fb2Inv st) :
    Fb2Inv (fb2ParaStep target st) ∧
    (fb2ParaStep target st).wordIndex = st.wordIndex := by
  unfold fb2ParaStep
  dsimp only
  split
  · split
    · exact ⟨fb2Inv_paraPush (fb2Inv_pagePush h), rfl⟩
    · exact ⟨fb2Inv_paraPush h, rfl⟩
  · exact ⟨h, rfl⟩

mutual
theorem fb2ExtractL_inv (target : Nat) (italic bold : Bool) (st : Fb2St)
    (ns : XNodes) (h : Fb2Inv st) :
    Fb2Inv (fb2ExtractL target italic bold st ns) ∧
    st.wordIndex ≤ (fb2ExtractL target italic bold st ns).wordIndex := by
  cases ns with
  | nil => exact ⟨h, le_refl _⟩
  | cons node rest =>
    rw [fb2ExtractL]
    have h1 := fb2ExtractN_inv target italic bold st node h
    have h2 := fb2ExtractL_inv target italic bold _ rest h1.1
    exact ⟨h2.1, le_trans h1.2 h2.2⟩
theorem fb2ExtractN_inv (target : Nat) (italic bold : Bool) (st : Fb2St)
    (node : XNode) (h : Fb2Inv st) :
    Fb2Inv (fb2ExtractN target italic bold st node) ∧
    st.wordIndex ≤ (fb2ExtractN target italic bold st node).wordIndex := by
  cases node with
  | text content =>
    rw [fb2ExtractN]
    exact fb2AddWords_inv italic bold _ st h
  | elem tag0 cs =>
    rw [fb2ExtractN]
    dsimp only
    split
    · -- p
      have hA := fb2ParaStep_inv target st h
      have hC := fb2ExtractL_inv target
        (italic || jsToLower tag0 = "emphasis")
        (bold || jsToLower tag0 = "strong")
        { fb2ParaStep target st with
          htmlParts := (fb2ParaStep target st).htmlParts ++ ["<p>"] }
        cs hA.1
      refine ⟨hC.1, ?_⟩
      have := hC.2
      rw [show ({ fb2ParaStep target st with
          htmlParts := (fb2ParaStep target st).htmlParts ++ ["<p>"] } :
          Fb2St).wordIndex = st.wordIndex from hA.2] at this
      exact this
    · split
      · -- empty-line
        split
        · exact ⟨fb2Inv_paraPush h, le_refl _⟩
        · exact ⟨h, le_refl _⟩
      · split
        · -- title
          exact fb2ExtractL_inv target
            (italic || jsToLower tag0 = "emphasis")
            (bold || jsToLower tag0 = "strong")
            { st with htmlParts := st.htmlParts ++ ["<h2>"] } cs h
        · split
          · -- subtitle
            exact fb2ExtractL_inv target
              (italic || jsToLower tag0 = "emphasis")
              (bold || jsToLower tag0 = "strong")
              { st with htmlParts := st.htmlParts ++ ["<h3>"] } cs h
          · split
            · -- epigraph, cite
              exact fb2ExtractL_inv target
                (italic || jsToLower tag0 = "emphasis")
                (bold || jsToLower tag0 = "strong")
                { st with htmlParts := st.htmlParts ++ ["<blockquote>"] } cs h
            · split
              · -- poem, stanza, v
                exact fb2ExtractL_inv target
                  (italic || jsToLower tag0 = "emphasis")
                  (bold || jsToLower tag0 = "strong")
                  { st with htmlParts := st.htmlParts ++ ["<p class=\"verse\">"] }
                  cs h
              · -- other elements
                exact fb2ExtractL_inv target
                  (italic || jsToLower tag0 = "emphasis")
                  (bold || jsToLower tag0 = "strong") st cs h

end

theorem fb2Inv_initial : Fb2Inv ⟨[], [0], [0], 0, 0, 0, 0, []⟩ := by
  refine ⟨rfl, by simp, rfl, ?_, by simp, rfl, ?_⟩
  · intro p hp; simp at hp; omega
  · intro p hp; simp at hp; omega

theorem fb2Chapters_inv (target : Nat) : ∀ (secs : List XNode) (st : Fb2St)
    (chs : List ChapterInfo) (css : List Nat) (ccs : List ChapterContent),
    Fb2Inv st → Fb2Inv (fb2Chapters target secs st chs css ccs).1 := by
  intro secs
  induction secs with
  | nil => intro st chs css ccs h; exact h
  | cons sec rest ih =>
    intro st chs css ccs h
    rw [fb2Chapters]
    dsimp only
    split
    · split
      · exact ih _ _ _ _
          (fb2ExtractL_inv target false false _ sec.children
            (by
              exact @fb2Inv_pagePush
                ({ st with htmlParts := ["<div class=\"chapter\">"] }) h)).1
      · exact ih _ _ _ _
          (fb2ExtractL_inv target false false _ sec.children
            (by
              exact @fb2Inv_pagePush
                ({ st with htmlParts := ["<div class=\"chapter\">"] }) h)).1
    · split
      · exact ih _ _ _ _
          (fb2ExtractL_inv target false false _ sec.children (by exact h)).1
      · exact ih _ _ _ _
          (fb2ExtractL_inv target false false _ sec.children (by exact h)).1

/-- Structural invariants of `parseFb2` on success: both start arrays are
nondecreasing from 0 (duplicates can occur, e.g. a section boundary right
after a page break with no intervening words), and whenever the page starts
happen to be strictly increasing, every word's page index is the greatest
page whose start is at most the word's index. -/
theorem parseFb2_invariants (doc : XNode) (target : Nat) (out : Fb2Out)
    (h : parseFb2 doc target = Except.ok out) :
    List.Sorted (· ≤ ·) out.document.pageStarts ∧
    out.document.pageStarts.head? = some 0 ∧
    List.Sorted (· ≤ ·) out.document.paragraphStarts ∧
    out.document.paragraphStarts.head? = some 0 ∧
    (List.Sorted (· < ·) out.document.pageStarts →
      ∀ k < out.document.words.length,
        IsGreatestStart out.document.pageStarts k
          ((out.document.words.getD k default).pageIndex)) := by
  unfold parseFb2 at h
  split at h
  · exact absurd h (by simp)
  · dsimp only at h
    split at h
    · exact absurd h (by simp)
    · rename_i body hbody
      rw [Except.ok.injEq] at h
      subst h
      dsimp only
      split
      · -- no sections: the whole body is one chapter
        split
        · have hinv := (fb2ExtractL_inv target false false
            ⟨[], [0], [0], 0, 0, 0, 0, ["<div class=\"chapter\">"]⟩
            body.children (by exact fb2Inv_initial)).1
          obtain ⟨hw, hps, hph, hpm, hgs, hgh, hgm⟩ := hinv
          refine ⟨hgs, hgh, hps, hph, ?_⟩
          intro hstrict k hk
          rw [applyPageIdx, applyPageIdxGo_length] at hk
          exact applyPageIdx_greatest _ _ hstrict hgh k hk
        · have hinv := (fb2ExtractL_inv target false false
            ⟨[], [0], [0], 0, 0, 0, 0, ["<div class=\"chapter\">"]⟩
            body.children (by exact fb2Inv_initial)).1
          obtain ⟨hw, hps, hph, hpm, hgs, hgh, hgm⟩ := hinv
          refine ⟨hgs, hgh, hps, hph, ?_⟩
          intro hstrict k hk
          rw [applyPageIdx, applyPageIdxGo_length] at hk
          exact applyPageIdx_greatest _ _ hstrict hgh k hk
      · -- per-section chapters
        have hinv := fb2Chapters_inv target
          (fb2ChildElems "section" body.children)
          ⟨[], [0], [0], 0, 0, 0, 0, []⟩ [] [] [] fb2Inv_initial
        obtain ⟨hw, hps, hph, hpm, hgs, hgh, hgm⟩ := hinv
        refine ⟨hgs, hgh, hps, hph, ?_⟩
        intro hstrict k hk
        rw [applyPageIdx, applyPageIdxGo_length] at hk
        exact applyPageIdx_greatest _ _ hstrict hgh k hk

/-- C1 (counterexample): for the markdown input
"Hello\n\n![a](b)\n\n![c](d)\n\nWorld" the image-only paragraphs push the
same word index repeatedly, so paragraphStarts is [0, 1, 1, 1] — not
strictly increasing as claimed. -/
theorem C1_markdown_counterexample :
    (parseMarkdown "Hello\n\n![a](b)\n\n![c](d)\n\nWorld").document.paragraphStarts =
      [0, 1, 1, 1] ∧
    ¬ List.Sorted (· < ·)
      (parseMarkdown "Hello\n\n![a](b)\n\n![c](d)\n\nWorld").document.paragraphStarts := by
  refine ⟨rfl, ?_⟩
  rw [show (parseMarkdown "Hello\n\n![a](b)\n\n![c](d)\n\nWorld").document.paragraphStarts =
    [0, 1, 1, 1] from rfl]
  decide

/-- C1 (amended): for the four embedded parsers, `pageStarts` and
`paragraphStarts` begin at 0 and are sorted, with the following precise
strengths: parseMobiText and parseRtfText yield strictly increasing arrays
(paragraphStarts may instead be empty, exactly when there are no words);
parseMarkdown yields strictly increasing pageStarts but only nondecreasing
paragraphStarts; parseFb2 yields nondecreasing arrays.  `words[i].pageIndex`
equals the greatest `k` with `pageStarts[k] <= i` for mobi, rtf and
markdown unconditionally, and for fb2 whenever its pageStarts are
duplicate-free. -/
theorem C1_parser_invariants :
    (∀ (text : String) (target : Nat),
      List.Sorted (· < ·) (parseMobiText text target).pageStarts ∧
      (parseMobiText text target).pageStarts.head? = some 0 ∧
      List.Sorted (· < ·) (parseMobiText text target).paragraphStarts ∧
      ((parseMobiText text target).paragraphStarts.head? = some 0 ∨
        ((parseMobiText text target).paragraphStarts = [] ∧
         (parseMobiText text target).words = [])) ∧
      ∀ k < (parseMobiText text target).words.length,
        IsGreatestStart (parseMobiText text target).pageStarts k
          (((parseMobiText text target).words.getD k default).pageIndex)) ∧
    (∀ (r : RtfResult) (target : Nat),
      List.Sorted (· < ·) (parseRtfText r target).pageStarts ∧
      (parseRtfText r target).pageStarts.head? = some 0 ∧
      List.Sorted (· < ·) (parseRtfText r target).paragraphStarts ∧
      ((parseRtfText r target).paragraphStarts.head? = some 0 ∨
        ((parseRtfText r target).paragraphStarts = [] ∧
         (parseRtfText r target).words = [])) ∧
      ∀ k < (parseRtfText r target).words.length,
        IsGreatestStart (parseRtfText r target).pageStarts k
          (((parseRtfText r target).words.getD k default).pageIndex)) ∧
    (∀ (s : String) (target : Nat),
      List.Sorted (· < ·) (parseMarkdown s target).document.pageStarts ∧
      (parseMarkdown s target).document.pageStarts.head? = some 0 ∧
      List.Sorted (· ≤ ·) (parseMarkdown s target).document.paragraphStarts ∧
      (parseMarkdown s target).document.paragraphStarts.head? = some 0 ∧
      ∀ k < (parseMarkdown s target).document.words.length,
        IsGreatestStart (parseMarkdown s target).document.pageStarts k
          (((parseMarkdown s target).document.words.getD k default).pageIndex)) ∧
    (∀ (doc : XNode) (target : Nat) (out : Fb2Out),
      parseFb2 doc target = Except.ok out →
      List.Sorted (· ≤ ·) out.document.pageStarts ∧
      out.document.pageStarts.head? = some 0 ∧
      List.Sorted (· ≤ ·) out.document.paragraphStarts ∧
      out.document.paragraphStarts.head? = some 0 ∧
      (List.Sorted (· < ·) out.document.pageStarts →
        ∀ k < out.document.words.length,
          IsGreatestStart out.document.pageStarts k
            ((out.document.words.getD k default).pageIndex))) :=
  ⟨fun text target => parseMobiText_invariants text target,
   fun r target => parseRtfText_invariants r target,
   fun s target => parseMarkdown_invariants s target,
   fun doc target out h => parseFb2_invariants doc target out h⟩

/-- A minimal well-formed fb2 tree used to instantiate the fb2 conjunct. -/
def fb2WitnessDoc : XNode :=
  XNode.elem "FictionBook" (xnodesOf
    [XNode.elem "body" (xnodesOf
      [XNode.elem "section" (xnodesOf
        [XNode.elem "p" (xnodesOf [XNode.text "hello world"])])])])

theorem C1_parser_invariants_witness :
    (0 < (parseMobiText "hello world" 250).words.length ∧
      IsGreatestStart (parseMobiText "hello world" 250).pageStarts 0
        (((parseMobiText "hello world" 250).words.getD 0 default).pageIndex)) ∧
    (0 < (parseRtfText ⟨"hello world", [], []⟩ 250).words.length ∧
      IsGreatestStart (parseRtfText ⟨"hello world", [], []⟩ 250).pageStarts 0
        (((parseRtfText ⟨"hello world", [], []⟩ 250).words.getD 0
          default).pageIndex)) ∧
    (0 < (parseMarkdown "hello world" 250).document.words.length ∧
      IsGreatestStart (parseMarkdown "hello world" 250).document.pageStarts 0
        (((parseMarkdown "hello world" 250).document.words.getD 0
          default).pageIndex)) ∧
    (parseFb2 fb2WitnessDoc 250 =
        Except.ok ((parseFb2 fb2WitnessDoc 250).toOption.getD default) ∧
      List.Sorted (· < ·)
        ((parseFb2 fb2WitnessDoc 250).toOption.getD default).document.pageStarts ∧
      0 < ((parseFb2 fb2WitnessDoc 250).toOption.getD
        default).document.words.length ∧
      IsGreatestStart
        ((parseFb2 fb2WitnessDoc 250).toOption.getD default).document.pageStarts
        0
        ((((parseFb2 fb2WitnessDoc 250).toOption.getD
          default).document.words.getD 0 default).pageIndex)) := by
  refine ⟨⟨by decide, (C1_parser_invariants.1 "hello world" 250).2.2.2.2 0
      (by decide)⟩,
    ⟨by decide, (C1_parser_invariants.2.1 ⟨"hello world", [], []⟩ 250).2.2.2.2 0
      (by decide)⟩,
    ⟨by decide, (C1_parser_invariants.2.2.1 "hello world" 250).2.2.2.2 0
      (by decide)⟩,
    rfl, by decide, by decide,
    (C1_parser_invariants.2.2.2 fb2WitnessDoc 250 _ rfl).2.2.2.2
      (by decide) 0 (by decide)⟩

/-! ### The RTF and MOBI adapter `parse` wrappers (C10)

`file.text()` / `file.arrayBuffer()` and `TextDecoder` are black boxes: the
embeddings take the file's string or byte list (and a total `decode`
function — the non-fatal utf-8 `TextDecoder` never throws, so its inner
`catch` fallback is unreachable).  A failed `DataView`/`Uint8Array`
construction throws a `RangeError`; its engine-supplied message is modelled
by a fixed string, which the theorems never depend on. -/

/-- JS `s || d` on strings (the empty string is falsy). -/
def jsOrElse (s d : String) : String := if s = "" then d else s

/-- `fileName.replace(/\.rtf$/i, '')`. -/
def rtfStripExt (name : String) : String :=
  if (jsToLower name).data.reverse.take 4 = ['f', 't', 'r', '.'] then
    ⟨name.data.take (name.data.length - 4)⟩
  else name

/-- `rtfAdapter.parse` given the file's text and name. -/
def rtfAdapterParse (rtf : String) (fileName : String) : AdapterParseResult :=
  if rtf.data.take 5 = ['\x7b', '\\', 'r', 't', 'f'] then
    ⟨parseRtfText (rtfToText rtf), some (rtfStripExt fileName), none, none,
      [], some "rtf"⟩
  else
    ⟨⟨[], [], [], 0, 0, 0⟩, none, none, none,
      ["Invalid RTF file: missing RTF header"], some "rtf"⟩

/-- `DataView.getUint16(off, false)`: big-endian, throws past the end. -/
def beU16 (bytes : List Nat) (off : Nat) : Except String Nat :=
  if off + 2 ≤ bytes.length then
    Except.ok ((bytes.getD off 0) % 256 * 256 + (bytes.getD (off + 1) 0) % 256)
  else Except.error "Offset is outside the bounds of the DataView"

/-- `DataView.getUint32(off, false)`. -/
def beU32 (bytes : List Nat) (off : Nat) : Except String Nat :=
  if off + 4 ≤ bytes.length then
    Except.ok ((bytes.getD off 0) % 256 * 16777216 +
      (bytes.getD (off + 1) 0) % 256 * 65536 +
      (bytes.getD (off + 2) 0) % 256 * 256 + (bytes.getD (off + 3) 0) % 256)
  else Except.error "Offset is outside the bounds of the DataView"

/-- `new Uint8Array(buffer, start, len)`: throws when the window falls
outside the buffer (or the length is negative). -/
def u8slice (bytes : List Nat) (start len : Int) : Except String (List Nat) :=
  if 0 ≤ start ∧ 0 ≤ len ∧ start.toNat + len.toNat ≤ bytes.length then
    Except.ok (((bytes.drop start.toNat).take len.toNat).map (fun b => b % 256))
  else Except.error "Invalid typed array length"

/-- The 32-byte null-terminated database name of `readPalmHeader`. -/
def palmName (bytes : List Nat) : String :=
  ⟨(((bytes.take 32).map (fun b => b % 256)).takeWhile
    (fun b => b ≠ 0)).map Char.ofNat⟩

/-- The record-offset loop of `readPalmHeader` (`getUint32(78 + i * 8)`
for each of the `recordCount` records; a read past the end throws). -/
def palmOffsets (bytes : List Nat) : Nat → Nat → Except String (List Nat)
  | 0, _ => Except.ok []
  | k + 1, i =>
    match beU32 bytes (78 + i * 8) with
    | Except.error e => Except.error e
    | Except.ok off =>
      match palmOffsets bytes k (i + 1) with
      | Except.error e => Except.error e
      | Except.ok rest => Except.ok (off :: rest)

/-- The full-name `try` block of `parseMobiFile`: any read failure falls
back to the PalmDB name. -/
def mobiTitle (bytes : List Nat) (record0Start : Nat) (ident : String)
    (name : String) : String :=
  if ident = "MOBI" then
    match beU32 bytes (record0Start + 84), beU32 bytes (record0Start + 88) with
    | Except.ok fullNameOffset, Except.ok fullNameLength =>
      if 0 < fullNameLength ∧ fullNameLength < 1000 then
        match u8slice bytes ((record0Start : Int) + fullNameOffset)
            fullNameLength with
        | Except.ok nameBytes =>
          let fullName : String :=
            ⟨(nameBytes.takeWhile (fun b => b ≠ 0)).map Char.ofNat⟩
          if jsTrim fullName ≠ "" then jsTrim fullName else name
        | Except.error _ => name
      else name
    | _, _ => name
  else name

/-- The text-record loop of `parseMobiFile` (record `i` from 1 while
`i <= textRecordCount && i < recordOffsets.length`); returns the decoded
parts and the unknown-compression warnings, in order. -/
def mobiRecords (bytes : List Nat) (offsets : List Nat) (compression : Nat)
    (decode : List Nat → String) :
    Nat → Nat → Except String (List String × List String)
  | 0, _ => Except.ok ([], [])
  | fuel + 1, i =>
    if i < offsets.length then
      let recordStart := offsets.getD i 0
      let recordEnd := if i + 1 < offsets.length then offsets.getD (i + 1) 0
        else bytes.length
      match u8slice bytes (recordStart : Int)
          ((recordEnd : Int) - (recordStart : Int)) with
      | Except.error e => Except.error e
      | Except.ok recordData =>
        if compression = 17480 then
          Except.error "HUFF/CDIC compression is not supported. Please convert the file to EPUB using Calibre."
        else
          let part :=
            if compression = 1 then decode recordData
            else if compression = 2 then decode (decompressPalmDoc recordData)
            else decode recordData
          let warns : List String :=
            if compression = 1 ∨ compression = 2 then []
            else ["Unknown compression type: " ++ natToString compression]
          match mobiRecords bytes offsets compression decode fuel (i + 1) with
          | Except.error e => Except.error e
          | Except.ok (parts, ws) => Except.ok (part :: parts, warns ++ ws)
    else Except.ok ([], [])

structure MobiParseOut where
  document : ParsedDocument
  title : String
  warnings : List String
deriving Repr, DecidableEq, Inhabited

/-- `parseMobiFile` over the file's bytes. -/
def parseMobiFile (bytes : List Nat) (decode : List Nat → String) :
    Except String MobiParseOut :=
  if bytes.length < 100 then
    Except.error "Invalid MOBI file: file too small"
  else
    let name := palmName bytes
    match beU16 bytes 76 with
    | Except.error e => Except.error e
    | Except.ok recordCount =>
      match palmOffsets bytes recordCount 0 with
      | Except.error e => Except.error e
      | Except.ok recordOffsets =>
        if recordCount < 2 then
          Except.error "Invalid MOBI file: not enough records"
        else
          let record0Start := recordOffsets.getD 0 0
          match u8slice bytes ((record0Start : Int) + 16) 4 with
          | Except.error e => Except.error e
          | Except.ok mobiIdent =>
            let mobiIdentStr : String := ⟨mobiIdent.map Char.ofNat⟩
            let warnPalm : List String :=
              if mobiIdentStr ≠ "MOBI" then
                ["File appears to be PalmDOC format, not MOBI"]
              else []
            match beU16 bytes record0Start with
            | Except.error e => Except.error e
            | Except.ok compression =>
              match beU16 bytes (record0Start + 12) with
              | Except.error e => Except.error e
              | Except.ok encryption =>
                if encryption ≠ 0 then
                  Except.error "This file is DRM-protected. QuickReader can only open DRM-free Kindle files."
                else
                  match beU16 bytes (record0Start + 8) with
                  | Except.error e => Except.error e
                  | Except.ok textRecordCount =>
                    let title := mobiTitle bytes record0Start mobiIdentStr name
                    match mobiRecords bytes recordOffsets compression decode
                        textRecordCount 1 with
                    | Except.error e => Except.error e
                    | Except.ok pw =>
                      let fullText := String.join pw.1
                      if fullText.length = 0 then
                        Except.error "No text content found in MOBI file"
                      else
                        Except.ok ⟨parseMobiText fullText 250, title,
                          warnPalm ++ pw.2⟩

/-- `fileName.replace(/\.(mobi|azw3?|prc)$/i, '')`. -/
def mobiStripExt (name : String) : String :=
  let lower := (jsToLower name).data.reverse
  let strip := fun (n : Nat) => (⟨name.data.take (name.data.length - n)⟩ : String)
  if lower.take 5 = ['i', 'b', 'o', 'm', '.'] then strip 5
  else if lower.take 5 = ['3', 'w', 'z', 'a', '.'] then strip 5
  else if lower.take 4 = ['w', 'z', 'a', '.'] then strip 4
  else if lower.take 4 = ['c', 'r', 'p', '.'] then strip 4
  else name

/-- `mobiAdapter.parse` given the file's bytes and name. -/
def mobiAdapterParse (bytes : List Nat) (fileName : String)
    (decode : List Nat → String) : AdapterParseResult :=
  match parseMobiFile bytes decode with
  | Except.ok result =>
    if result.document.totalWords = 0 then
      ⟨result.document, some (mobiStripExt fileName), none, none,
        ["No readable text found. For best results, convert to EPUB using Calibre."],
        some "mobi"⟩
    else
      ⟨result.document, some (jsOrElse result.title (mobiStripExt fileName)),
        none, none, result.warnings, some "mobi"⟩
  | Except.error msg =>
    ⟨⟨[], [], [], 0, 0, 0⟩, none, none, none, [msg], some "mobi"⟩

/-- A 120-byte MOBI file with a valid 2-record header whose record 0 sets
encryption type 1 (offset 12 within record 0). -/
def mobiDrmInput : List Nat :=
  List.replicate 76 0 ++ [0, 2] ++ [0, 0, 0, 100] ++ [0, 0, 0, 0] ++
  [0, 0, 0, 118] ++ List.replicate 10 0 ++ List.replicate 12 0 ++ [0, 1] ++
  List.replicate 6 0

/-- C10: each adapter turns its internal parse errors into a resolved
result: an empty document plus the thrown message as the only warning.
Conjuncts: (1) the RTF header check; (2) MOBI error propagation;
(3) the too-small MOBI trigger; (4) the not-enough-records trigger;
(5) the DRM-encryption trigger; (6) FB2 error propagation; (7) the FB2
parsererror trigger; (8) the FB2 missing-body trigger. -/
theorem C10_adapter_error_handling :
    (∀ (rtf fileName : String),
      ¬ rtf.data.take 5 = ['\x7b', '\\', 'r', 't', 'f'] →
      rtfAdapterParse rtf fileName =
        ⟨⟨[], [], [], 0, 0, 0⟩, none, none, none,
          ["Invalid RTF file: missing RTF header"], some "rtf"⟩) ∧
    (∀ (bytes : List Nat) (fileName : String) (decode : List Nat → String)
        (msg : String),
      parseMobiFile bytes decode = Except.error msg →
      mobiAdapterParse bytes fileName decode =
        ⟨⟨[], [], [], 0, 0, 0⟩, none, none, none, [msg], some "mobi"⟩) ∧
    (∀ (bytes : List Nat) (decode : List Nat → String),
      bytes.length < 100 →
      parseMobiFile bytes decode =
        Except.error "Invalid MOBI file: file too small") ∧
    (∀ (bytes : List Nat) (decode : List Nat → String) (rc : Nat),
      100 ≤ bytes.length → beU16 bytes 76 = Except.ok rc → rc < 2 →
      parseMobiFile bytes decode =
        Except.error "Invalid MOBI file: not enough records") ∧
    (∀ (bytes : List Nat) (decode : List Nat → String)
        (rc : Nat) (offs : List Nat) (ident : List Nat) (comp enc : Nat),
      100 ≤ bytes.length → beU16 bytes 76 = Except.ok rc →
      palmOffsets bytes rc 0 = Except.ok offs → ¬ rc < 2 →
      u8slice bytes ((offs.getD 0 0 : Int) + 16) 4 = Except.ok ident →
      beU16 bytes (offs.getD 0 0) = Except.ok comp →
      beU16 bytes (offs.getD 0 0 + 12) = Except.ok enc → enc ≠ 0 →
      parseMobiFile bytes decode = Except.error
        "This file is DRM-protected. QuickReader can only open DRM-free Kindle files.") ∧
    (∀ (doc : XNode) (msg : String),
      parseFb2 doc = Except.error msg →
      fb2AdapterParse doc =
        ⟨⟨[], [], [], 0, 0, 0⟩, none, none, none, [msg], some "fb2"⟩) ∧
    (∀ (doc : XNode) (target : Nat),
      (fb2QSelN "parsererror" doc).isSome →
      parseFb2 doc target = Except.error "Invalid FB2 file: XML parse error") ∧
    (∀ (doc : XNode) (target : Nat),
      ¬ (fb2QSelN "parsererror" doc).isSome →
      fb2QSelN "body" doc = none →
      parseFb2 doc target =
        Except.error "Invalid FB2 file: no body element found") := by
  refine ⟨?_, ?_, ?_, ?_, ?_, ?_, ?_, ?_⟩
  · intro rtf fileName h
    unfold rtfAdapterParse
    rw [if_neg h]
  · intro bytes fileName decode msg h
    unfold mobiAdapterParse
    rw [h]
  · intro bytes decode h
    unfold parseMobiFile
    rw [if_pos h]
  · intro bytes decode rc hlen hrc hlt
    unfold parseMobiFile
    rw [if_neg (by omega : ¬ bytes.length < 100)]
    dsimp only
    rw [hrc]
    dsimp only
    have hoffs : ∃ offs, palmOffsets bytes rc 0 = Except.ok offs := by
      interval_cases rc
      · exact ⟨[], rfl⟩
      · refine ⟨[(bytes.getD 78 0) % 256 * 16777216 +
          (bytes.getD 79 0) % 256 * 65536 +
          (bytes.getD 80 0) % 256 * 256 + (bytes.getD 81 0) % 256], ?_⟩
        rw [palmOffsets]
        rw [show beU32 bytes (78 + 0 * 8) = Except.ok
            ((bytes.getD 78 0) % 256 * 16777216 +
             (bytes.getD 79 0) % 256 * 65536 +
             (bytes.getD 80 0) % 256 * 256 + (bytes.getD 81 0) % 256) by
          unfold beU32
          rw [if_pos (by omega)]]
        rfl
    obtain ⟨offs, hoffs⟩ := hoffs
    rw [hoffs]
    try dsimp only
    rw [if_pos hlt]
  · intro bytes decode rc offs ident comp enc hlen hrc hoffs hge hident hcomp
      henc hneq
    unfold parseMobiFile
    rw [if_neg (by omega : ¬ bytes.length < 100)]
    try dsimp only
    rw [hrc]
    try dsimp only
    rw [hoffs]
    try dsimp only
    rw [if_neg hge]
    try dsimp only
    rw [hident]
    try dsimp only
    rw [hcomp]
    try dsimp only
    rw [henc]
    try dsimp only
    rw [if_pos hneq]
  · intro doc msg h
    unfold fb2AdapterParse
    rw [h]
  · intro doc target h
    unfold parseFb2
    rw [if_pos h]
  · intro doc target h1 h2
    unfold parseFb2
    rw [if_neg h1]
    dsimp only
    rw [h2]

set_option maxRecDepth 40000 in
theorem C10_adapter_error_handling_witness :
    (¬ ("hello" : String).data.take 5 = ['\x7b', '\\', 'r', 't', 'f'] ∧
      rtfAdapterParse "hello" "book.rtf" =
        ⟨⟨[], [], [], 0, 0, 0⟩, none, none, none,
          ["Invalid RTF file: missing RTF header"], some "rtf"⟩) ∧
    ((List.replicate 99 0).length < 100 ∧
      parseMobiFile (List.replicate 99 0) (fun _ => "") =
        Except.error "Invalid MOBI file: file too small") ∧
    (beU16 (List.replicate 100 0) 76 = Except.ok 0 ∧
      parseMobiFile (List.replicate 100 0) (fun _ => "") =
        Except.error "Invalid MOBI file: not enough records") ∧
    (beU16 mobiDrmInput 76 = Except.ok 2 ∧
      palmOffsets mobiDrmInput 2 0 = Except.ok [100, 118] ∧
      beU16 mobiDrmInput 112 = Except.ok 1 ∧
      parseMobiFile mobiDrmInput (fun _ => "") = Except.error
        "This file is DRM-protected. QuickReader can only open DRM-free Kindle files." ∧
      mobiAdapterParse mobiDrmInput "book.mobi" (fun _ => "") =
        ⟨⟨[], [], [], 0, 0, 0⟩, none, none, none,
          ["This file is DRM-protected. QuickReader can only open DRM-free Kindle files."],
          some "mobi"⟩) ∧
    ((fb2QSelN "parsererror" (XNode.elem "parsererror" XNodes.nil)).isSome ∧
      parseFb2 (XNode.elem "parsererror" XNodes.nil) 250 =
        Except.error "Invalid FB2 file: XML parse error") ∧
    (fb2QSelN "body" (XNode.elem "FictionBook" XNodes.nil) = none ∧
      parseFb2 (XNode.elem "FictionBook" XNodes.nil) =
        Except.error "Invalid FB2 file: no body element found" ∧
      fb2AdapterParse (XNode.elem "FictionBook" XNodes.nil) =
        ⟨⟨[], [], [], 0, 0, 0⟩, none, none, none,
          ["Invalid FB2 file: no body element found"], some "fb2"⟩) := by
  have hdrm : parseMobiFile mobiDrmInput (fun _ => "") = Except.error
      "This file is DRM-protected. QuickReader can only open DRM-free Kindle files." :=
    C10_adapter_error_handling.2.2.2.2.1 mobiDrmInput (fun _ => "") 2
      [100, 118] [0, 0, 0, 0] 0 1 (by decide) rfl rfl
      (by decide) rfl rfl rfl (by decide)
  have hnobody : parseFb2 (XNode.elem "FictionBook" XNodes.nil) =
      Except.error "Invalid FB2 file: no body element found" :=
    C10_adapter_error_handling.2.2.2.2.2.2.2
      (XNode.elem "FictionBook" XNodes.nil) 250 (by decide) rfl
  refine ⟨⟨by decide, C10_adapter_error_handling.1 "hello" "book.rtf"
      (by decide)⟩,
    ⟨by decide, C10_adapter_error_handling.2.2.1 (List.replicate 99 0)
      (fun _ => "") (by decide)⟩,
    ⟨rfl, C10_adapter_error_handling.2.2.2.1 (List.replicate 100 0)
      (fun _ => "") 0 (by decide) rfl (by decide)⟩,
    ⟨rfl, rfl, rfl, hdrm,
      C10_adapter_error_handling.2.1 mobiDrmInput "book.mobi" (fun _ => "")
        _ hdrm⟩,
    ⟨by decide, C10_adapter_error_handling.2.2.2.2.2.2.1
      (XNode.elem "parsererror" XNodes.nil) 250 (by decide)⟩,
    ⟨rfl, hnobody,
      C10_adapter_error_handling.2.2.2.2.2.1
        (XNode.elem "FictionBook" XNodes.nil) _ hnobody⟩⟩

end RSVP
